import Mathlib

/-!
Verification development for the B-Tree / B+-Tree indexing engine
(`src/core/btree.py`, `src/core/bplustree.py`, `src/core/trace.py`,
`src/core/metrics.py`, `src/core/validate.py`).

The Python code is embedded shallowly: every engine operation becomes a Lean
function over explicit state.  Mutation of node objects is modelled by
returning the rewritten subtree; the tracer, the metrics counters and the
node-id allocator are threaded through a state monad; Python exceptions
(IndexError, the validator's NameError, ValueError on construction) become an
error type.  Python's unbounded while-loops and the recursion over child
references are modelled with an explicit fuel parameter (the Python code
terminates on every finite tree, so any fuel larger than the tree height
behaves identically).  Keys are integers, as in every scenario of the test
suite.  The class-level node-id counter of `BTreeNode`/`BPlusTreeNode` is
modelled as a per-tree counter, which preserves the only property the code
relies on: distinct nodes of one tree have distinct ids.  The wall-clock
timer of `Metrics` is not modelled (real time); only the read/write counters
are.
-/

/-! ## Trace recorder (`src/core/trace.py`) -/

/-- Event types, one per member of `EventType` in `trace.py`. -/
inductive EvType where
  | visitNode
  | compareKey
  | descend
  | insertInLeaf
  | splitNode
  | newRoot
  | searchFound
  | searchNotFound
  | deleteRequest
  | deleteFound
  | deleteInLeaf
  | replaceWithPredecessor
  | underflow
  | redistribute
  | merge
  | shrinkRoot
deriving DecidableEq, Repr

/-- Payload values appearing in the `info` dict of an event. -/
inductive PVal where
  | pInt (i : Int)
  | pList (l : List Int)
  | pBool (b : Bool)
deriving DecidableEq, Repr

/-- One trace event (`Event` in `trace.py`): type, optional node id,
free-form info payload, operation sequence number. -/
structure Event where
  type : EvType
  nodeId : Option Nat
  info : List (String × PVal)
  opId : Nat
deriving DecidableEq, Repr

/-- State of the `Tracer` class: append-only event list, enabled flag,
operation counter used to tag events. -/
structure Tracer where
  events : List Event
  enabled : Bool
  currentOpId : Nat
deriving DecidableEq, Repr

/-- A fresh tracer: no events, enabled, op counter 0 (`Tracer.__init__`). -/
def Tracer.init : Tracer := ⟨[], true, 0⟩

/-- `Tracer.emit`: a no-op while disabled, otherwise appends the event tagged
with the current operation id. -/
def Tracer.emit (t : Tracer) (ty : EvType) (nodeId : Option Nat)
    (info : List (String × PVal)) : Tracer :=
  if t.enabled then
    { t with events := t.events ++ [⟨ty, nodeId, info, t.currentOpId⟩] }
  else t

/-- `Tracer.clear`: empties the log and advances the operation counter. -/
def Tracer.clear (t : Tracer) : Tracer :=
  { t with events := [], currentOpId := t.currentOpId + 1 }

/-! ## Metrics (`src/core/metrics.py`) -/

/-- Logical I/O counters of the `Metrics` class. -/
structure Metrics where
  reads : Nat
  writes : Nat
deriving DecidableEq, Repr

def Metrics.init : Metrics := ⟨0, 0⟩

/-- `Metrics.tick_node_access` counts as one read (`count_read`). -/
def Metrics.tickNodeAccess (m : Metrics) : Metrics :=
  { m with reads := m.reads + 1 }

/-! ## Python-level failures -/

/-- Failure modes of the embedded code: `indexError` models an out-of-range
list subscript; `valueError` models the constructor's fanout check;
`fuelExhausted` marks insufficient fuel (unreachable for adequate fuel). -/
inductive PyErr where
  | indexError
  | valueError (msg : String)
  | fuelExhausted
deriving DecidableEq, Repr

/-- Search result dictionary `{found, node_id, index, path}`. -/
structure SearchResult where
  found : Bool
  nodeId : Int
  index : Int
  path : List Nat
deriving DecidableEq, Repr

/-! ## B-Tree (`src/core/btree.py`) -/

/-- A `BTreeNode`: unique id, ordered key list, child list.  As in the
source, a node is a leaf exactly when its child list is empty (the
`is_leaf` property reads `len(self.children) == 0`). -/
inductive BNode where
  | mk (id : Nat) (keys : List Int) (children : List BNode)

def BNode.id : BNode → Nat
  | .mk i _ _ => i

def BNode.keys : BNode → List Int
  | .mk _ ks _ => ks

def BNode.children : BNode → List BNode
  | .mk _ _ cs => cs

/-- `BTreeNode.is_leaf`: true when the child list is empty. -/
def BNode.isLeaf (n : BNode) : Bool := n.children.isEmpty

mutual

def BNode.beq : BNode → BNode → Bool
  | .mk i ks cs, .mk i' ks' cs' => i == i' && ks == ks' && BNode.beqL cs cs'

def BNode.beqL : List BNode → List BNode → Bool
  | [], [] => true
  | c :: cs, d :: ds => BNode.beq c d && BNode.beqL cs ds
  | _, _ => false

end

instance : BEq BNode := ⟨BNode.beq⟩

mutual

/-- All keys of a subtree, node first then children left to right (used to
state key-set properties; the source exposes the same collection through
`get_all_nodes`). -/
def BNode.allKeys : BNode → List Int
  | .mk _ ks cs => ks ++ BNode.allKeysL cs

def BNode.allKeysL : List BNode → List Int
  | [] => []
  | c :: cs => BNode.allKeys c ++ BNode.allKeysL cs

end

mutual

/-- Height of a subtree (number of levels). -/
def BNode.height : BNode → Nat
  | .mk _ _ cs => 1 + BNode.heightL cs

def BNode.heightL : List BNode → Nat
  | [] => 0
  | c :: cs => max (BNode.height c) (BNode.heightL cs)

end

mutual

/-- All nodes of a subtree (the source's `get_all_nodes` is a BFS over the
same collection; only membership matters here). -/
def BNode.allNodes : BNode → List BNode
  | .mk i ks cs => .mk i ks cs :: BNode.allNodesL cs

def BNode.allNodesL : List BNode → List BNode
  | [] => []
  | c :: cs => BNode.allNodes c ++ BNode.allNodesL cs

end

/-- State of a `BTree` object: the fanout `n` (3..10, checked at
construction) and the owned root, together with the tracer, metrics and the
node-id allocator that backs `BTreeNode.__init__`. -/
structure BTState where
  fanout : Nat
  root : BNode
  tracer : Tracer
  metrics : Metrics
  counter : Nat

/-- `self.max_keys = fanout_n - 1`. -/
def BTState.maxKeys (s : BTState) : Nat := s.fanout - 1

/-- `self.min_keys = (fanout_n + 1) // 2 - 1`. -/
def BTState.minKeys (s : BTState) : Nat := (s.fanout + 1) / 2 - 1

/-- Monad for B-Tree operations: state plus Python-level failure. -/
abbrev BM (α : Type) := ExceptT PyErr (StateM BTState) α

/-- `BTree.__init__`: fanout must lie in 3..10, root is a fresh empty leaf
with id 0, tracer and metrics are fresh. -/
def BTree.new (fanoutN : Nat) : Except PyErr BTState :=
  if 3 ≤ fanoutN ∧ fanoutN ≤ 10 then
    .ok ⟨fanoutN, .mk 0 [] [], Tracer.init, Metrics.init, 1⟩
  else
    .error (.valueError "Fanout deve estar entre 3 e 10")

namespace BTree

def emitEv (ty : EvType) (nodeId : Option Nat) (info : List (String × PVal)) :
    BM Unit :=
  modify fun s => { s with tracer := s.tracer.emit ty nodeId info }

def tick : BM Unit :=
  modify fun s => { s with metrics := s.metrics.tickNodeAccess }

/-- Allocates the id for a freshly constructed `BTreeNode`. -/
def allocId : BM Nat := do
  let s ← get
  set { s with counter := s.counter + 1 }
  pure s.counter

def getMaxKeys : BM Nat := do pure (← get).maxKeys

def getMinKeys : BM Nat := do pure (← get).minKeys

/-- Key-scan loop of `BTree.search`: walks `enumerate(node.keys)`, emitting
one compare event per examined key, returning the matching index, and
stopping early once the node key exceeds the target. -/
def searchScan (nodeId : Nat) (key : Int) : Nat → List Int → BM (Option Nat)
  | _, [] => pure none
  | i, k :: rest => do
    emitEv .compareKey (some nodeId)
      [("key_index", .pInt i), ("node_key", .pInt k), ("target_key", .pInt key)]
    if key == k then
      pure (some i)
    else if key < k then
      pure none
    else
      searchScan nodeId key (i + 1) rest

/-- `BTree._find_insert_pos` / `BTree._find_child_index`: index of the first
key greater than the target, else the length.  The two Python methods have
identical bodies. -/
def findInsertPos (keys : List Int) (key : Int) : Nat :=
  match keys with
  | [] => 0
  | k :: rest => if key < k then 0 else findInsertPos rest key + 1

/-- Body of the `while` loop of `BTree.search`; `fuel` bounds the descent. -/
def searchGo : Nat → BNode → Int → List Nat → BM SearchResult
  | 0, _, _, _ => throw .fuelExhausted
  | fuel + 1, node, key, path => do
    emitEv .visitNode (some node.id) [("keys", .pList node.keys)]
    tick
    let path := path ++ [node.id]
    let foundIndex ← searchScan node.id key 0 node.keys
    match foundIndex with
    | some i => do
      emitEv .searchFound (some node.id) [("key", .pInt key), ("index", .pInt i)]
      pure ⟨true, node.id, i, path⟩
    | none => do
      if node.isLeaf then
        emitEv .searchNotFound (some node.id) [("key", .pInt key)]
        pure ⟨false, node.id, -1, path⟩
      else
        let childIndex := findInsertPos node.keys key
        emitEv .descend (some node.id)
          [("child_index", .pInt childIndex), ("target_key", .pInt key)]
        match node.children.get? childIndex with
        | some c => searchGo fuel c key path
        | none => throw .indexError

/-- `BTree.search`. -/
def search (fuel : Nat) (key : Int) : BM SearchResult := do
  searchGo fuel (← get).root key []

/-- `BTree._split_child`: splits `parent.children[child_index]` at the median
and returns the rewritten parent. -/
def splitChild (parent : BNode) (childIndex : Nat) : BM BNode := do
  match parent.children.get? childIndex with
  | none => throw .indexError
  | some fullChild => do
    let mid := fullChild.keys.length / 2
    match fullChild.keys.get? mid with
    | none => throw .indexError
    | some promotedKey => do
      let newId ← allocId
      let wasLeaf := fullChild.isLeaf
      let newKeys := fullChild.keys.drop (mid + 1)
      let fullKeys := fullChild.keys.take mid
      let (newChildren, fullChildren) :=
        if wasLeaf then ([], fullChild.children)
        else (fullChild.children.drop (mid + 1), fullChild.children.take (mid + 1))
      let newChild : BNode := .mk newId newKeys newChildren
      let fullChild' : BNode := .mk fullChild.id fullKeys fullChildren
      let parent' : BNode := .mk parent.id
        (parent.keys.insertIdx childIndex promotedKey)
        ((parent.children.set childIndex fullChild').insertIdx (childIndex + 1) newChild)
      emitEv .splitNode (some fullChild.id)
        [("promoted_key", .pInt promotedKey), ("left_id", .pInt fullChild.id),
         ("right_id", .pInt newId), ("left_keys", .pList fullKeys),
         ("right_keys", .pList newKeys)]
      pure parent'

/-- `BTree._insert_recursive` (bottom-up): descend, insert in the leaf, then
split the just-visited child on unwind if it overflowed. -/
def insertRec : Nat → BNode → Int → BM BNode
  | 0, _, _ => throw .fuelExhausted
  | fuel + 1, node, key => do
    emitEv .visitNode (some node.id) [("keys", .pList node.keys)]
    tick
    if node.isLeaf then
      let pos := findInsertPos node.keys key
      let keys' := node.keys.insertIdx pos key
      emitEv .insertInLeaf (some node.id)
        [("key", .pInt key), ("position", .pInt pos), ("keys_after", .pList keys')]
      pure (.mk node.id keys' node.children)
    else
      let childIndex := findInsertPos node.keys key
      emitEv .descend (some node.id)
        [("child_index", .pInt childIndex), ("target_key", .pInt key)]
      match node.children.get? childIndex with
      | none => throw .indexError
      | some c => do
        let c' ← insertRec fuel c key
        let node' : BNode := .mk node.id node.keys (node.children.set childIndex c')
        let maxK ← getMaxKeys
        if c'.keys.length > maxK then
          splitChild node' childIndex
        else
          pure node'

/-- `BTree.insert`: duplicate pre-check by `search` (tracing not suppressed),
then recursive insert, then root split on overflow. -/
def insert (fuel : Nat) (key : Int) : BM Bool := do
  let result ← search fuel key
  if result.found then
    pure false
  else do
    modify fun s => { s with tracer := s.tracer.clear }
    let root' ← insertRec fuel (← get).root key
    modify fun s => { s with root := root' }
    let s ← get
    if s.root.keys.length > s.maxKeys then
      let oldRoot := s.root
      let newId ← allocId
      let wrapped : BNode := .mk newId [] [oldRoot]
      let wrapped' ← splitChild wrapped 0
      modify fun s => { s with root := wrapped' }
      match wrapped'.keys.get? 0 with
      | none => throw .indexError
      | some promoted =>
        emitEv .newRoot (some wrapped'.id)
          [("old_root_id", .pInt oldRoot.id), ("promoted_key", .pInt promoted)]
      pure true
    else
      pure true

/-- `BTree._get_predecessor`: from `node.children[key_idx]` descend along the
last child down to a leaf and return its last key. -/
def getPredecessorGo : Nat → BNode → BM Int
  | 0, _ => throw .fuelExhausted
  | fuel + 1, current =>
    if current.isLeaf then
      match current.keys.getLast? with
      | some k => pure k
      | none => throw .indexError
    else
      match current.children.getLast? with
      | some c => getPredecessorGo fuel c
      | none => throw .indexError

def getPredecessor (fuel : Nat) (node : BNode) (keyIdx : Nat) : BM Int := do
  match node.children.get? keyIdx with
  | some c => getPredecessorGo fuel c
  | none => throw .indexError

/-- `BTree._redistribute_from_left`: one-key rotation through the parent
separator, pulling from the left sibling. -/
def redistributeFromLeft (parent : BNode) (childIdx : Nat) : BM BNode := do
  match parent.children.get? childIdx, parent.children.get? (childIdx - 1),
        parent.keys.get? (childIdx - 1) with
  | some child, some leftSibling, some sep => do
    match leftSibling.keys.getLast? with
    | none => throw .indexError
    | some borrowed => do
      let childKeys := sep :: child.keys
      let leftKeys := leftSibling.keys.dropLast
      let (childChildren, leftChildren) ←
        if child.isLeaf then
          pure (child.children, leftSibling.children)
        else
          match leftSibling.children.getLast? with
          | some movedChild =>
            pure (movedChild :: child.children, leftSibling.children.dropLast)
          | none => throw .indexError
      let child' : BNode := .mk child.id childKeys childChildren
      let left' : BNode := .mk leftSibling.id leftKeys leftChildren
      let parent' : BNode := .mk parent.id
        (parent.keys.set (childIdx - 1) borrowed)
        ((parent.children.set childIdx child').set (childIdx - 1) left')
      emitEv .redistribute (some leftSibling.id)
        [("from_node", .pInt leftSibling.id), ("to_node", .pInt child.id),
         ("parent_id", .pInt parent.id), ("parent_key_index", .pInt (childIdx - 1))]
      pure parent'
  | _, _, _ => throw .indexError

/-- `BTree._redistribute_from_right`: one-key rotation through the parent
separator, pulling from the right sibling. -/
def redistributeFromRight (parent : BNode) (childIdx : Nat) : BM BNode := do
  match parent.children.get? childIdx, parent.children.get? (childIdx + 1),
        parent.keys.get? childIdx with
  | some child, some rightSibling, some sep => do
    match rightSibling.keys.get? 0 with
    | none => throw .indexError
    | some borrowed => do
      let childKeys := child.keys ++ [sep]
      let rightKeys := rightSibling.keys.drop 1
      let (childChildren, rightChildren) ←
        if child.isLeaf then
          pure (child.children, rightSibling.children)
        else
          match rightSibling.children.get? 0 with
          | some movedChild =>
            pure (child.children ++ [movedChild], rightSibling.children.drop 1)
          | none => throw .indexError
      let child' : BNode := .mk child.id childKeys childChildren
      let right' : BNode := .mk rightSibling.id rightKeys rightChildren
      let parent' : BNode := .mk parent.id
        (parent.keys.set childIdx borrowed)
        ((parent.children.set childIdx child').set (childIdx + 1) right')
      emitEv .redistribute (some rightSibling.id)
        [("from_node", .pInt rightSibling.id), ("to_node", .pInt child.id),
         ("parent_id", .pInt parent.id), ("parent_key_index", .pInt childIdx)]
      pure parent'
  | _, _, _ => throw .indexError

/-- `BTree._merge_with_left`: left sibling absorbs the parent separator and
the underflowing child; the child's pointer is removed from the parent. -/
def mergeWithLeft (parent : BNode) (childIdx : Nat) : BM BNode := do
  match parent.children.get? childIdx, parent.children.get? (childIdx - 1),
        parent.keys.get? (childIdx - 1) with
  | some child, some leftSibling, some separator => do
    let mergedKeys := leftSibling.keys ++ [separator] ++ child.keys
    let mergedChildren :=
      if child.isLeaf then leftSibling.children
      else leftSibling.children ++ child.children
    let left' : BNode := .mk leftSibling.id mergedKeys mergedChildren
    let parent' : BNode := .mk parent.id
      (parent.keys.eraseIdx (childIdx - 1))
      (((parent.children.set (childIdx - 1) left')).eraseIdx childIdx)
    emitEv .merge (some leftSibling.id)
      [("left_id", .pInt leftSibling.id), ("right_id", .pInt child.id),
       ("parent_id", .pInt parent.id), ("separator_key", .pInt separator),
       ("merged_keys", .pList mergedKeys)]
    pure parent'
  | _, _, _ => throw .indexError

/-- `BTree._merge_with_right`: the child absorbs the parent separator and the
right sibling; the sibling's pointer is removed from the parent. -/
def mergeWithRight (parent : BNode) (childIdx : Nat) : BM BNode := do
  match parent.children.get? childIdx, parent.children.get? (childIdx + 1),
        parent.keys.get? childIdx with
  | some child, some rightSibling, some separator => do
    let mergedKeys := child.keys ++ [separator] ++ rightSibling.keys
    let mergedChildren :=
      if child.isLeaf then child.children
      else child.children ++ rightSibling.children
    let child' : BNode := .mk child.id mergedKeys mergedChildren
    let parent' : BNode := .mk parent.id
      (parent.keys.eraseIdx childIdx)
      (((parent.children.set childIdx child')).eraseIdx (childIdx + 1))
    emitEv .merge (some child.id)
      [("left_id", .pInt child.id), ("right_id", .pInt rightSibling.id),
       ("parent_id", .pInt parent.id), ("separator_key", .pInt separator),
       ("merged_keys", .pList mergedKeys)]
    pure parent'
  | _, _, _ => throw .indexError

/-- `BTree._handle_underflow`: borrow from the left sibling, else the right
sibling, else merge (preferring the left sibling). -/
def handleUnderflow (parent : BNode) (childIdx : Nat) : BM BNode := do
  match parent.children.get? childIdx with
  | none => throw .indexError
  | some child => do
    let minK ← getMinKeys
    emitEv .underflow (some child.id)
      [("num_keys", .pInt child.keys.length), ("min_keys", .pInt minK)]
    let borrowLeft :=
      childIdx > 0 ∧
        (parent.children.get? (childIdx - 1)).any fun l => l.keys.length > minK
    let borrowRight :=
      childIdx < parent.children.length - 1 ∧
        (parent.children.get? (childIdx + 1)).any fun r => r.keys.length > minK
    if borrowLeft then
      redistributeFromLeft parent childIdx
    else if borrowRight then
      redistributeFromRight parent childIdx
    else if childIdx > 0 then
      mergeWithLeft parent childIdx
    else
      mergeWithRight parent childIdx

/-- `BTree._delete_recursive` (bottom-up): if the key is at this node, remove
it from a leaf directly, or replace it with the predecessor of the left
subtree and delete the predecessor there; otherwise descend.  After each
recursive return the just-visited child is checked for underflow. -/
def deleteRec : Nat → BNode → Int → BM BNode
  | 0, _, _ => throw .fuelExhausted
  | fuel + 1, node, key => do
    emitEv .visitNode (some node.id) [("keys", .pList node.keys)]
    tick
    let keyIdx ← searchScan node.id key 0 node.keys
    match keyIdx with
    | some idx => do
      emitEv .deleteFound (some node.id)
        [("key", .pInt key), ("key_index", .pInt idx)]
      if node.isLeaf then
        let keys' := node.keys.eraseIdx idx
        emitEv .deleteInLeaf (some node.id)
          [("key", .pInt key), ("key_index", .pInt idx), ("keys_after", .pList keys')]
        pure (.mk node.id keys' node.children)
      else do
        let predecessor ← getPredecessor fuel node idx
        emitEv .replaceWithPredecessor (some node.id)
          [("key", .pInt key), ("predecessor", .pInt predecessor),
           ("key_index", .pInt idx)]
        let node' : BNode := .mk node.id (node.keys.set idx predecessor) node.children
        match node'.children.get? idx with
        | none => throw .indexError
        | some c => do
          let c' ← deleteRec fuel c predecessor
          let node'' : BNode := .mk node'.id node'.keys (node'.children.set idx c')
          let minK ← getMinKeys
          if c'.keys.length < minK then
            handleUnderflow node'' idx
          else
            pure node''
    | none => do
      if node.isLeaf then
        pure node
      else
        let childIdx := findInsertPos node.keys key
        emitEv .descend (some node.id)
          [("child_index", .pInt childIdx), ("target_key", .pInt key)]
        match node.children.get? childIdx with
        | none => throw .indexError
        | some c => do
          let c' ← deleteRec fuel c key
          let node' : BNode := .mk node.id node.keys (node.children.set childIdx c')
          let minK ← getMinKeys
          if c'.keys.length < minK then
            handleUnderflow node' childIdx
          else
            pure node'

/-- `BTree.delete`: existence pre-check by `search`, recursive deletion, then
root shrink when the root emptied but kept a child. -/
def delete (fuel : Nat) (key : Int) : BM Bool := do
  emitEv .deleteRequest none [("key", .pInt key)]
  let result ← search fuel key
  if ¬result.found then
    emitEv .searchNotFound none [("key", .pInt key)]
    pure false
  else do
    modify fun s => { s with tracer := s.tracer.clear }
    emitEv .deleteRequest none [("key", .pInt key)]
    let root' ← deleteRec fuel (← get).root key
    modify fun s => { s with root := root' }
    let s ← get
    if s.root.keys.length == 0 ∧ ¬s.root.isLeaf then
      match s.root.children.get? 0 with
      | none => throw .indexError
      | some newRoot => do
        modify fun s => { s with root := newRoot }
        emitEv .shrinkRoot (some newRoot.id)
          [("old_root_id", .pInt s.root.id), ("new_root_id", .pInt newRoot.id)]
        pure true
    else
      pure true

end BTree

/-! ## B+-Tree (`src/core/bplustree.py`) -/

/-- A `BPlusTreeNode`: id, keys, children, a leaf flag fixed at creation and
the `next_leaf` link.  The link is a non-owning reference to another leaf; it
is modelled by the id of the target leaf (node ids are unique per tree). -/
inductive BPNode where
  | mk (id : Nat) (keys : List Int) (children : List BPNode) (isLeaf : Bool)
      (next : Option Nat)

def BPNode.id : BPNode → Nat
  | .mk i _ _ _ _ => i

def BPNode.keys : BPNode → List Int
  | .mk _ ks _ _ _ => ks

def BPNode.children : BPNode → List BPNode
  | .mk _ _ cs _ _ => cs

def BPNode.isLeaf : BPNode → Bool
  | .mk _ _ _ l _ => l

def BPNode.next : BPNode → Option Nat
  | .mk _ _ _ _ nx => nx

mutual

/-- All keys of a subtree (node first, then children left to right). -/
def BPNode.allKeys : BPNode → List Int
  | .mk _ ks cs _ _ => ks ++ BPNode.allKeysL cs

def BPNode.allKeysL : List BPNode → List Int
  | [] => []
  | c :: cs => BPNode.allKeys c ++ BPNode.allKeysL cs

end

mutual

/-- The leaves of a subtree, left to right (an in-order walk). -/
def BPNode.leaves : BPNode → List BPNode
  | .mk i ks cs l nx => if l then [.mk i ks cs l nx] else BPNode.leavesL cs

def BPNode.leavesL : List BPNode → List BPNode
  | [] => []
  | c :: cs => BPNode.leaves c ++ BPNode.leavesL cs

end

mutual

def BPNode.allNodes : BPNode → List BPNode
  | .mk i ks cs l nx => .mk i ks cs l nx :: BPNode.allNodesL cs

def BPNode.allNodesL : List BPNode → List BPNode
  | [] => []
  | c :: cs => BPNode.allNodes c ++ BPNode.allNodesL cs

end

mutual

def BPNode.height : BPNode → Nat
  | .mk _ _ cs _ _ => 1 + BPNode.heightL cs

def BPNode.heightL : List BPNode → Nat
  | [] => 0
  | c :: cs => max (BPNode.height c) (BPNode.heightL cs)

end

/-- Resolves a `next_leaf` reference: the leaf of the tree carrying the given
id.  Python dereferences the object pointer directly; on the states the
engine produces, chain targets are reachable leaves with unique ids, so the
two coincide. -/
def BPNode.findLeaf (t : BPNode) (i : Nat) : Option BPNode :=
  (BPNode.leaves t).find? fun l => l.id == i

/-- State of a `BPlusTree` object: fanout, root, the head-of-leaf-chain
reference `first_leaf` (as a node id), tracer, metrics, id allocator. -/
structure BPState where
  fanout : Nat
  root : BPNode
  firstLeaf : Nat
  tracer : Tracer
  metrics : Metrics
  counter : Nat

def BPState.maxKeys (s : BPState) : Nat := s.fanout - 1

def BPState.minKeys (s : BPState) : Nat := (s.fanout + 1) / 2 - 1

/-- Monad for B+-Tree operations. -/
abbrev PM (α : Type) := ExceptT PyErr (StateM BPState) α

/-- `BPlusTree.__init__`: fanout in 3..10, root is a fresh empty leaf which
is also the first leaf of the chain. -/
def BPlusTree.new (fanoutN : Nat) : Except PyErr BPState :=
  if 3 ≤ fanoutN ∧ fanoutN ≤ 10 then
    .ok ⟨fanoutN, .mk 0 [] [] true none, 0, Tracer.init, Metrics.init, 1⟩
  else
    .error (.valueError "Fanout deve estar entre 3 e 10")

namespace BPlusTree

def emitEv (ty : EvType) (nodeId : Option Nat) (info : List (String × PVal)) :
    PM Unit :=
  modify fun s => { s with tracer := s.tracer.emit ty nodeId info }

def tick : PM Unit :=
  modify fun s => { s with metrics := s.metrics.tickNodeAccess }

def allocId : PM Nat := do
  let s ← get
  set { s with counter := s.counter + 1 }
  pure s.counter

def getMaxKeys : PM Nat := do pure (← get).maxKeys

def getMinKeys : PM Nat := do pure (← get).minKeys

/-- `BPlusTree._find_insert_pos` / `_find_child_index` (identical bodies):
index of the first key greater than the target, else the length. -/
def findInsertPos (keys : List Int) (key : Int) : Nat :=
  match keys with
  | [] => 0
  | k :: rest => if key < k then 0 else findInsertPos rest key + 1

/-- Leaf-level key loop of `BPlusTree.search`: one compare event per key,
returning the index of an exact match. -/
def leafScan (nodeId : Nat) (key : Int) : Nat → List Int → PM (Option Nat)
  | _, [] => pure none
  | i, k :: rest => do
    emitEv .compareKey (some nodeId)
      [("key_index", .pInt i), ("node_key", .pInt k), ("target_key", .pInt key)]
    if key == k then
      pure (some i)
    else
      leafScan nodeId key (i + 1) rest

/-- Internal-node key loop of `BPlusTree.search`: one compare event per
examined key, stopping at the first key greater than the target; returns the
child index to descend into. -/
def childScan (nodeId : Nat) (key : Int) : Nat → List Int → PM Nat
  | i, [] => pure i
  | i, k :: rest => do
    emitEv .compareKey (some nodeId)
      [("key_index", .pInt i), ("node_key", .pInt k), ("target_key", .pInt key)]
    if key < k then
      pure i
    else
      childScan nodeId key (i + 1) rest

/-- Descent loop of `BPlusTree.search`: an exact match terminates only at a
leaf; an internal node only chooses the subtree. -/
def searchGo : Nat → BPNode → Int → List Nat → PM SearchResult
  | 0, _, _, _ => throw .fuelExhausted
  | fuel + 1, node, key, path => do
    emitEv .visitNode (some node.id) [("keys", .pList node.keys)]
    tick
    let path := path ++ [node.id]
    if node.isLeaf then
      match ← leafScan node.id key 0 node.keys with
      | some i => do
        emitEv .searchFound (some node.id) [("key", .pInt key), ("index", .pInt i)]
        pure ⟨true, node.id, i, path⟩
      | none => do
        emitEv .searchNotFound (some node.id) [("key", .pInt key)]
        pure ⟨false, node.id, -1, path⟩
    else do
      let childIndex ← childScan node.id key 0 node.keys
      emitEv .descend (some node.id)
        [("child_index", .pInt childIndex), ("target_key", .pInt key)]
      match node.children.get? childIndex with
      | some c => searchGo fuel c key path
      | none => throw .indexError

/-- `BPlusTree.search`. -/
def search (fuel : Nat) (key : Int) : PM SearchResult := do
  searchGo fuel (← get).root key []

/-- `BPlusTree._search_with_path`: the same search with tracing suppressed
for the duration of the probe. -/
def searchWithPath (fuel : Nat) (key : Int) : PM SearchResult := do
  let enabled := (← get).tracer.enabled
  modify fun s => { s with tracer := { s.tracer with enabled := false } }
  let result ← search fuel key
  if enabled then
    modify fun s => { s with tracer := { s.tracer with enabled := true } }
  pure result

/-- `BPlusTree._split_child`: a leaf split copies the median up and splices
the new right leaf into the chain; an internal split moves the median up. -/
def splitChild (parent : BPNode) (childIndex : Nat) : PM BPNode := do
  match parent.children.get? childIndex with
  | none => throw .indexError
  | some fullChild => do
    let mid := fullChild.keys.length / 2
    match fullChild.keys.get? mid with
    | none => throw .indexError
    | some promotedKey => do
      let newId ← allocId
      let (fullChild', newChild) ←
        if fullChild.isLeaf then
          pure (BPNode.mk fullChild.id (fullChild.keys.take mid)
                  fullChild.children true (some newId),
                BPNode.mk newId (fullChild.keys.drop mid) [] true fullChild.next)
        else
          pure (BPNode.mk fullChild.id (fullChild.keys.take mid)
                  (fullChild.children.take (mid + 1)) false fullChild.next,
                BPNode.mk newId (fullChild.keys.drop (mid + 1))
                  (fullChild.children.drop (mid + 1)) false none)
      let parent' : BPNode := .mk parent.id
        (parent.keys.insertIdx childIndex promotedKey)
        ((parent.children.set childIndex fullChild').insertIdx (childIndex + 1) newChild)
        parent.isLeaf parent.next
      emitEv .splitNode (some fullChild.id)
        [("promoted_key", .pInt promotedKey), ("left_id", .pInt fullChild.id),
         ("right_id", .pInt newId), ("left_keys", .pList fullChild'.keys),
         ("right_keys", .pList newChild.keys),
         ("is_leaf_split", .pBool fullChild.isLeaf)]
      pure parent'

/-- `BPlusTree._insert_non_full`: proactive descent, splitting a full child
before stepping into it. -/
def insertNonFull : Nat → BPNode → Int → PM BPNode
  | 0, _, _ => throw .fuelExhausted
  | fuel + 1, node, key => do
    emitEv .visitNode (some node.id) [("keys", .pList node.keys)]
    tick
    if node.isLeaf then
      let pos := findInsertPos node.keys key
      let keys' := node.keys.insertIdx pos key
      emitEv .insertInLeaf (some node.id)
        [("key", .pInt key), ("position", .pInt pos), ("keys_after", .pList keys')]
      pure (.mk node.id keys' node.children node.isLeaf node.next)
    else do
      let childIndex := findInsertPos node.keys key
      emitEv .descend (some node.id)
        [("child_index", .pInt childIndex), ("target_key", .pInt key)]
      let maxK ← getMaxKeys
      match node.children.get? childIndex with
      | none => throw .indexError
      | some c => do
        let (node', childIndex') ←
          if c.keys.length ≥ maxK then do
            let split ← splitChild node childIndex
            match split.keys.get? childIndex with
            | none => throw .indexError
            | some sep =>
              if key > sep then
                pure (split, childIndex + 1)
              else
                pure (split, childIndex)
          else
            pure (node, childIndex)
        match node'.children.get? childIndex' with
        | none => throw .indexError
        | some c' => do
          let c'' ← insertNonFull fuel c' key
          pure (.mk node'.id node'.keys (node'.children.set childIndex' c'')
                node'.isLeaf node'.next)

/-- Leftmost-leaf descent used to refresh `first_leaf` after a root split or
a root shrink. -/
def leftmostLeafId : Nat → BPNode → PM Nat
  | 0, _ => throw .fuelExhausted
  | fuel + 1, node =>
    if node.isLeaf then
      pure node.id
    else
      match node.children.get? 0 with
      | some c => leftmostLeafId fuel c
      | none => throw .indexError

/-- `BPlusTree.insert`: duplicate pre-check by `search` (tracing not
suppressed), proactive root split, then `_insert_non_full`. -/
def insert (fuel : Nat) (key : Int) : PM Bool := do
  let result ← search fuel key
  if result.found then
    pure false
  else do
    modify fun s => { s with tracer := s.tracer.clear }
    let s ← get
    if s.root.keys.length ≥ s.maxKeys then
      let oldRoot := s.root
      let newId ← allocId
      let wrapped : BPNode := .mk newId [] [oldRoot] false none
      let wrapped' ← splitChild wrapped 0
      modify fun s => { s with root := wrapped' }
      if oldRoot.id == s.firstLeaf then
        match wrapped'.children.get? 0 with
        | none => throw .indexError
        | some c0 => do
          let fl ← leftmostLeafId fuel c0
          modify fun s => { s with firstLeaf := fl }
      else
        pure ()
    else
      pure ()
    let root' ← insertNonFull fuel (← get).root key
    modify fun s => { s with root := root' }
    pure true

/-- Leaf-level key loop of `_delete_internal`: one compare event per key,
stopping only at an exact match (unlike the search scan it does not stop
early at a greater key). -/
def deleteLeafScan (nodeId : Nat) (key : Int) : Nat → List Int → PM (Option Nat)
  | _, [] => pure none
  | i, k :: rest => do
    emitEv .compareKey (some nodeId)
      [("key_index", .pInt i), ("node_key", .pInt k), ("target_key", .pInt key)]
    if k == key then
      pure (some i)
    else
      deleteLeafScan nodeId key (i + 1) rest

/-- `BPlusTree._redistribute_from_left`: for a leaf, move the left sibling's
last key over and rewrite the parent separator to the new boundary key; for
an internal node, rotate through the parent separator. -/
def redistributeFromLeft (parent : BPNode) (childIdx : Nat) : PM BPNode := do
  match parent.children.get? childIdx, parent.children.get? (childIdx - 1),
        parent.keys.get? (childIdx - 1) with
  | some child, some leftSibling, some sep => do
    match leftSibling.keys.getLast? with
    | none => throw .indexError
    | some borrowed => do
      let (child', left', parentKey) ←
        if child.isLeaf then
          pure (BPNode.mk child.id (borrowed :: child.keys) child.children
                  child.isLeaf child.next,
                BPNode.mk leftSibling.id leftSibling.keys.dropLast
                  leftSibling.children leftSibling.isLeaf leftSibling.next,
                borrowed)
        else
          match leftSibling.children.getLast? with
          | none => throw .indexError
          | some movedChild =>
            pure (BPNode.mk child.id (sep :: child.keys)
                    (movedChild :: child.children) child.isLeaf child.next,
                  BPNode.mk leftSibling.id leftSibling.keys.dropLast
                    leftSibling.children.dropLast leftSibling.isLeaf leftSibling.next,
                  borrowed)
      let parent' : BPNode := .mk parent.id
        (parent.keys.set (childIdx - 1) parentKey)
        ((parent.children.set childIdx child').set (childIdx - 1) left')
        parent.isLeaf parent.next
      emitEv .redistribute (some leftSibling.id)
        [("from_node", .pInt leftSibling.id), ("to_node", .pInt child.id),
         ("parent_id", .pInt parent.id), ("parent_key_index", .pInt (childIdx - 1))]
      pure parent'
  | _, _, _ => throw .indexError

/-- `BPlusTree._redistribute_from_right`: for a leaf, move the right
sibling's first key over and rewrite the parent separator to the right
sibling's new first key; for an internal node, rotate through the parent
separator. -/
def redistributeFromRight (parent : BPNode) (childIdx : Nat) : PM BPNode := do
  match parent.children.get? childIdx, parent.children.get? (childIdx + 1),
        parent.keys.get? childIdx with
  | some child, some rightSibling, some sep => do
    match rightSibling.keys.get? 0 with
    | none => throw .indexError
    | some borrowed => do
      let (child', right', parentKey) ←
        if child.isLeaf then
          match (rightSibling.keys.drop 1).get? 0 with
          | none => throw .indexError
          | some newFirst =>
            pure (BPNode.mk child.id (child.keys ++ [borrowed]) child.children
                    child.isLeaf child.next,
                  BPNode.mk rightSibling.id (rightSibling.keys.drop 1)
                    rightSibling.children rightSibling.isLeaf rightSibling.next,
                  newFirst)
        else
          match rightSibling.children.get? 0 with
          | none => throw .indexError
          | some movedChild =>
            pure (BPNode.mk child.id (child.keys ++ [sep])
                    (child.children ++ [movedChild]) child.isLeaf child.next,
                  BPNode.mk rightSibling.id (rightSibling.keys.drop 1)
                    (rightSibling.children.drop 1) rightSibling.isLeaf
                    rightSibling.next,
                  borrowed)
      let parent' : BPNode := .mk parent.id
        (parent.keys.set childIdx parentKey)
        ((parent.children.set childIdx child').set (childIdx + 1) right')
        parent.isLeaf parent.next
      emitEv .redistribute (some rightSibling.id)
        [("from_node", .pInt rightSibling.id), ("to_node", .pInt child.id),
         ("parent_id", .pInt parent.id), ("parent_key_index", .pInt childIdx)]
      pure parent'
  | _, _, _ => throw .indexError

/-- `BPlusTree._merge_with_left`: leaves concatenate and the chain skips the
removed leaf; internal nodes additionally pull the separator down. -/
def mergeWithLeft (parent : BPNode) (childIdx : Nat) : PM BPNode := do
  match parent.children.get? childIdx, parent.children.get? (childIdx - 1),
        parent.keys.get? (childIdx - 1) with
  | some child, some leftSibling, some separator => do
    let left' : BPNode ←
      if child.isLeaf then
        pure (.mk leftSibling.id (leftSibling.keys ++ child.keys)
                leftSibling.children leftSibling.isLeaf child.next)
      else
        pure (.mk leftSibling.id (leftSibling.keys ++ [separator] ++ child.keys)
                (leftSibling.children ++ child.children) leftSibling.isLeaf
                leftSibling.next)
    let parent' : BPNode := .mk parent.id
      (parent.keys.eraseIdx (childIdx - 1))
      (((parent.children.set (childIdx - 1) left')).eraseIdx childIdx)
      parent.isLeaf parent.next
    emitEv .merge (some leftSibling.id)
      [("left_id", .pInt leftSibling.id), ("right_id", .pInt child.id),
       ("parent_id", .pInt parent.id), ("separator_key", .pInt separator),
       ("merged_keys", .pList left'.keys)]
    pure parent'
  | _, _, _ => throw .indexError

/-- `BPlusTree._merge_with_right`: the child absorbs the right sibling;
leaves re-link the chain past the removed sibling. -/
def mergeWithRight (parent : BPNode) (childIdx : Nat) : PM BPNode := do
  match parent.children.get? childIdx, parent.children.get? (childIdx + 1),
        parent.keys.get? childIdx with
  | some child, some rightSibling, some separator => do
    let child' : BPNode ←
      if child.isLeaf then
        pure (.mk child.id (child.keys ++ rightSibling.keys) child.children
                child.isLeaf rightSibling.next)
      else
        pure (.mk child.id (child.keys ++ [separator] ++ rightSibling.keys)
                (child.children ++ rightSibling.children) child.isLeaf child.next)
    let parent' : BPNode := .mk parent.id
      (parent.keys.eraseIdx childIdx)
      (((parent.children.set childIdx child')).eraseIdx (childIdx + 1))
      parent.isLeaf parent.next
    emitEv .merge (some child.id)
      [("left_id", .pInt child.id), ("right_id", .pInt rightSibling.id),
       ("parent_id", .pInt parent.id), ("separator_key", .pInt separator),
       ("merged_keys", .pList child'.keys)]
    pure parent'
  | _, _, _ => throw .indexError

/-- `BPlusTree._fix_child_underflow`: borrow from the left sibling, else the
right sibling, else merge (preferring the left sibling). -/
def fixChildUnderflow (parent : BPNode) (childIdx : Nat) : PM BPNode := do
  match parent.children.get? childIdx with
  | none => throw .indexError
  | some child => do
    let minK ← getMinKeys
    emitEv .underflow (some child.id)
      [("num_keys", .pInt child.keys.length), ("min_keys", .pInt minK)]
    let borrowLeft :=
      childIdx > 0 ∧
        (parent.children.get? (childIdx - 1)).any fun l => l.keys.length > minK
    let borrowRight :=
      childIdx < parent.children.length - 1 ∧
        (parent.children.get? (childIdx + 1)).any fun r => r.keys.length > minK
    if borrowLeft then
      redistributeFromLeft parent childIdx
    else if borrowRight then
      redistributeFromRight parent childIdx
    else if childIdx > 0 then
      mergeWithLeft parent childIdx
    else
      mergeWithRight parent childIdx

/-- `BPlusTree._delete_internal` (top-down proactive): removal always targets
a leaf; before stepping into a child at or below the minimum, the underflow
is fixed and the child index recomputed. -/
def deleteInternal : Nat → BPNode → Int → PM BPNode
  | 0, _, _ => throw .fuelExhausted
  | fuel + 1, node, key => do
    emitEv .visitNode (some node.id) [("keys", .pList node.keys)]
    tick
    if node.isLeaf then
      match ← deleteLeafScan node.id key 0 node.keys with
      | none => pure node
      | some idx => do
        emitEv .deleteFound (some node.id)
          [("key", .pInt key), ("key_index", .pInt idx)]
        let keys' := node.keys.eraseIdx idx
        emitEv .deleteInLeaf (some node.id)
          [("key", .pInt key), ("key_index", .pInt idx),
           ("keys_after", .pList keys')]
        pure (.mk node.id keys' node.children node.isLeaf node.next)
    else do
      let childIdx := findInsertPos node.keys key
      emitEv .descend (some node.id)
        [("child_index", .pInt childIdx), ("target_key", .pInt key)]
      match node.children.get? childIdx with
      | none => throw .indexError
      | some child => do
        let minK ← getMinKeys
        let (node', childIdx') ←
          if child.keys.length ≤ minK then do
            let fixedNode ← fixChildUnderflow node childIdx
            pure (fixedNode, findInsertPos fixedNode.keys key)
          else
            pure (node, childIdx)
        match node'.children.get? childIdx' with
        | none => throw .indexError
        | some c => do
          let c' ← deleteInternal fuel c key
          pure (.mk node'.id node'.keys (node'.children.set childIdx' c')
                node'.isLeaf node'.next)

/-- `BPlusTree.delete`: existence pre-check with tracing suppressed
(`_search_with_path`), then the proactive top-down deletion, then root
shrink with a `first_leaf` refresh. -/
def delete (fuel : Nat) (key : Int) : PM Bool := do
  emitEv .deleteRequest none [("key", .pInt key)]
  let result ← searchWithPath fuel key
  if ¬result.found then
    emitEv .searchNotFound none [("key", .pInt key)]
    pure false
  else do
    modify fun s => { s with tracer := s.tracer.clear }
    emitEv .deleteRequest none [("key", .pInt key)]
    let root' ← deleteInternal fuel (← get).root key
    modify fun s => { s with root := root' }
    let s ← get
    if s.root.keys.length == 0 ∧ s.root.children.length > 0 then
      match s.root.children.get? 0 with
      | none => throw .indexError
      | some newRoot => do
        modify fun st => { st with root := newRoot }
        emitEv .shrinkRoot (some newRoot.id)
          [("old_root_id", .pInt s.root.id), ("new_root_id", .pInt newRoot.id)]
        let fl ← leftmostLeafId fuel newRoot
        modify fun st => { st with firstLeaf := fl }
        pure true
    else
      pure true

/-- Inner key loop of `range_query`: collect keys inside `[startKey, endKey]`
and report an early stop as soon as a key exceeds `endKey`. -/
def rangeScanKeys (startKey endKey : Int) : List Int → List Int × Bool
  | [] => ([], false)
  | k :: rest =>
    if startKey ≤ k ∧ k ≤ endKey then
      let (collected, stop) := rangeScanKeys startKey endKey rest
      (k :: collected, stop)
    else if k > endKey then
      ([], true)
    else
      rangeScanKeys startKey endKey rest

/-- Descent loop of `range_query`: walk to the first leaf that could hold
`startKey`. -/
def rangeDescend (startKey : Int) : Nat → BPNode → Except PyErr BPNode
  | 0, _ => throw .fuelExhausted
  | fuel + 1, node =>
    if node.isLeaf then
      pure node
    else
      match node.children.get? (findInsertPos node.keys startKey) with
      | some c => rangeDescend startKey fuel c
      | none => throw .indexError

/-- Chain loop of `range_query`: scan the current leaf, then follow
`next_leaf` (resolved through the tree; Python follows the object pointer
directly, which agrees on states whose chain points at reachable leaves). -/
def rangeWalk (t : BPNode) (startKey endKey : Int) :
    Nat → BPNode → Except PyErr (List Int)
  | 0, _ => throw .fuelExhausted
  | fuel + 1, node => do
    let (collected, stop) := rangeScanKeys startKey endKey node.keys
    if stop then
      pure collected
    else
      match node.next with
      | none => pure collected
      | some nid =>
        match t.findLeaf nid with
        | some nxt => do pure (collected ++ (← rangeWalk t startKey endKey fuel nxt))
        | none => throw .indexError

/-- `BPlusTree.range_query(start_key, end_key)`: descend once, then follow
the leaf chain, stopping as soon as a key exceeds `end_key`.  Emits no trace
events and ticks no counters, as in the source. -/
def rangeQuery (fuel : Nat) (s : BPState) (startKey endKey : Int) :
    Except PyErr (List Int) := do
  let node ← rangeDescend startKey fuel s.root
  rangeWalk s.root startKey endKey fuel node

/-- Chain loop of `sequential_scan`. -/
def scanWalk (t : BPNode) : Nat → BPNode → Except PyErr (List Int)
  | 0, _ => throw .fuelExhausted
  | fuel + 1, node =>
    match node.next with
    | none => pure node.keys
    | some nid =>
      match t.findLeaf nid with
      | some nxt => do pure (node.keys ++ (← scanWalk t fuel nxt))
      | none => throw .indexError

/-- `BPlusTree.sequential_scan()`: walk the whole chain from `first_leaf`,
concatenating keys. -/
def sequentialScan (fuel : Nat) (s : BPState) : Except PyErr (List Int) :=
  match s.root.findLeaf s.firstLeaf with
  | some fl => scanWalk s.root fuel fl
  | none => throw .indexError

end BPlusTree

/-! ## Running operation sequences -/

/-- A caller-level operation on a tree. -/
inductive TreeOp where
  | ins (k : Int)
  | del (k : Int)
deriving DecidableEq, Repr

def BTree.runOps (fuel : Nat) : List TreeOp → BM Unit
  | [] => pure ()
  | .ins k :: ops => do
    let _ ← BTree.insert fuel k
    BTree.runOps fuel ops
  | .del k :: ops => do
    let _ ← BTree.delete fuel k
    BTree.runOps fuel ops

/-- The `BTree` state after constructing with the given fanout and applying
the operations in order. -/
def BTree.afterOps (fanoutN fuel : Nat) (ops : List TreeOp) :
    Except PyErr BTState := do
  let s0 ← BTree.new fanoutN
  match (BTree.runOps fuel ops).run.run s0 with
  | (.ok _, s) => .ok s
  | (.error e, _) => .error e

def BPlusTree.runOps (fuel : Nat) : List TreeOp → PM Unit
  | [] => pure ()
  | .ins k :: ops => do
    let _ ← BPlusTree.insert fuel k
    BPlusTree.runOps fuel ops
  | .del k :: ops => do
    let _ ← BPlusTree.delete fuel k
    BPlusTree.runOps fuel ops

/-- The `BPlusTree` state after constructing with the given fanout and
applying the operations in order. -/
def BPlusTree.afterOps (fanoutN fuel : Nat) (ops : List TreeOp) :
    Except PyErr BPState := do
  let s0 ← BPlusTree.new fanoutN
  match (BPlusTree.runOps fuel ops).run.run s0 with
  | (.ok _, s) => .ok s
  | (.error e, _) => .error e

/-- Result and state of a single `search` call on a B-Tree state. -/
def BTree.searchOn (fuel : Nat) (s : BTState) (key : Int) :
    Except PyErr SearchResult × BTState :=
  (BTree.search fuel key).run.run s

/-- Result and state of a single `search` call on a B+-Tree state. -/
def BPlusTree.searchOn (fuel : Nat) (s : BPState) (key : Int) :
    Except PyErr SearchResult × BPState :=
  (BPlusTree.search fuel key).run.run s

/-! ## Validator (`src/core/validate.py`, `validate_bplustree`) -/

/-- Possible outcomes of a `validate_bplustree` call: normal return, a
`ValidationError` with its message, the `NameError` caused by the undefined
`leaf_nodes_sorted` variable, or a dangling chain reference the pure model
cannot follow (never produced on engine states). -/
inductive VOutcome where
  | ok
  | validationError (msg : String)
  | nameError (name : String)
  | danglingRef
deriving DecidableEq, Repr

def VOutcome.isValidationError : VOutcome → Bool
  | .validationError _ => true
  | _ => false

def VOutcome.isNameError : VOutcome → Bool
  | .nameError _ => true
  | _ => false

/-- Accumulators threaded through `validate_node`: the `all_keys` set, the
collected leaves and their depths. -/
structure VAcc where
  allKeys : List Int
  leafNodes : List BPNode
  leafDepths : List Nat

/-- Adjacent-order check `node.keys[i] >= node.keys[i+1]` of `validate_node`. -/
def vKeysOutOfOrder : List Int → Bool
  | k₁ :: k₂ :: rest => k₁ ≥ k₂ || vKeysOutOfOrder (k₂ :: rest)
  | _ => false

/-- Duplicate check of `validate_node` for leaf keys, threading `all_keys`. -/
def vAddKeys (acc : List Int) : List Int → Except String (List Int)
  | [] => pure acc
  | k :: rest =>
    if acc.contains k then
      throw ("Chave duplicada encontrada: " ++ toString k)
    else
      vAddKeys (acc ++ [k]) rest

mutual

/-- `validate_node` of `validate_bplustree`: max-keys bound, intra-node
ordering, leaf-wide duplicate detection, children-count check, recursion
into children. -/
def vNode (maxKeysN : Nat) : BPNode → Nat → VAcc → Except String VAcc
  | .mk i ks cs l nx, depth, acc => do
    if ks.length > maxKeysN then
      throw ("Nó " ++ toString i ++ " tem " ++ toString ks.length ++
        " chaves, máximo é " ++ toString maxKeysN)
    else if vKeysOutOfOrder ks then
      throw ("Nó " ++ toString i ++ " tem chaves fora de ordem")
    else if l then do
      let allKeys' ← vAddKeys acc.allKeys ks
      pure ⟨allKeys', acc.leafNodes ++ [.mk i ks cs l nx], acc.leafDepths ++ [depth]⟩
    else if cs.length ≠ ks.length + 1 then
      throw ("Nó interno " ++ toString i ++ " tem " ++
        toString ks.length ++ " chaves mas " ++
        toString cs.length ++ " filhos")
    else
      vNodeL maxKeysN cs (depth + 1) acc

def vNodeL (maxKeysN : Nat) : List BPNode → Nat → VAcc → Except String VAcc
  | [], _, acc => pure acc
  | c :: cs, depth, acc => do
    let acc' ← vNode maxKeysN c depth acc
    vNodeL maxKeysN cs depth acc'

end

/-- Leaf-chain walk of `validate_bplustree`: counts chain nodes, checks the
leaf flag and the boundary-key order between consecutive leaves. -/
def vChainWalk (t : BPNode) : Nat → BPNode → Nat → Except VOutcome Nat
  | 0, _, _ => throw .danglingRef
  | fuel + 1, current, count => do
    let count := count + 1
    if current.isLeaf = false then
      throw (.validationError ("Nó na lista encadeada " ++ toString current.id ++
        " não é marcado como folha"))
    else
      match current.next with
      | none => pure count
      | some nid =>
        match t.findLeaf nid with
        | none => throw .danglingRef
        | some nxt => do
          match current.keys.getLast?, nxt.keys.get? 0 with
          | some lastK, some firstK =>
            if lastK > firstK then
              throw (.validationError ("Erro de ordenação na lista encadeada: Folha " ++
                toString current.id ++ " > Folha " ++ toString nxt.id))
            else
              vChainWalk t fuel nxt count
          | _, _ => vChainWalk t fuel nxt count

/-- `validate_bplustree`: per-node checks, uniform leaf depth, then the leaf
chain.  When the chain length matches the collected leaves, the source
dereferences the undefined name `leaf_nodes_sorted` while checking the final
leaf's terminator, which raises `NameError`. -/
def validateBPlusTree (fuel : Nat) (s : BPState) : VOutcome :=
  match vNode s.maxKeys s.root 0 ⟨[], [], []⟩ with
  | .error msg => .validationError msg
  | .ok acc =>
    if acc.leafDepths ≠ [] ∧ acc.leafDepths.any (fun d => d ≠ acc.leafDepths.headI) then
      .validationError "Folhas em profundidades diferentes (árvore não está balanceada)"
    else
      match s.root.findLeaf s.firstLeaf with
      | none => .danglingRef
      | some fl =>
        match vChainWalk s.root fuel fl 0 with
        | .error out => out
        | .ok count =>
          if count ≠ acc.leafNodes.length then
            .validationError ("Lista encadeada tem " ++ toString count ++
              " nós, mas árvore tem " ++ toString acc.leafNodes.length ++ " folhas")
          else
            .nameError "leaf_nodes_sorted"

/-! ## Statement helpers -/

instance : Inhabited BPState :=
  ⟨⟨3, .mk 0 [] [] true none, 0, Tracer.init, Metrics.init, 1⟩⟩

instance : Inhabited BTState :=
  ⟨⟨3, .mk 0 [] [], Tracer.init, Metrics.init, 1⟩⟩

instance : Inhabited SearchResult := ⟨⟨false, -1, -1, []⟩⟩

def exceptOk {α : Type} : Except PyErr α → Bool
  | .ok _ => true
  | .error _ => false

def exceptGet {α : Type} [Inhabited α] : Except PyErr α → α
  | .ok a => a
  | .error _ => default

/-- The data keys of a B+-Tree: the keys stored in its leaves, left to
right.  Internal keys are separator copies with no independent identity. -/
def BPNode.leafKeys (t : BPNode) : List Int :=
  ((BPNode.leaves t).map BPNode.keys).flatten

/-- A freshly constructed B+-Tree with tracing disabled, the starting point
of the batch pattern used by the test suite (`tracer.disable()` before a
batch of operations). -/
def BPlusTree.startQuiet (fanoutN : Nat) : Except PyErr BPState :=
  match BPlusTree.new fanoutN with
  | .error e => .error e
  | .ok s0 => .ok { s0 with tracer := { s0.tracer with enabled := false } }

/-- Batch runs in the test suite disable tracing first (`tracer.disable()`),
run the operations, and re-enable afterwards; this is that pattern. -/
def BPlusTree.afterOpsQuiet (fanoutN fuel : Nat) (ops : List TreeOp) :
    Except PyErr BPState :=
  match BPlusTree.startQuiet fanoutN with
  | .error e => .error e
  | .ok s0 =>
    match (BPlusTree.runOps fuel ops).run.run s0 with
    | (.ok _, s) => .ok s
    | (.error e, _) => .error e

/-- Minimum of a key list (used to name the in-order successor). -/
def listMin : List Int → Option Int
  | [] => none
  | k :: rest =>
    match listMin rest with
    | none => some k
    | some m => some (min k m)

/-- Maximum of a key list (used to name the in-order predecessor). -/
def listMax : List Int → Option Int
  | [] => none
  | k :: rest =>
    match listMax rest with
    | none => some k
    | some m => some (max k m)

/-- The `predecessor` payload of a `replace_with_predecessor` event. -/
def predPayload (e : Event) : Option Int :=
  match e.info.lookup "predecessor" with
  | some (.pInt i) => some i
  | _ => none

/-- Strict ascending order of a key list, as a computable check. -/
def strictAsc : List Int → Bool
  | k₁ :: k₂ :: rest => k₁ < k₂ && strictAsc (k₂ :: rest)
  | _ => true

/-- Bound check `lo ≤ k < hi` with optional (absent = unbounded) ends. -/
def inBound (lob hib : Option Int) (k : Int) : Bool :=
  (match lob with
   | none => true
   | some lo => lo ≤ k) &&
  (match hib with
   | none => true
   | some hi => k < hi)

mutual

/-- The structural invariants of spec section 3 for a B+ subtree lying in
the key window `[lob, hib)`: keys strictly increasing and inside the window;
an internal node has `|keys| + 1` children, with `children[i]` holding only
keys between the adjacent separators (a key equal to a separator belongs to
the right subtree, matching the engine's routing). -/
def BPNode.wf : BPNode → Option Int → Option Int → Bool
  | .mk _ ks cs l _, lob, hib =>
    strictAsc ks && ks.all (inBound lob hib) &&
    (if l then cs.isEmpty else BPNode.wfChildren lob ks cs hib)

def BPNode.wfChildren : Option Int → List Int → List BPNode → Option Int → Bool
  | lob, [], [c], hib => BPNode.wf c lob hib
  | lob, k :: ks, c :: cs, hib =>
    BPNode.wf c lob (some k) && BPNode.wfChildren (some k) ks cs hib
  | _, _, _, _ => false

end

/-- The data keys below a child list, left to right. -/
def BPNode.leafKeysL (cs : List BPNode) : List Int :=
  ((BPNode.leavesL cs).map BPNode.keys).flatten

def natsNodup : List Nat → Bool
  | [] => true
  | n :: ns => !ns.contains n && natsNodup ns

/-- The `next_leaf` links tie consecutive leaves together and the last leaf
ends the chain. -/
def chainLinked : List BPNode → Bool
  | [] => true
  | [l] => l.next == none
  | l :: l' :: rest => l.next == some l'.id && chainLinked (l' :: rest)

/-- Chain integrity of a B+-Tree state: `first_leaf` references the leftmost
leaf, leaf ids are pairwise distinct (so a `next_leaf` reference denotes one
leaf), and the links run left to right ending with `next_leaf` absent. -/
def chainConsistent (s : BPState) : Bool :=
  match s.root.leaves with
  | [] => false
  | l0 :: _ =>
    (s.firstLeaf == l0.id) &&
    natsNodup (s.root.leaves.map BPNode.id) &&
    chainLinked s.root.leaves

/-- Frame of a read-only B+-Tree operation: the tree (root and every node
below it, hence every key, child list and `next_leaf` link), the
`first_leaf` reference, the fanout, the id allocator, the write counter, the
tracing flag and the operation counter are unchanged; the event log is only
appended to; the read counter only grows. -/
def BPFrame (s s' : BPState) : Prop :=
  s'.fanout = s.fanout ∧ s'.root = s.root ∧ s'.firstLeaf = s.firstLeaf ∧
  s'.counter = s.counter ∧ s'.metrics.writes = s.metrics.writes ∧
  s.metrics.reads ≤ s'.metrics.reads ∧
  s'.tracer.enabled = s.tracer.enabled ∧
  s'.tracer.currentOpId = s.tracer.currentOpId ∧
  ∃ es, s'.tracer.events = s.tracer.events ++ es

/-- A B+-Tree computation all of whose runs respect the read-only frame. -/
def PMSafe {α : Type} (m : PM α) : Prop :=
  ∀ s : BPState, BPFrame s ((m.run.run s).2)

/-- Frame of a read-only B-Tree operation (as `BPFrame`). -/
def BTFrame (s s' : BTState) : Prop :=
  s'.fanout = s.fanout ∧ s'.root = s.root ∧
  s'.counter = s.counter ∧ s'.metrics.writes = s.metrics.writes ∧
  s.metrics.reads ≤ s'.metrics.reads ∧
  s'.tracer.enabled = s.tracer.enabled ∧
  s'.tracer.currentOpId = s.tracer.currentOpId ∧
  ∃ es, s'.tracer.events = s.tracer.events ++ es

/-- A B-Tree computation all of whose runs respect the read-only frame. -/
def BMSafe {α : Type} (m : BM α) : Prop :=
  ∀ s : BTState, BTFrame s ((m.run.run s).2)

mutual

/-- Structural soundness of the child lists of a B+-Tree: every internal
node has exactly `|keys| + 1` children (the invariant `search` relies on to
index `children`). -/
def BPNode.childrenOk : BPNode → Bool
  | .mk _ ks cs l _ =>
    (if l then true else cs.length == ks.length + 1) && BPNode.childrenOkL cs

def BPNode.childrenOkL : List BPNode → Bool
  | [] => true
  | c :: cs => BPNode.childrenOk c && BPNode.childrenOkL cs

end

mutual

/-- Structural soundness of the child lists of a B-Tree: every internal node
has exactly `|keys| + 1` children. -/
def BNode.childrenOk : BNode → Bool
  | .mk _ ks cs =>
    (if cs.isEmpty then true else cs.length == ks.length + 1) &&
      BNode.childrenOkL cs

def BNode.childrenOkL : List BNode → Bool
  | [] => true
  | c :: cs => BNode.childrenOk c && BNode.childrenOkL cs

end

/-- The replacement keys announced in a trace, in order. -/
def replacementKeys (events : List Event) : List Int :=
  (events.filter fun e : Event => e.type == EvType.replaceWithPredecessor).filterMap
    predPayload

/-! ## Concrete scenario states

Every `q…` state below is reached from a freshly constructed tree through
the public API alone; the step theorems later in the file verify each arrow
of the chain by evaluation.  The B+ scenarios run with tracing disabled
(the batch pattern of the test suite); fuel 20 exceeds every height and
descent involved. -/

/-- Fresh fanout-3 B+-Tree with tracing disabled. -/
def qA0 : BPState := ⟨3, .mk 0 [] [] true none, 0, ⟨[], false, 0⟩, ⟨0, 0⟩, 1⟩

/-- After `insert 10`. -/
def qA1 : BPState := ⟨3, .mk 0 [10] [] true none, 0, ⟨[], false, 1⟩, ⟨2, 0⟩, 1⟩

/-- After `insert 20`. -/
def qA2 : BPState := ⟨3, .mk 0 [10, 20] [] true none, 0, ⟨[], false, 2⟩, ⟨4, 0⟩, 1⟩

/-- After `insert 30`. -/
def qA3 : BPState :=
  ⟨3, .mk 1 [20] [.mk 0 [10] [] true (some 2), .mk 2 [20, 30] [] true none]
    false none, 0, ⟨[], false, 3⟩, ⟨7, 0⟩, 3⟩

/-- After `insert 40`. -/
def qA4 : BPState :=
  ⟨3, .mk 1 [20, 30] [.mk 0 [10] [] true (some 2), .mk 2 [20] [] true (some 3),
    .mk 3 [30, 40] [] true none] false none, 0, ⟨[], false, 4⟩, ⟨11, 0⟩, 4⟩

/-- After `insert 50`. -/
def qA5 : BPState :=
  ⟨3, .mk 4 [30] [.mk 1 [20] [.mk 0 [10] [] true (some 2),
      .mk 2 [20] [] true (some 3)] false none,
    .mk 5 [40] [.mk 3 [30] [] true (some 6), .mk 6 [40, 50] [] true none]
      false none] false none, 0, ⟨[], false, 5⟩, ⟨16, 0⟩, 7⟩

/-- After `insert 60`. -/
def qA6 : BPState :=
  ⟨3, .mk 4 [30] [.mk 1 [20] [.mk 0 [10] [] true (some 2),
      .mk 2 [20] [] true (some 3)] false none,
    .mk 5 [40, 50] [.mk 3 [30] [] true (some 6), .mk 6 [40] [] true (some 7),
      .mk 7 [50, 60] [] true none] false none] false none,
   0, ⟨[], false, 6⟩, ⟨22, 0⟩, 8⟩

/-- After `insert 70`. -/
def qA7 : BPState :=
  ⟨3, .mk 4 [30, 50] [.mk 1 [20] [.mk 0 [10] [] true (some 2),
      .mk 2 [20] [] true (some 3)] false none,
    .mk 5 [40] [.mk 3 [30] [] true (some 6), .mk 6 [40] [] true (some 7)]
      false none,
    .mk 8 [60] [.mk 7 [50] [] true (some 9), .mk 9 [60, 70] [] true none]
      false none] false none, 0, ⟨[], false, 7⟩, ⟨28, 0⟩, 10⟩

/-- After `insert 80`. -/
def qA8 : BPState :=
  ⟨3, .mk 10 [50] [.mk 4 [30] [.mk 1 [20] [.mk 0 [10] [] true (some 2),
        .mk 2 [20] [] true (some 3)] false none,
      .mk 5 [40] [.mk 3 [30] [] true (some 6), .mk 6 [40] [] true (some 7)]
        false none] false none,
    .mk 11 [] [.mk 8 [60, 70] [.mk 7 [50] [] true (some 9),
        .mk 9 [60] [] true (some 12), .mk 12 [70, 80] [] true none]
      false none] false none] false none,
   0, ⟨[], false, 8⟩, ⟨35, 0⟩, 13⟩

/-- After `delete 70`: the leaf copy of 70 is removed, but the separator 70
promoted earlier survives inside node 8. -/
def qA9 : BPState :=
  ⟨3, .mk 4 [30, 50] [.mk 1 [20] [.mk 0 [10] [] true (some 2),
      .mk 2 [20] [] true (some 3)] false none,
    .mk 5 [40] [.mk 3 [30] [] true (some 6), .mk 6 [40] [] true (some 7)]
      false none,
    .mk 8 [60, 70] [.mk 7 [50] [] true (some 9), .mk 9 [60] [] true (some 12),
      .mk 12 [80] [] true none] false none] false none,
   0, ⟨[], false, 9⟩, ⟨43, 0⟩, 13⟩

/-- After re-`insert 70`: the insert descends left of the stale separator 70
and places 70 in leaf 9, where no search ever looks again. -/
def qA10 : BPState :=
  ⟨3, .mk 13 [50] [.mk 4 [30] [.mk 1 [20] [.mk 0 [10] [] true (some 2),
        .mk 2 [20] [] true (some 3)] false none,
      .mk 5 [40] [.mk 3 [30] [] true (some 6), .mk 6 [40] [] true (some 7)]
        false none] false none,
    .mk 14 [70] [.mk 8 [60] [.mk 7 [50] [] true (some 9),
        .mk 9 [60, 70] [] true (some 12)] false none,
      .mk 15 [] [.mk 12 [80] [] true none] false none] false none]
    false none, 0, ⟨[], false, 10⟩, ⟨50, 0⟩, 16⟩

/-- After `delete 70` on `qA10`: the pre-check probe misses the hidden key,
so nothing is removed (only the read counter moves). -/
def qA11 : BPState :=
  ⟨3, .mk 13 [50] [.mk 4 [30] [.mk 1 [20] [.mk 0 [10] [] true (some 2),
        .mk 2 [20] [] true (some 3)] false none,
      .mk 5 [40] [.mk 3 [30] [] true (some 6), .mk 6 [40] [] true (some 7)]
        false none] false none,
    .mk 14 [70] [.mk 8 [60] [.mk 7 [50] [] true (some 9),
        .mk 9 [60, 70] [] true (some 12)] false none,
      .mk 15 [] [.mk 12 [80] [] true none] false none] false none]
    false none, 0, ⟨[], false, 10⟩, ⟨54, 0⟩, 16⟩

/-- After a second `insert 70` on `qA11`: the probe misses the hidden copy
again and a duplicate 70 lands in leaf 12. -/
def qA12 : BPState :=
  ⟨3, .mk 13 [50] [.mk 4 [30] [.mk 1 [20] [.mk 0 [10] [] true (some 2),
        .mk 2 [20] [] true (some 3)] false none,
      .mk 5 [40] [.mk 3 [30] [] true (some 6), .mk 6 [40] [] true (some 7)]
        false none] false none,
    .mk 14 [70] [.mk 8 [60] [.mk 7 [50] [] true (some 9),
        .mk 9 [60, 70] [] true (some 12)] false none,
      .mk 15 [] [.mk 12 [70, 80] [] true none] false none] false none]
    false none, 0, ⟨[], false, 11⟩, ⟨62, 0⟩, 16⟩

/-- After `insert 25` on `qA4` (sequence 10,20,30,40,25): the proactive root
split leaves internal node 5 with zero keys for good. -/
def qB5 : BPState :=
  ⟨3, .mk 4 [30] [.mk 1 [20] [.mk 0 [10] [] true (some 2),
      .mk 2 [20, 25] [] true (some 3)] false none,
    .mk 5 [] [.mk 3 [30, 40] [] true none] false none] false none,
   0, ⟨[], false, 5⟩, ⟨16, 0⟩, 6⟩

/-- After `delete 50` on `qA5` (sequence 10,…,50, delete 50): the proactive
merge stuffs three keys into the node that then becomes the root. -/
def qC6 : BPState :=
  ⟨3, .mk 1 [20, 30, 40] [.mk 0 [10] [] true (some 2),
    .mk 2 [20] [] true (some 3), .mk 3 [30] [] true (some 6),
    .mk 6 [40] [] true none] false none, 0, ⟨[], false, 6⟩, ⟨22, 0⟩, 7⟩

/-- Fresh fanout-4 B+-Tree with tracing disabled (range-query scenario). -/
def qD0 : BPState := ⟨4, .mk 0 [] [] true none, 0, ⟨[], false, 0⟩, ⟨0, 0⟩, 1⟩

/-- Intermediate states of inserting 10,20,…,100 into `qD0`. -/
def qD1 : BPState := ⟨4, .mk 0 [10] [] true none, 0, ⟨[], false, 1⟩, ⟨2, 0⟩, 1⟩

def qD2 : BPState := ⟨4, .mk 0 [10, 20] [] true none, 0, ⟨[], false, 2⟩, ⟨4, 0⟩, 1⟩

def qD3 : BPState :=
  ⟨4, .mk 0 [10, 20, 30] [] true none, 0, ⟨[], false, 3⟩, ⟨6, 0⟩, 1⟩

def qD4 : BPState :=
  ⟨4, .mk 1 [20] [.mk 0 [10] [] true (some 2), .mk 2 [20, 30, 40] [] true none]
    false none, 0, ⟨[], false, 4⟩, ⟨9, 0⟩, 3⟩

def qD5 : BPState :=
  ⟨4, .mk 1 [20, 30] [.mk 0 [10] [] true (some 2), .mk 2 [20] [] true (some 3),
    .mk 3 [30, 40, 50] [] true none] false none, 0, ⟨[], false, 5⟩, ⟨13, 0⟩, 4⟩

def qD6 : BPState :=
  ⟨4, .mk 1 [20, 30, 40] [.mk 0 [10] [] true (some 2), .mk 2 [20] [] true (some 3),
    .mk 3 [30] [] true (some 4), .mk 4 [40, 50, 60] [] true none] false none,
   0, ⟨[], false, 6⟩, ⟨17, 0⟩, 5⟩

def qD7 : BPState :=
  ⟨4, .mk 5 [30] [.mk 1 [20] [.mk 0 [10] [] true (some 2),
      .mk 2 [20] [] true (some 3)] false none,
    .mk 6 [40, 50] [.mk 3 [30] [] true (some 4), .mk 4 [40] [] true (some 7),
      .mk 7 [50, 60, 70] [] true none] false none] false none,
   0, ⟨[], false, 7⟩, ⟨22, 0⟩, 8⟩

def qD8 : BPState :=
  ⟨4, .mk 5 [30] [.mk 1 [20] [.mk 0 [10] [] true (some 2),
      .mk 2 [20] [] true (some 3)] false none,
    .mk 6 [40, 50, 60] [.mk 3 [30] [] true (some 4), .mk 4 [40] [] true (some 7),
      .mk 7 [50] [] true (some 8), .mk 8 [60, 70, 80] [] true none]
      false none] false none, 0, ⟨[], false, 8⟩, ⟨28, 0⟩, 9⟩

def qD9 : BPState :=
  ⟨4, .mk 5 [30, 50] [.mk 1 [20] [.mk 0 [10] [] true (some 2),
      .mk 2 [20] [] true (some 3)] false none,
    .mk 6 [40] [.mk 3 [30] [] true (some 4), .mk 4 [40] [] true (some 7)]
      false none,
    .mk 9 [60, 70] [.mk 7 [50] [] true (some 8), .mk 8 [60] [] true (some 10),
      .mk 10 [70, 80, 90] [] true none] false none] false none,
   0, ⟨[], false, 9⟩, ⟨34, 0⟩, 11⟩

/-- After inserting 10,20,…,100: the leaves hold exactly 10,20,…,100. -/
def qD10 : BPState :=
  ⟨4, .mk 5 [30, 50] [.mk 1 [20] [.mk 0 [10] [] true (some 2),
      .mk 2 [20] [] true (some 3)] false none,
    .mk 6 [40] [.mk 3 [30] [] true (some 4), .mk 4 [40] [] true (some 7)]
      false none,
    .mk 9 [60, 70, 80] [.mk 7 [50] [] true (some 8), .mk 8 [60] [] true (some 10),
      .mk 10 [70] [] true (some 11), .mk 11 [80, 90, 100] [] true none]
      false none] false none, 0, ⟨[], false, 10⟩, ⟨40, 0⟩, 12⟩

/-- Fresh fanout-3 B-Tree (tracing enabled). -/
def btFresh : BTState := ⟨3, .mk 0 [] [], Tracer.init, Metrics.init, 1⟩

/-- The B-Tree after a traced `insert 10` on a fresh tree. -/
def btS1 : BTState :=
  ⟨3, .mk 0 [10] [],
   ⟨[⟨.visitNode, some 0, [("keys", .pList [])], 1⟩,
     ⟨.insertInLeaf, some 0,
       [("key", .pInt 10), ("position", .pInt 0), ("keys_after", .pList [10])], 1⟩],
    true, 1⟩, ⟨2, 0⟩, 1⟩

/-- `btS1` after the consumer clears the tracer (the pattern of the test
suite between operations). -/
def btS1c : BTState := { btS1 with tracer := btS1.tracer.clear }

/-- Run of the duplicate `insert 10` on `btS1c`. -/
def dupRun : Except PyErr Bool × BTState := (BTree.insert 20 10).run.run btS1c

/-- Hand-built, fully valid fanout-3 B-Tree mirroring the direct-construction
pattern of the repository's own `reproduce_bug_v2.py`: the key 100 sits in
the internal root; its left subtree holds 20,50,70 with minimum-occupancy
root, its right subtree holds 120,130,150,170. -/
def predLeft : BNode := .mk 1 [50] [.mk 3 [20] [], .mk 4 [70] []]

def predRight : BNode := .mk 2 [150] [.mk 5 [120, 130] [], .mk 6 [170] []]

def predTree : BNode := .mk 0 [100] [predLeft, predRight]

def predState : BTState := ⟨3, predTree, Tracer.init, Metrics.init, 7⟩

/-- Run of the traced `delete 100` on `predState`. -/
def predRun : Except PyErr Bool × BTState := (BTree.delete 20 100).run.run predState

/-- Insert 10,…,80 ascending, then delete 70: reaches `qA9`, which carries
the stale separator 70. -/
def opsHidden : List TreeOp :=
  [.ins 10, .ins 20, .ins 30, .ins 40, .ins 50, .ins 60, .ins 70, .ins 80,
   .del 70]

/-- `opsHidden`, then re-insert 70 and delete it again (round trip on a key
that is absent at the time of the insert). -/
def opsRound : List TreeOp := opsHidden ++ [.ins 70, .del 70]

/-- `opsRound`, then one more insert of 70: the probe misses the hidden copy
and a duplicate enters the leaves. -/
def opsDupScan : List TreeOp := opsRound ++ [.ins 70]

/-- Insert 10,20,30,40,25: leaves a zero-key internal node behind. -/
def opsDegenerate : List TreeOp := [.ins 10, .ins 20, .ins 30, .ins 40, .ins 25]

/-- Insert 10,…,50, delete 50: leaves a three-key root behind (maxKeys 2). -/
def opsOverfull : List TreeOp :=
  [.ins 10, .ins 20, .ins 30, .ins 40, .ins 50, .del 50]

/-- Insert 10,20,…,100 (fanout 4): the range-query scenario of the spec. -/
def opsRange : List TreeOp :=
  [.ins 10, .ins 20, .ins 30, .ins 40, .ins 50, .ins 60, .ins 70, .ins 80,
   .ins 90, .ins 100]

/-- Run of `search 70` on `qA10` (the state holding the hidden 70). -/
def c1Search : Except PyErr SearchResult × BPState :=
  (BPlusTree.search 20 70).run.run qA10

/-! ## Generic lemmas about running the state monads -/

theorem pm_bind_ok {α β : Type} {m : PM α} {f : α → PM β} {s s₁ : BPState} {a : α}
    (h : m.run.run s = (.ok a, s₁)) :
    (m >>= f).run.run s = (f a).run.run s₁ := by
  have hm : (m >>= f).run.run s =
      (match m.run.run s with
       | (r, s₂) => ExceptT.bindCont f r s₂) := rfl
  rw [hm, h]
  rfl

theorem pm_bind_error {α β : Type} {m : PM α} {f : α → PM β} {s s₁ : BPState}
    {e : PyErr} (h : m.run.run s = (.error e, s₁)) :
    (m >>= f).run.run s = (.error e, s₁) := by
  have hm : (m >>= f).run.run s =
      (match m.run.run s with
       | (r, s₂) => ExceptT.bindCont f r s₂) := rfl
  rw [hm, h]
  rfl

theorem bm_bind_ok {α β : Type} {m : BM α} {f : α → BM β} {s s₁ : BTState} {a : α}
    (h : m.run.run s = (.ok a, s₁)) :
    (m >>= f).run.run s = (f a).run.run s₁ := by
  have hm : (m >>= f).run.run s =
      (match m.run.run s with
       | (r, s₂) => ExceptT.bindCont f r s₂) := rfl
  rw [hm, h]
  rfl

theorem bm_bind_error {α β : Type} {m : BM α} {f : α → BM β} {s s₁ : BTState}
    {e : PyErr} (h : m.run.run s = (.error e, s₁)) :
    (m >>= f).run.run s = (.error e, s₁) := by
  have hm : (m >>= f).run.run s =
      (match m.run.run s with
       | (r, s₂) => ExceptT.bindCont f r s₂) := rfl
  rw [hm, h]
  rfl

theorem runOps_cons_ins {fuel : Nat} {k : Int} {ops : List TreeOp}
    {s s₁ : BPState} {b : Bool}
    (h : (BPlusTree.insert fuel k).run.run s = (.ok b, s₁)) :
    (BPlusTree.runOps fuel (.ins k :: ops)).run.run s =
      (BPlusTree.runOps fuel ops).run.run s₁ := by
  have hm : (BPlusTree.runOps fuel (.ins k :: ops)).run.run s =
      ((BPlusTree.insert fuel k) >>= fun _ => BPlusTree.runOps fuel ops).run.run s :=
    rfl
  rw [hm, pm_bind_ok h]

theorem runOps_cons_del {fuel : Nat} {k : Int} {ops : List TreeOp}
    {s s₁ : BPState} {b : Bool}
    (h : (BPlusTree.delete fuel k).run.run s = (.ok b, s₁)) :
    (BPlusTree.runOps fuel (.del k :: ops)).run.run s =
      (BPlusTree.runOps fuel ops).run.run s₁ := by
  have hm : (BPlusTree.runOps fuel (.del k :: ops)).run.run s =
      ((BPlusTree.delete fuel k) >>= fun _ => BPlusTree.runOps fuel ops).run.run s :=
    rfl
  rw [hm, pm_bind_ok h]

/-! ## Step theorems: each arrow of the concrete scenarios, by evaluation -/

theorem stepA1 : (BPlusTree.insert 20 10).run.run qA0 = (.ok true, qA1) := rfl

theorem stepA2 : (BPlusTree.insert 20 20).run.run qA1 = (.ok true, qA2) := rfl

theorem stepA3 : (BPlusTree.insert 20 30).run.run qA2 = (.ok true, qA3) := rfl

theorem stepA4 : (BPlusTree.insert 20 40).run.run qA3 = (.ok true, qA4) := rfl

theorem stepA5 : (BPlusTree.insert 20 50).run.run qA4 = (.ok true, qA5) := rfl

theorem stepA6 : (BPlusTree.insert 20 60).run.run qA5 = (.ok true, qA6) := rfl

theorem stepA7 : (BPlusTree.insert 20 70).run.run qA6 = (.ok true, qA7) := rfl

theorem stepA8 : (BPlusTree.insert 20 80).run.run qA7 = (.ok true, qA8) := rfl

theorem stepA9 : (BPlusTree.delete 20 70).run.run qA8 = (.ok true, qA9) := rfl

theorem stepA10 : (BPlusTree.insert 20 70).run.run qA9 = (.ok true, qA10) := rfl

theorem stepA11 : (BPlusTree.delete 20 70).run.run qA10 = (.ok false, qA11) := rfl

theorem stepA12 : (BPlusTree.insert 20 70).run.run qA11 = (.ok true, qA12) := rfl

theorem stepB5 : (BPlusTree.insert 20 25).run.run qA4 = (.ok true, qB5) := rfl

theorem stepC6 : (BPlusTree.delete 20 50).run.run qA5 = (.ok true, qC6) := rfl

theorem stepD1 : (BPlusTree.insert 20 10).run.run qD0 = (.ok true, qD1) := rfl

theorem stepD2 : (BPlusTree.insert 20 20).run.run qD1 = (.ok true, qD2) := rfl

theorem stepD3 : (BPlusTree.insert 20 30).run.run qD2 = (.ok true, qD3) := rfl

theorem stepD4 : (BPlusTree.insert 20 40).run.run qD3 = (.ok true, qD4) := rfl

theorem stepD5 : (BPlusTree.insert 20 50).run.run qD4 = (.ok true, qD5) := rfl

theorem stepD6 : (BPlusTree.insert 20 60).run.run qD5 = (.ok true, qD6) := rfl

theorem stepD7 : (BPlusTree.insert 20 70).run.run qD6 = (.ok true, qD7) := rfl

theorem stepD8 : (BPlusTree.insert 20 80).run.run qD7 = (.ok true, qD8) := rfl

theorem stepD9 : (BPlusTree.insert 20 90).run.run qD8 = (.ok true, qD9) := rfl

theorem stepD10 : (BPlusTree.insert 20 100).run.run qD9 = (.ok true, qD10) := rfl

theorem btStep1 : (BTree.insert 20 10).run.run btFresh = (.ok true, btS1) := rfl

/-! ## Composition: the scenario states are reached by the public API -/

theorem afterOpsQuiet_eq {fanoutN fuel : Nat} {ops : List TreeOp}
    {s0 s' : BPState} {u : Unit}
    (h0 : BPlusTree.startQuiet fanoutN = .ok s0)
    (h : (BPlusTree.runOps fuel ops).run.run s0 = (.ok u, s')) :
    BPlusTree.afterOpsQuiet fanoutN fuel ops = .ok s' := by
  unfold BPlusTree.afterOpsQuiet
  rw [h0]
  show (match (BPlusTree.runOps fuel ops).run.run s0 with
    | (.ok _, s) => (.ok s : Except PyErr BPState)
    | (.error e, _) => .error e) = .ok s'
  rw [h]

theorem runHidden :
    (BPlusTree.runOps 20 opsHidden).run.run qA0 = (.ok (), qA9) := by
  show (BPlusTree.runOps 20 [.ins 10, .ins 20, .ins 30, .ins 40, .ins 50,
    .ins 60, .ins 70, .ins 80, .del 70]).run.run qA0 = (.ok (), qA9)
  rw [runOps_cons_ins stepA1, runOps_cons_ins stepA2, runOps_cons_ins stepA3,
      runOps_cons_ins stepA4, runOps_cons_ins stepA5, runOps_cons_ins stepA6,
      runOps_cons_ins stepA7, runOps_cons_ins stepA8, runOps_cons_del stepA9]
  rfl

theorem afterHidden : BPlusTree.afterOpsQuiet 3 20 opsHidden = .ok qA9 :=
  afterOpsQuiet_eq rfl runHidden

theorem runRound :
    (BPlusTree.runOps 20 opsRound).run.run qA0 = (.ok (), qA11) := by
  show (BPlusTree.runOps 20 [.ins 10, .ins 20, .ins 30, .ins 40, .ins 50,
    .ins 60, .ins 70, .ins 80, .del 70, .ins 70, .del 70]).run.run qA0 =
    (.ok (), qA11)
  rw [runOps_cons_ins stepA1, runOps_cons_ins stepA2, runOps_cons_ins stepA3,
      runOps_cons_ins stepA4, runOps_cons_ins stepA5, runOps_cons_ins stepA6,
      runOps_cons_ins stepA7, runOps_cons_ins stepA8, runOps_cons_del stepA9,
      runOps_cons_ins stepA10, runOps_cons_del stepA11]
  rfl

theorem afterRound : BPlusTree.afterOpsQuiet 3 20 opsRound = .ok qA11 :=
  afterOpsQuiet_eq rfl runRound

theorem runDupScan :
    (BPlusTree.runOps 20 opsDupScan).run.run qA0 = (.ok (), qA12) := by
  show (BPlusTree.runOps 20 [.ins 10, .ins 20, .ins 30, .ins 40, .ins 50,
    .ins 60, .ins 70, .ins 80, .del 70, .ins 70, .del 70, .ins 70]).run.run qA0 =
    (.ok (), qA12)
  rw [runOps_cons_ins stepA1, runOps_cons_ins stepA2, runOps_cons_ins stepA3,
      runOps_cons_ins stepA4, runOps_cons_ins stepA5, runOps_cons_ins stepA6,
      runOps_cons_ins stepA7, runOps_cons_ins stepA8, runOps_cons_del stepA9,
      runOps_cons_ins stepA10, runOps_cons_del stepA11, runOps_cons_ins stepA12]
  rfl

theorem afterDupScan : BPlusTree.afterOpsQuiet 3 20 opsDupScan = .ok qA12 :=
  afterOpsQuiet_eq rfl runDupScan

theorem runDegenerate :
    (BPlusTree.runOps 20 opsDegenerate).run.run qA0 = (.ok (), qB5) := by
  show (BPlusTree.runOps 20 [.ins 10, .ins 20, .ins 30, .ins 40,
    .ins 25]).run.run qA0 = (.ok (), qB5)
  rw [runOps_cons_ins stepA1, runOps_cons_ins stepA2, runOps_cons_ins stepA3,
      runOps_cons_ins stepA4, runOps_cons_ins stepB5]
  rfl

theorem afterDegenerate : BPlusTree.afterOpsQuiet 3 20 opsDegenerate = .ok qB5 :=
  afterOpsQuiet_eq rfl runDegenerate

theorem runOverfull :
    (BPlusTree.runOps 20 opsOverfull).run.run qA0 = (.ok (), qC6) := by
  show (BPlusTree.runOps 20 [.ins 10, .ins 20, .ins 30, .ins 40, .ins 50,
    .del 50]).run.run qA0 = (.ok (), qC6)
  rw [runOps_cons_ins stepA1, runOps_cons_ins stepA2, runOps_cons_ins stepA3,
      runOps_cons_ins stepA4, runOps_cons_ins stepA5, runOps_cons_del stepC6]
  rfl

theorem afterOverfull : BPlusTree.afterOpsQuiet 3 20 opsOverfull = .ok qC6 :=
  afterOpsQuiet_eq rfl runOverfull

theorem runRange :
    (BPlusTree.runOps 20 opsRange).run.run qD0 = (.ok (), qD10) := by
  show (BPlusTree.runOps 20 [.ins 10, .ins 20, .ins 30, .ins 40, .ins 50,
    .ins 60, .ins 70, .ins 80, .ins 90, .ins 100]).run.run qD0 = (.ok (), qD10)
  rw [runOps_cons_ins stepD1, runOps_cons_ins stepD2, runOps_cons_ins stepD3,
      runOps_cons_ins stepD4, runOps_cons_ins stepD5, runOps_cons_ins stepD6,
      runOps_cons_ins stepD7, runOps_cons_ins stepD8, runOps_cons_ins stepD9,
      runOps_cons_ins stepD10]
  rfl

theorem afterRange : BPlusTree.afterOpsQuiet 4 20 opsRange = .ok qD10 :=
  afterOpsQuiet_eq rfl runRange

theorem runThree :
    (BPlusTree.runOps 20 [.ins 10, .ins 20, .ins 30]).run.run qA0 =
      (.ok (), qA3) := by
  rw [runOps_cons_ins stepA1, runOps_cons_ins stepA2, runOps_cons_ins stepA3]
  rfl

theorem afterThree :
    BPlusTree.afterOpsQuiet 3 20 [.ins 10, .ins 20, .ins 30] = .ok qA3 :=
  afterOpsQuiet_eq rfl runThree

/-! ## Claim theorems: concrete refutations and code evaluations -/

/-- C1: the claim that `search(k)` returns `found = true` exactly when `k`
is in the tree's key set, for every insert/delete sequence on either
variant, fails on the B+-Tree.  After inserting 10,…,80 and deleting 70, the
separator 70 in node 8 is stale; re-inserting 70 succeeds (the key lands in
leaf 9), yet `search 70` descends to the right of the stale separator and
reports `found = false` with a root-to-leaf path ending at leaf 12. -/
theorem c1_search_misses_reachable_key :
    BPlusTree.afterOpsQuiet 3 20 opsHidden = .ok qA9 ∧
    qA9.root.leafKeys.contains 70 = false ∧
    (BPlusTree.insert 20 70).run.run qA9 = (.ok true, qA10) ∧
    qA10.root.leafKeys.contains 70 = true ∧
    c1Search.1 = .ok ⟨false, 12, -1, [13, 14, 15, 12]⟩ :=
  ⟨afterHidden, rfl, stepA10, rfl, rfl⟩

/-- C2: the claim that after every completed insert or delete every node
obeys the occupancy bounds fails on the B+-Tree.  Inserting 10,20,30,40,25
leaves internal node 5 (a child of the root, hence non-root and reachable)
with zero keys, below `minKeys = 1`; inserting 10,…,50 and deleting 50
leaves the root with three keys, above `maxKeys = 2`, a state the
repository's own validator rejects. -/
theorem c2_occupancy_bounds_violated :
    BPlusTree.afterOpsQuiet 3 20 opsDegenerate = .ok qB5 ∧
    qB5.minKeys = 1 ∧
    qB5.root.children.get? 1 =
      some (.mk 5 [] [.mk 3 [30, 40] [] true none] false none) ∧
    BPlusTree.afterOpsQuiet 3 20 opsOverfull = .ok qC6 ∧
    qC6.maxKeys = 2 ∧
    qC6.root.keys.length = 3 ∧
    (validateBPlusTree 20 qC6).isValidationError = true :=
  ⟨afterDegenerate, rfl, rfl, afterOverfull, rfl, rfl, rfl⟩

/-- C3: the claim that after any insert/delete sequence the leaf chain walk
yields exactly the tree's key set in ascending order fails.  After
`opsDupScan` the key 70 sits in two leaves, so `sequential_scan` returns 70
twice: the result is not strictly ascending and is not the (duplicate-free)
key set. -/
theorem c3_leaf_chain_scan_duplicates_key :
    BPlusTree.afterOpsQuiet 3 20 opsDupScan = .ok qA12 ∧
    BPlusTree.sequentialScan 20 qA12 =
      .ok [10, 20, 30, 40, 50, 60, 70, 70, 80] ∧
    [10, 20, 30, 40, 50, 60, 70, 70, 80].count (70 : Int) = 2 ∧
    strictAsc [10, 20, 30, 40, 50, 60, 70, 70, 80] = false :=
  ⟨afterDupScan, rfl, rfl, rfl⟩

/-- C4: the round-trip claim (insert then delete restores the key multiset)
fails on the B+-Tree.  At `qA9` the key 70 is absent from the leaves;
`insert 70` succeeds, but the following `delete 70` reports the key absent
(its probe misses the hidden copy) and removes nothing, so 70 survives and
the leaf key multiset differs from the pre-insert one. -/
theorem c4_insert_delete_round_trip_fails :
    BPlusTree.afterOpsQuiet 3 20 opsHidden = .ok qA9 ∧
    qA9.root.leafKeys.contains 70 = false ∧
    (BPlusTree.insert 20 70).run.run qA9 = (.ok true, qA10) ∧
    (BPlusTree.delete 20 70).run.run qA10 = (.ok false, qA11) ∧
    BPlusTree.afterOpsQuiet 3 20 opsRound = .ok qA11 ∧
    qA11.root.leafKeys = [10, 20, 30, 40, 50, 60, 70, 80] ∧
    qA9.root.leafKeys = [10, 20, 30, 40, 50, 60, 80] ∧
    qA11.root.leafKeys ≠ qA9.root.leafKeys :=
  ⟨afterHidden, rfl, stepA10, stepA11, afterRound, rfl, rfl, by decide⟩

/-- C5 (counterexample): the claim that a duplicate insert leaves no
externally visible trace because the probe runs with tracing suppressed is
false.  `BTree.insert` (and `BPlusTree.insert`) call `search` with tracing
enabled; on the duplicate path the probe's events stay in the tracer.  Here
the duplicate `insert 10` returns `false` and mutates no node, but the
events list goes from empty to non-empty.  Moreover "already present" does
not imply the no-mutation outcome: at `qA11` the key 70 is present in
leaf 9 but invisible to the probe, so `insert 70` mutates the tree. -/
theorem c5_duplicate_probe_leaves_trace :
    (BTree.insert 20 10).run.run btFresh = (.ok true, btS1) ∧
    btS1c.tracer.events = [] ∧
    dupRun.1 = .ok false ∧
    dupRun.2.root = btS1c.root ∧
    dupRun.2.tracer.events ≠ [] ∧
    qA11.root.leafKeys.contains 70 = true ∧
    (BPlusTree.insert 20 70).run.run qA11 = (.ok true, qA12) ∧
    qA12.root.leafKeys ≠ qA11.root.leafKeys :=
  ⟨btStep1, rfl, rfl, rfl, by decide, rfl, stepA12, by decide⟩

/-- C6: the claim that `validate_bplustree` either returns normally or
raises only `ValidationError` is false: whenever every structural check
passes and the chain length matches, the final-terminator check dereferences
the undefined name `leaf_nodes_sorted` and raises `NameError` — already on a
freshly constructed tree, and on the perfectly valid tree holding
10, 20, 30. -/
theorem c6_validator_raises_name_error :
    validateBPlusTree 20 (exceptGet (BPlusTree.new 3)) =
      .nameError "leaf_nodes_sorted" ∧
    BPlusTree.afterOpsQuiet 3 20 [.ins 10, .ins 20, .ins 30] = .ok qA3 ∧
    validateBPlusTree 20 qA3 = .nameError "leaf_nodes_sorted" :=
  ⟨rfl, afterThree, rfl⟩

/-! ## Read-only frame of `search` -/

theorem bpFrame_refl (s : BPState) : BPFrame s s :=
  ⟨rfl, rfl, rfl, rfl, rfl, le_refl _, rfl, rfl, [], (List.append_nil _).symm⟩

theorem bpFrame_trans {s₁ s₂ s₃ : BPState} (h₁ : BPFrame s₁ s₂)
    (h₂ : BPFrame s₂ s₃) : BPFrame s₁ s₃ := by
  obtain ⟨f1, r1, fl1, c1, w1, rd1, e1, o1, es1, ev1⟩ := h₁
  obtain ⟨f2, r2, fl2, c2, w2, rd2, e2, o2, es2, ev2⟩ := h₂
  refine ⟨f2.trans f1, r2.trans r1, fl2.trans fl1, c2.trans c1, w2.trans w1,
    le_trans rd1 rd2, e2.trans e1, o2.trans o1, es1 ++ es2, ?_⟩
  rw [ev2, ev1, List.append_assoc]

theorem pmSafe_bind {α β : Type} {m : PM α} {f : α → PM β}
    (hm : PMSafe m) (hf : ∀ a, PMSafe (f a)) : PMSafe (m >>= f) := by
  intro s
  rcases hrun : m.run.run s with ⟨r, s₁⟩
  have hframe₁ : BPFrame s s₁ := by
    have h := hm s
    rw [hrun] at h
    exact h
  cases r with
  | ok a =>
    rw [pm_bind_ok hrun]
    exact bpFrame_trans hframe₁ (hf a s₁)
  | error e =>
    rw [pm_bind_error hrun]
    exact hframe₁

theorem pmSafe_pure {α : Type} (a : α) : PMSafe (pure a : PM α) :=
  fun s => bpFrame_refl s

theorem pmSafe_throw {α : Type} (e : PyErr) : PMSafe (throw e : PM α) :=
  fun s => bpFrame_refl s

theorem pmSafe_emitEv (ty : EvType) (nid : Option Nat)
    (info : List (String × PVal)) : PMSafe (BPlusTree.emitEv ty nid info) := by
  intro s
  show BPFrame s { s with tracer := s.tracer.emit ty nid info }
  unfold Tracer.emit
  split
  · exact ⟨rfl, rfl, rfl, rfl, rfl, le_refl _, rfl, rfl,
      [⟨ty, nid, info, s.tracer.currentOpId⟩], rfl⟩
  · exact bpFrame_refl s

theorem pmSafe_tick : PMSafe BPlusTree.tick := by
  intro s
  exact ⟨rfl, rfl, rfl, rfl, rfl, Nat.le_succ _, rfl, rfl, [],
    (List.append_nil _).symm⟩

theorem pmSafe_leafScan (nodeId : Nat) (key : Int) :
    ∀ (i : Nat) (keys : List Int), PMSafe (BPlusTree.leafScan nodeId key i keys)
  | _, [] => pmSafe_pure none
  | i, k :: rest => by
    show PMSafe (BPlusTree.emitEv .compareKey (some nodeId)
      [("key_index", .pInt i), ("node_key", .pInt k), ("target_key", .pInt key)] >>=
      fun _ => if key == k then pure (some i)
               else BPlusTree.leafScan nodeId key (i + 1) rest)
    refine pmSafe_bind (pmSafe_emitEv _ _ _) fun _ => ?_
    split
    · exact pmSafe_pure _
    · exact pmSafe_leafScan nodeId key (i + 1) rest

theorem pmSafe_childScan (nodeId : Nat) (key : Int) :
    ∀ (i : Nat) (keys : List Int), PMSafe (BPlusTree.childScan nodeId key i keys)
  | _, [] => pmSafe_pure _
  | i, k :: rest => by
    show PMSafe (BPlusTree.emitEv .compareKey (some nodeId)
      [("key_index", .pInt i), ("node_key", .pInt k), ("target_key", .pInt key)] >>=
      fun _ => if key < k then pure i
               else BPlusTree.childScan nodeId key (i + 1) rest)
    refine pmSafe_bind (pmSafe_emitEv _ _ _) fun _ => ?_
    split
    · exact pmSafe_pure _
    · exact pmSafe_childScan nodeId key (i + 1) rest

theorem pmSafe_searchGo :
    ∀ (fuel : Nat) (node : BPNode) (key : Int) (path : List Nat),
      PMSafe (BPlusTree.searchGo fuel node key path)
  | 0, _, _, _ => pmSafe_throw _
  | fuel + 1, node, key, path => by
    simp only [BPlusTree.searchGo]
    refine pmSafe_bind (pmSafe_emitEv _ _ _) fun _ => ?_
    refine pmSafe_bind pmSafe_tick fun _ => ?_
    split
    · refine pmSafe_bind (pmSafe_leafScan _ _ _ _) fun x => ?_
      cases x with
      | some i => exact pmSafe_bind (pmSafe_emitEv _ _ _) fun _ => pmSafe_pure _
      | none => exact pmSafe_bind (pmSafe_emitEv _ _ _) fun _ => pmSafe_pure _
    · refine pmSafe_bind (pmSafe_childScan _ _ _ _) fun ci => ?_
      refine pmSafe_bind (pmSafe_emitEv _ _ _) fun _ => ?_
      split
      · exact pmSafe_searchGo fuel _ key _
      · exact pmSafe_throw _

theorem pmSafe_search (fuel : Nat) (key : Int) :
    PMSafe (BPlusTree.search fuel key) := by
  intro s
  show BPFrame s ((BPlusTree.searchGo fuel s.root key []).run.run s).2
  exact pmSafe_searchGo fuel s.root key [] s

theorem btFrame_refl (s : BTState) : BTFrame s s :=
  ⟨rfl, rfl, rfl, rfl, le_refl _, rfl, rfl, [], (List.append_nil _).symm⟩

theorem btFrame_trans {s₁ s₂ s₃ : BTState} (h₁ : BTFrame s₁ s₂)
    (h₂ : BTFrame s₂ s₃) : BTFrame s₁ s₃ := by
  obtain ⟨f1, r1, c1, w1, rd1, e1, o1, es1, ev1⟩ := h₁
  obtain ⟨f2, r2, c2, w2, rd2, e2, o2, es2, ev2⟩ := h₂
  refine ⟨f2.trans f1, r2.trans r1, c2.trans c1, w2.trans w1,
    le_trans rd1 rd2, e2.trans e1, o2.trans o1, es1 ++ es2, ?_⟩
  rw [ev2, ev1, List.append_assoc]

theorem bmSafe_bind {α β : Type} {m : BM α} {f : α → BM β}
    (hm : BMSafe m) (hf : ∀ a, BMSafe (f a)) : BMSafe (m >>= f) := by
  intro s
  rcases hrun : m.run.run s with ⟨r, s₁⟩
  have hframe₁ : BTFrame s s₁ := by
    have h := hm s
    rw [hrun] at h
    exact h
  cases r with
  | ok a =>
    rw [bm_bind_ok hrun]
    exact btFrame_trans hframe₁ (hf a s₁)
  | error e =>
    rw [bm_bind_error hrun]
    exact hframe₁

theorem bmSafe_pure {α : Type} (a : α) : BMSafe (pure a : BM α) :=
  fun s => btFrame_refl s

theorem bmSafe_throw {α : Type} (e : PyErr) : BMSafe (throw e : BM α) :=
  fun s => btFrame_refl s

theorem bmSafe_emitEv (ty : EvType) (nid : Option Nat)
    (info : List (String × PVal)) : BMSafe (BTree.emitEv ty nid info) := by
  intro s
  show BTFrame s { s with tracer := s.tracer.emit ty nid info }
  unfold Tracer.emit
  split
  · exact ⟨rfl, rfl, rfl, rfl, le_refl _, rfl, rfl,
      [⟨ty, nid, info, s.tracer.currentOpId⟩], rfl⟩
  · exact btFrame_refl s

theorem bmSafe_tick : BMSafe BTree.tick := by
  intro s
  exact ⟨rfl, rfl, rfl, rfl, Nat.le_succ _, rfl, rfl, [],
    (List.append_nil _).symm⟩

theorem bmSafe_searchScan (nodeId : Nat) (key : Int) :
    ∀ (i : Nat) (keys : List Int), BMSafe (BTree.searchScan nodeId key i keys)
  | _, [] => bmSafe_pure none
  | i, k :: rest => by
    show BMSafe (BTree.emitEv .compareKey (some nodeId)
      [("key_index", .pInt i), ("node_key", .pInt k), ("target_key", .pInt key)] >>=
      fun _ => if key == k then pure (some i)
               else if key < k then pure none
               else BTree.searchScan nodeId key (i + 1) rest)
    refine bmSafe_bind (bmSafe_emitEv _ _ _) fun _ => ?_
    split
    · exact bmSafe_pure _
    · split
      · exact bmSafe_pure _
      · exact bmSafe_searchScan nodeId key (i + 1) rest

theorem bmSafe_searchGo :
    ∀ (fuel : Nat) (node : BNode) (key : Int) (path : List Nat),
      BMSafe (BTree.searchGo fuel node key path)
  | 0, _, _, _ => bmSafe_throw _
  | fuel + 1, node, key, path => by
    simp only [BTree.searchGo]
    refine bmSafe_bind (bmSafe_emitEv _ _ _) fun _ => ?_
    refine bmSafe_bind bmSafe_tick fun _ => ?_
    refine bmSafe_bind (bmSafe_searchScan _ _ _ _) fun x => ?_
    cases x with
    | some i => exact bmSafe_bind (bmSafe_emitEv _ _ _) fun _ => bmSafe_pure _
    | none =>
      by_cases hL : node.isLeaf = true
      · rw [if_pos hL]
        exact bmSafe_bind (bmSafe_emitEv _ _ _) fun _ => bmSafe_pure _
      · rw [if_neg hL]
        refine bmSafe_bind (bmSafe_emitEv _ _ _) fun _ => ?_
        split
        · exact bmSafe_searchGo fuel _ key _
        · exact bmSafe_throw _

theorem bmSafe_search (fuel : Nat) (key : Int) :
    BMSafe (BTree.search fuel key) := by
  intro s
  show BTFrame s ((BTree.searchGo fuel s.root key []).run.run s).2
  exact bmSafe_searchGo fuel s.root key [] s

/-- C10: `search` never mutates the tree on either variant: for every state
and key, the root (hence every reachable node's keys, children and, for the
B+-Tree, `next_leaf` links), the `first_leaf` reference, the id allocator,
the write counter, the tracing flag and the operation counter are unchanged
by the call; the event log is only appended to and the read counter only
grows.  This holds on every state, including the error outcomes. -/
theorem c10_search_never_mutates (fuel : Nat) (k : Int) (sB : BTState)
    (sP : BPState) :
    BTFrame sB ((BTree.search fuel k).run.run sB).2 ∧
    BPFrame sP ((BPlusTree.search fuel k).run.run sP).2 :=
  ⟨bmSafe_search fuel k sB, pmSafe_search fuel k sP⟩

/-! ## Characterizing runs of `search` -/

theorem run_pm_pure {α : Type} (a : α) (s : BPState) :
    (pure a : PM α).run.run s = (.ok a, s) := rfl

theorem run_pm_emit_bind {α : Type} (ty : EvType) (nid : Option Nat)
    (info : List (String × PVal)) (f : Unit → PM α) (s : BPState) :
    (BPlusTree.emitEv ty nid info >>= f).run.run s =
      (f ()).run.run { s with tracer := s.tracer.emit ty nid info } := rfl

theorem run_pm_tick_bind {α : Type} (f : Unit → PM α) (s : BPState) :
    (BPlusTree.tick >>= f).run.run s =
      (f ()).run.run { s with metrics := s.metrics.tickNodeAccess } := rfl

theorem run_bm_pure {α : Type} (a : α) (s : BTState) :
    (pure a : BM α).run.run s = (.ok a, s) := rfl

theorem run_bm_emit_bind {α : Type} (ty : EvType) (nid : Option Nat)
    (info : List (String × PVal)) (f : Unit → BM α) (s : BTState) :
    (BTree.emitEv ty nid info >>= f).run.run s =
      (f ()).run.run { s with tracer := s.tracer.emit ty nid info } := rfl

theorem run_bm_tick_bind {α : Type} (f : Unit → BM α) (s : BTState) :
    (BTree.tick >>= f).run.run s =
      (f ()).run.run { s with metrics := s.metrics.tickNodeAccess } := rfl

/-- The leaf scan of the B+ search always succeeds, and an exact match
implies the key is among the scanned keys. -/
theorem leafScan_runs (nodeId : Nat) (key : Int) :
    ∀ (i : Nat) (keys : List Int) (s : BPState), ∃ res s₁,
      (BPlusTree.leafScan nodeId key i keys).run.run s = (.ok res, s₁) ∧
      (res.isSome = true → keys.contains key = true)
  | _, [], s => ⟨none, s, rfl, fun h => nomatch h⟩
  | i, k :: rest, s => by
    rw [show BPlusTree.leafScan nodeId key i (k :: rest) =
      BPlusTree.emitEv .compareKey (some nodeId)
        [("key_index", .pInt i), ("node_key", .pInt k), ("target_key", .pInt key)] >>=
      fun _ => if key == k then pure (some i)
               else BPlusTree.leafScan nodeId key (i + 1) rest from rfl]
    rw [run_pm_emit_bind]
    by_cases h : key == k
    · rw [if_pos h]
      refine ⟨some i, _, run_pm_pure _ _, fun _ => ?_⟩
      simp only [beq_iff_eq] at h
      simp [List.contains_cons, h]
    · rw [if_neg h]
      obtain ⟨res, s₁, hrun, himp⟩ := leafScan_runs nodeId key (i + 1) rest _
      refine ⟨res, s₁, hrun, fun hs => ?_⟩
      have hmem : key ∈ k :: rest := .tail k (List.mem_of_elem_eq_true (himp hs))
      exact List.elem_eq_true_of_mem hmem

/-- The internal-node scan of the B+ search always succeeds with a child
index within `i + |keys|`. -/
theorem childScan_runs (nodeId : Nat) (key : Int) :
    ∀ (i : Nat) (keys : List Int) (s : BPState), ∃ ci s₁,
      (BPlusTree.childScan nodeId key i keys).run.run s = (.ok ci, s₁) ∧
      ci ≤ i + keys.length
  | i, [], s => ⟨i, s, rfl, Nat.le_refl i⟩
  | i, k :: rest, s => by
    rw [show BPlusTree.childScan nodeId key i (k :: rest) =
      BPlusTree.emitEv .compareKey (some nodeId)
        [("key_index", .pInt i), ("node_key", .pInt k), ("target_key", .pInt key)] >>=
      fun _ => if key < k then pure i
               else BPlusTree.childScan nodeId key (i + 1) rest from rfl]
    rw [run_pm_emit_bind]
    by_cases h : key < k
    · rw [if_pos h]
      exact ⟨i, _, run_pm_pure _ _, Nat.le_add_right i _⟩
    · rw [if_neg h]
      obtain ⟨ci, s₁, hrun, hle⟩ := childScan_runs nodeId key (i + 1) rest _
      refine ⟨ci, s₁, hrun, ?_⟩
      calc ci ≤ (i + 1) + rest.length := hle
        _ = i + (k :: rest).length := by simp [List.length_cons]; omega

/-- The B-Tree key scan always succeeds, and an exact match implies the key
is among the scanned keys. -/
theorem searchScan_runs (nodeId : Nat) (key : Int) :
    ∀ (i : Nat) (keys : List Int) (s : BTState), ∃ res s₁,
      (BTree.searchScan nodeId key i keys).run.run s = (.ok res, s₁) ∧
      (res.isSome = true → keys.contains key = true)
  | _, [], s => ⟨none, s, rfl, fun h => nomatch h⟩
  | i, k :: rest, s => by
    rw [show BTree.searchScan nodeId key i (k :: rest) =
      BTree.emitEv .compareKey (some nodeId)
        [("key_index", .pInt i), ("node_key", .pInt k), ("target_key", .pInt key)] >>=
      fun _ => if key == k then pure (some i)
               else if key < k then pure none
               else BTree.searchScan nodeId key (i + 1) rest from rfl]
    rw [run_bm_emit_bind]
    by_cases h : key == k
    · rw [if_pos h]
      refine ⟨some i, _, run_bm_pure _ _, fun _ => ?_⟩
      simp only [beq_iff_eq] at h
      simp [List.contains_cons, h]
    · rw [if_neg h]
      by_cases h2 : key < k
      · rw [if_pos h2]
        exact ⟨none, _, run_bm_pure _ _, fun hs => nomatch hs⟩
      · rw [if_neg h2]
        obtain ⟨res, s₁, hrun, himp⟩ := searchScan_runs nodeId key (i + 1) rest _
        refine ⟨res, s₁, hrun, fun hs => ?_⟩
        have hmem : key ∈ k :: rest := .tail k (List.mem_of_elem_eq_true (himp hs))
        exact List.elem_eq_true_of_mem hmem

theorem bpChildrenOkL_mem {cs : List BPNode} {c : BPNode}
    (h : BPNode.childrenOkL cs = true) (hm : c ∈ cs) :
    BPNode.childrenOk c = true := by
  induction cs with
  | nil => cases hm
  | cons d ds ih =>
    simp only [BPNode.childrenOkL, Bool.and_eq_true] at h
    cases hm with
    | head => exact h.1
    | tail _ hm' => exact ih h.2 hm'

theorem bpHeightL_mem {cs : List BPNode} {c : BPNode} (hm : c ∈ cs) :
    BPNode.height c ≤ BPNode.heightL cs := by
  induction cs with
  | nil => cases hm
  | cons d ds ih =>
    simp only [BPNode.heightL]
    cases hm with
    | head => exact Nat.le_max_left _ _
    | tail _ hm' => exact le_trans (ih hm') (Nat.le_max_right _ _)

theorem bpAllKeysL_mem {cs : List BPNode} {c : BPNode} {key : Int}
    (hm : c ∈ cs) (h : key ∈ BPNode.allKeys c) : key ∈ BPNode.allKeysL cs := by
  induction cs with
  | nil => cases hm
  | cons d ds ih =>
    simp only [BPNode.allKeysL, List.mem_append]
    cases hm with
    | head => exact Or.inl h
    | tail _ hm' => exact Or.inr (ih hm')

theorem btChildrenOkL_mem {cs : List BNode} {c : BNode}
    (h : BNode.childrenOkL cs = true) (hm : c ∈ cs) :
    BNode.childrenOk c = true := by
  induction cs with
  | nil => cases hm
  | cons d ds ih =>
    simp only [BNode.childrenOkL, Bool.and_eq_true] at h
    cases hm with
    | head => exact h.1
    | tail _ hm' => exact ih h.2 hm'

theorem btHeightL_mem {cs : List BNode} {c : BNode} (hm : c ∈ cs) :
    BNode.height c ≤ BNode.heightL cs := by
  induction cs with
  | nil => cases hm
  | cons d ds ih =>
    simp only [BNode.heightL]
    cases hm with
    | head => exact Nat.le_max_left _ _
    | tail _ hm' => exact le_trans (ih hm') (Nat.le_max_right _ _)

theorem btAllKeysL_mem {cs : List BNode} {c : BNode} {key : Int}
    (hm : c ∈ cs) (h : key ∈ BNode.allKeys c) : key ∈ BNode.allKeysL cs := by
  induction cs with
  | nil => cases hm
  | cons d ds ih =>
    simp only [BNode.allKeysL, List.mem_append]
    cases hm with
    | head => exact Or.inl h
    | tail _ hm' => exact Or.inr (ih hm')

theorem bt_findInsertPos_le (key : Int) :
    ∀ keys : List Int, BTree.findInsertPos keys key ≤ keys.length
  | [] => Nat.le_refl 0
  | k :: rest => by
    simp only [BTree.findInsertPos]
    split
    · exact Nat.zero_le _
    · simpa using Nat.succ_le_succ (bt_findInsertPos_le key rest)

theorem bp_findInsertPos_le (key : Int) :
    ∀ keys : List Int, BPlusTree.findInsertPos keys key ≤ keys.length
  | [] => Nat.le_refl 0
  | k :: rest => by
    simp only [BPlusTree.findInsertPos]
    split
    · exact Nat.zero_le _
    · simpa using Nat.succ_le_succ (bp_findInsertPos_le key rest)

/-- On a tree whose child counts are sound, the B+ search descent always
terminates normally (given fuel at least the height), and it reports
`found = true` only for keys present in the subtree. -/
theorem bp_searchGo_runs :
    ∀ (fuel : Nat) (node : BPNode) (key : Int) (path : List Nat) (s : BPState),
      BPNode.childrenOk node = true → BPNode.height node ≤ fuel →
      ∃ r s₁, (BPlusTree.searchGo fuel node key path).run.run s = (.ok r, s₁) ∧
        (r.found = true → key ∈ node.allKeys)
  | 0, node, _, _, _, _, hh => by
    exact absurd hh (by cases node; simp [BPNode.height])
  | fuel + 1, .mk i ks cs l nx, key, path, s, hco, hh => by
    simp only [BPlusTree.searchGo]
    rw [run_pm_emit_bind, run_pm_tick_bind]
    by_cases hl : (BPNode.mk i ks cs l nx).isLeaf = true
    · rw [if_pos hl]
      obtain ⟨res, s₁, hrun, himp⟩ := leafScan_runs (BPNode.mk i ks cs l nx).id key 0
        (BPNode.mk i ks cs l nx).keys _
      rw [pm_bind_ok hrun]
      cases res with
      | some j =>
        refine ⟨_, _, rfl, fun _ => ?_⟩
        have hmem : key ∈ ks := List.mem_of_elem_eq_true (himp rfl)
        simp only [BPNode.allKeys]
        exact List.mem_append_left _ hmem
      | none => exact ⟨_, _, rfl, fun hf => nomatch hf⟩
    · rw [if_neg hl]
      obtain ⟨ci, s₁, hrun, hle⟩ := childScan_runs (BPNode.mk i ks cs l nx).id key 0
        (BPNode.mk i ks cs l nx).keys _
      rw [pm_bind_ok hrun, run_pm_emit_bind]
      have hlfalse : l = false := by
        simpa [BPNode.isLeaf] using hl
      have hco' := hco
      simp [BPNode.childrenOk, hlfalse] at hco'
      obtain ⟨hlen, hcoL⟩ := hco'
      have hci : ci < cs.length := by
        simp only [BPNode.keys] at hle
        omega
      rcases hget : cs.get? ci with _ | c
      · exact absurd (List.get?_eq_none.mp hget) (by omega)
      · have hcm : c ∈ cs := List.get?_mem hget
        have hcoC : BPNode.childrenOk c = true := bpChildrenOkL_mem hcoL hcm
        have hhc : BPNode.height c ≤ fuel := by
          have h1 : BPNode.height c ≤ BPNode.heightL cs := bpHeightL_mem hcm
          simp only [BPNode.height] at hh
          omega
        have hchildren : (BPNode.mk i ks cs l nx).children.get? ci = some c := hget
        rw [hchildren]
        obtain ⟨r, s₂, hrun2, himp2⟩ :=
          bp_searchGo_runs fuel c key (path ++ [(BPNode.mk i ks cs l nx).id]) _
            hcoC hhc
        refine ⟨r, s₂, hrun2, fun hf => ?_⟩
        simp only [BPNode.allKeys]
        exact List.mem_append_right _ (bpAllKeysL_mem hcm (himp2 hf))

/-- On a tree whose child counts are sound, the B-Tree search descent always
terminates normally (given fuel at least the height), and it reports
`found = true` only for keys present in the subtree. -/
theorem bt_searchGo_runs :
    ∀ (fuel : Nat) (node : BNode) (key : Int) (path : List Nat) (s : BTState),
      BNode.childrenOk node = true → BNode.height node ≤ fuel →
      ∃ r s₁, (BTree.searchGo fuel node key path).run.run s = (.ok r, s₁) ∧
        (r.found = true → key ∈ node.allKeys)
  | 0, node, _, _, _, _, hh => by
    exact absurd hh (by cases node; simp [BNode.height])
  | fuel + 1, .mk i ks cs, key, path, s, hco, hh => by
    simp only [BTree.searchGo]
    rw [run_bm_emit_bind, run_bm_tick_bind]
    obtain ⟨res, s₁, hrun, himp⟩ := searchScan_runs (BNode.mk i ks cs).id key 0
      (BNode.mk i ks cs).keys _
    rw [bm_bind_ok hrun]
    cases res with
    | some j =>
      refine ⟨_, _, rfl, fun _ => ?_⟩
      have hmem : key ∈ ks := List.mem_of_elem_eq_true (himp rfl)
      simp only [BNode.allKeys]
      exact List.mem_append_left _ hmem
    | none =>
      by_cases hl : (BNode.mk i ks cs).isLeaf = true
      · rw [if_pos hl]
        exact ⟨_, _, rfl, fun hf => nomatch hf⟩
      · rw [if_neg hl]
        have hlfalse : cs.isEmpty = false := by
          simpa [BNode.isLeaf] using hl
        have hco' := hco
        simp [BNode.childrenOk, hlfalse] at hco'
        obtain ⟨hlen, hcoL⟩ := hco'
        have hci : BTree.findInsertPos (BNode.mk i ks cs).keys key < cs.length := by
          have := bt_findInsertPos_le key ks
          simp only [BNode.keys]
          omega
        rcases hget : cs.get? (BTree.findInsertPos (BNode.mk i ks cs).keys key)
          with _ | c
        · exact absurd (List.get?_eq_none.mp hget) (by omega)
        · have hcm : c ∈ cs := List.get?_mem hget
          have hcoC : BNode.childrenOk c = true := btChildrenOkL_mem hcoL hcm
          have hhc : BNode.height c ≤ fuel := by
            have h1 : BNode.height c ≤ BNode.heightL cs := btHeightL_mem hcm
            simp only [BNode.height] at hh
            omega
          have hchildren : (BNode.mk i ks cs).children.get?
              (BTree.findInsertPos (BNode.mk i ks cs).keys key) = some c := hget
          rw [hchildren]
          obtain ⟨r, s₂, hrun2, himp2⟩ :=
            bt_searchGo_runs fuel c key (path ++ [(BNode.mk i ks cs).id]) _
              hcoC hhc
          refine ⟨r, s₂, hrun2, fun hf => ?_⟩
          simp only [BNode.allKeys]
          exact List.mem_append_right _ (btAllKeysL_mem hcm (himp2 hf))

theorem run_pm_get_bind {α : Type} (f : BPState → PM α) (s : BPState) :
    ((get : PM BPState) >>= f).run.run s = (f s).run.run s := rfl

theorem run_pm_modify_bind {α : Type} (g : BPState → BPState) (f : Unit → PM α)
    (s : BPState) :
    ((modify g : PM Unit) >>= f).run.run s = (f ()).run.run (g s) := rfl

theorem run_bm_get_bind {α : Type} (f : BTState → BM α) (s : BTState) :
    ((get : BM BTState) >>= f).run.run s = (f s).run.run s := rfl

/-- Normal termination, soundness and frame of the top-level B+ search. -/
theorem bp_search_runs (fuel : Nat) (key : Int) (s : BPState)
    (hco : BPNode.childrenOk s.root = true)
    (hh : BPNode.height s.root ≤ fuel) :
    ∃ r s₁, (BPlusTree.search fuel key).run.run s = (.ok r, s₁) ∧
      (r.found = true → key ∈ s.root.allKeys) ∧ BPFrame s s₁ := by
  obtain ⟨r, s₁, hrun, himp⟩ := bp_searchGo_runs fuel s.root key [] s hco hh
  have hframe := pmSafe_search fuel key s
  have heq : (BPlusTree.search fuel key).run.run s =
      (BPlusTree.searchGo fuel s.root key []).run.run s := rfl
  rw [heq, hrun] at hframe
  exact ⟨r, s₁, heq.trans hrun, himp, hframe⟩

/-- Normal termination, soundness and frame of the top-level B-Tree search. -/
theorem bt_search_runs (fuel : Nat) (key : Int) (s : BTState)
    (hco : BNode.childrenOk s.root = true)
    (hh : BNode.height s.root ≤ fuel) :
    ∃ r s₁, (BTree.search fuel key).run.run s = (.ok r, s₁) ∧
      (r.found = true → key ∈ s.root.allKeys) ∧ BTFrame s s₁ := by
  obtain ⟨r, s₁, hrun, himp⟩ := bt_searchGo_runs fuel s.root key [] s hco hh
  have hframe := bmSafe_search fuel key s
  have heq : (BTree.search fuel key).run.run s =
      (BTree.searchGo fuel s.root key []).run.run s := rfl
  rw [heq, hrun] at hframe
  exact ⟨r, s₁, heq.trans hrun, himp, hframe⟩

/-- C5 (amended): on either variant, when the duplicate-check probe finds
the key, `insert` returns `false` and leaves the tree (root, every node,
and for the B+-Tree `first_leaf`) unchanged; the probe's events are
appended to the caller-visible trace (tracing is not suppressed: the
enabled flag never changes and the old events survive as a prefix). -/
theorem c5_amended_duplicate_insert (fuel : Nat) (k : Int) (sB : BTState)
    (sP : BPState) (rB rP : SearchResult)
    (hB : (BTree.searchOn fuel sB k).1 = .ok rB) (hBf : rB.found = true)
    (hP : (BPlusTree.searchOn fuel sP k).1 = .ok rP) (hPf : rP.found = true) :
    (∃ sB', (BTree.insert fuel k).run.run sB = (.ok false, sB') ∧
      sB'.root = sB.root ∧ sB'.tracer.enabled = sB.tracer.enabled ∧
      ∃ es, sB'.tracer.events = sB.tracer.events ++ es) ∧
    (∃ sP', (BPlusTree.insert fuel k).run.run sP = (.ok false, sP') ∧
      sP'.root = sP.root ∧ sP'.firstLeaf = sP.firstLeaf ∧
      sP'.tracer.enabled = sP.tracer.enabled ∧
      ∃ es, sP'.tracer.events = sP.tracer.events ++ es) := by
  constructor
  · rcases hrun : (BTree.search fuel k).run.run sB with ⟨r0, s₁⟩
    have hr0 : r0 = .ok rB := by
      have hsB : (BTree.searchOn fuel sB k).1 = r0 := by
        show ((BTree.search fuel k).run.run sB).1 = r0
        rw [hrun]
      rw [hsB] at hB
      exact hB
    subst hr0
    have hframe := bmSafe_search fuel k sB
    rw [hrun] at hframe
    obtain ⟨_, hroot, _, _, _, hen, _, es, hev⟩ := hframe
    simp only [BTree.insert]
    rw [bm_bind_ok hrun]
    simp only [hBf, if_true]
    exact ⟨s₁, run_bm_pure _ _, hroot, hen, es, hev⟩
  · rcases hrun : (BPlusTree.search fuel k).run.run sP with ⟨r0, s₁⟩
    have hr0 : r0 = .ok rP := by
      have hsP : (BPlusTree.searchOn fuel sP k).1 = r0 := by
        show ((BPlusTree.search fuel k).run.run sP).1 = r0
        rw [hrun]
      rw [hsP] at hP
      exact hP
    subst hr0
    have hframe := pmSafe_search fuel k sP
    rw [hrun] at hframe
    obtain ⟨_, hroot, hfl, _, _, _, hen, _, es, hev⟩ := hframe
    simp only [BPlusTree.insert]
    rw [pm_bind_ok hrun]
    simp only [hPf, if_true]
    exact ⟨s₁, run_pm_pure _ _, hroot, hfl, hen, es, hev⟩

/-- Witness for the amended C5: a duplicate `insert 10` on the one-key
B-Tree `btS1c` and on the B+-Tree `qA3` holding 10, 20, 30. -/
theorem c5_amended_witness :
    (∃ sB', (BTree.insert 20 10).run.run btS1c = (.ok false, sB') ∧
      sB'.root = btS1c.root ∧ sB'.tracer.enabled = btS1c.tracer.enabled ∧
      ∃ es, sB'.tracer.events = btS1c.tracer.events ++ es) ∧
    (∃ sP', (BPlusTree.insert 20 10).run.run qA3 = (.ok false, sP') ∧
      sP'.root = qA3.root ∧ sP'.firstLeaf = qA3.firstLeaf ∧
      sP'.tracer.enabled = qA3.tracer.enabled ∧
      ∃ es, sP'.tracer.events = qA3.tracer.events ++ es) :=
  c5_amended_duplicate_insert 20 10 btS1c qA3 ⟨true, 0, 0, [0]⟩
    ⟨true, 0, 0, [1, 0]⟩ rfl rfl rfl rfl

theorem tracer_emit_enabled (t : Tracer) (ty : EvType) (nid : Option Nat)
    (info : List (String × PVal)) : (t.emit ty nid info).enabled = t.enabled := by
  unfold Tracer.emit
  split <;> rfl

/-- `_search_with_path` always terminates normally on structurally sound
trees, finds only present keys, and restores the tree and `first_leaf`. -/
theorem bp_searchWithPath_runs (fuel : Nat) (key : Int) (s : BPState)
    (hco : BPNode.childrenOk s.root = true)
    (hh : BPNode.height s.root ≤ fuel) :
    ∃ r s₁, (BPlusTree.searchWithPath fuel key).run.run s = (.ok r, s₁) ∧
      (r.found = true → key ∈ s.root.allKeys) ∧
      s₁.root = s.root ∧ s₁.firstLeaf = s.firstLeaf := by
  simp only [BPlusTree.searchWithPath]
  rw [run_pm_get_bind, run_pm_modify_bind]
  obtain ⟨r, s₂, hrun, himp, hframe⟩ := bp_search_runs fuel key
    { s with tracer := { s.tracer with enabled := false } } hco hh
  rw [pm_bind_ok hrun]
  obtain ⟨_, hroot, hfl, _, _, _, _, _, _⟩ := hframe
  by_cases hen : s.tracer.enabled = true
  · rw [if_pos hen, run_pm_modify_bind]
    exact ⟨r, _, run_pm_pure _ _, himp, hroot, hfl⟩
  · rw [if_neg hen]
    have hp : ((pure () : PM Unit) >>= fun _ => (pure r : PM SearchResult)).run.run s₂ =
        (.ok r, s₂) := rfl
    rw [hp]
    exact ⟨r, s₂, rfl, himp, hroot, hfl⟩

/-- C9: deleting a key that is not in the tree returns `false`, leaves every
node unchanged, and raises no exception, on either variant: given sound
child counts and sufficient fuel, `delete` terminates normally with result
`false` and the root (hence the whole node structure) and, for the B+-Tree,
`first_leaf` are exactly the pre-call ones. -/
theorem c9_delete_missing_key_no_mutation (fuel : Nat) (k : Int) (sB : BTState)
    (sP : BPState)
    (hcoB : BNode.childrenOk sB.root = true) (hhB : BNode.height sB.root ≤ fuel)
    (habsB : k ∉ sB.root.allKeys)
    (hcoP : BPNode.childrenOk sP.root = true) (hhP : BPNode.height sP.root ≤ fuel)
    (habsP : k ∉ sP.root.allKeys) :
    (∃ sB', (BTree.delete fuel k).run.run sB = (.ok false, sB') ∧
      sB'.root = sB.root) ∧
    (∃ sP', (BPlusTree.delete fuel k).run.run sP = (.ok false, sP') ∧
      sP'.root = sP.root ∧ sP'.firstLeaf = sP.firstLeaf) := by
  constructor
  · simp only [BTree.delete]
    rw [run_bm_emit_bind]
    obtain ⟨r, s₁, hrun, himp, hframe⟩ := bt_search_runs fuel k
      { sB with tracer := sB.tracer.emit .deleteRequest none [("key", .pInt k)] }
      hcoB hhB
    rw [bm_bind_ok hrun]
    have hfound : r.found = false := by
      cases hf : r.found
      · rfl
      · exact absurd (himp hf) habsB
    simp only [hfound, Bool.false_eq_true, not_false_eq_true, if_true]
    refine ⟨{ s₁ with
      tracer := s₁.tracer.emit .searchNotFound none [("key", .pInt k)] }, ?_, ?_⟩
    · rw [run_bm_emit_bind]
      exact run_bm_pure _ _
    · exact hframe.2.1
  · simp only [BPlusTree.delete]
    rw [run_pm_emit_bind]
    obtain ⟨r, s₁, hrun, himp, hroot, hfl⟩ := bp_searchWithPath_runs fuel k
      { sP with tracer := sP.tracer.emit .deleteRequest none [("key", .pInt k)] }
      hcoP hhP
    rw [pm_bind_ok hrun]
    have hfound : r.found = false := by
      cases hf : r.found
      · rfl
      · exact absurd (himp hf) habsP
    simp only [hfound, Bool.false_eq_true, not_false_eq_true, if_true]
    refine ⟨{ s₁ with
      tracer := s₁.tracer.emit .searchNotFound none [("key", .pInt k)] }, ?_, ?_, ?_⟩
    · rw [run_pm_emit_bind]
      exact run_pm_pure _ _
    · exact hroot
    · exact hfl

/-- Witness for C9: deleting the absent key 99 from the one-key B-Tree
`btS1c` and from the B+-Tree `qA3` holding 10, 20, 30. -/
theorem c9_witness :
    (∃ sB', (BTree.delete 20 99).run.run btS1c = (.ok false, sB') ∧
      sB'.root = btS1c.root) ∧
    (∃ sP', (BPlusTree.delete 20 99).run.run qA3 = (.ok false, sP') ∧
      sP'.root = qA3.root ∧ sP'.firstLeaf = qA3.firstLeaf) :=
  c9_delete_missing_key_no_mutation 20 99 btS1c qA3 (by decide) (by decide)
    (by decide) (by decide) (by decide) (by decide)

/-! ## Range query on well-formed trees -/

theorem strictAsc_tail {k : Int} {rest : List Int}
    (h : strictAsc (k :: rest) = true) : strictAsc rest = true := by
  cases rest with
  | nil => rfl
  | cons k₂ r =>
    simp only [strictAsc, Bool.and_eq_true] at h
    exact h.2

theorem strictAsc_head_lt {k : Int} {rest : List Int}
    (h : strictAsc (k :: rest) = true) : ∀ x ∈ rest, k < x := by
  induction rest generalizing k with
  | nil => intro x hx; cases hx
  | cons k₂ r ih =>
    simp only [strictAsc, Bool.and_eq_true, decide_eq_true_eq] at h
    intro x hx
    cases hx with
    | head => exact h.1
    | tail _ hx' => exact lt_trans h.1 (ih h.2 x hx')

theorem pairwise_of_strictAsc :
    ∀ {l : List Int}, strictAsc l = true → l.Pairwise (· < ·)
  | [], _ => List.Pairwise.nil
  | k :: rest, h =>
    List.Pairwise.cons (strictAsc_head_lt h) (pairwise_of_strictAsc (strictAsc_tail h))

theorem strictAsc_of_pairwise :
    ∀ {l : List Int}, l.Pairwise (· < ·) → strictAsc l = true
  | [], _ => rfl
  | [_], _ => rfl
  | k :: k₂ :: rest, h => by
    rcases List.pairwise_cons.mp h with ⟨hk, h₂⟩
    simp only [strictAsc, Bool.and_eq_true, decide_eq_true_eq]
    exact ⟨hk k₂ (List.mem_cons_self k₂ rest), strictAsc_of_pairwise h₂⟩

theorem leafKeys_leaf (i : Nat) (ks : List Int) (cs : List BPNode)
    (nx : Option Nat) : BPNode.leafKeys (.mk i ks cs true nx) = ks := by
  simp [BPNode.leafKeys, BPNode.leaves, BPNode.keys]

theorem leafKeys_inner (i : Nat) (ks : List Int) (cs : List BPNode)
    (nx : Option Nat) :
    BPNode.leafKeys (.mk i ks cs false nx) = BPNode.leafKeysL cs := by
  simp [BPNode.leafKeys, BPNode.leafKeysL, BPNode.leaves]

theorem leafKeysL_nil : BPNode.leafKeysL [] = [] := rfl

theorem leafKeysL_cons (c : BPNode) (cs : List BPNode) :
    BPNode.leafKeysL (c :: cs) = BPNode.leafKeys c ++ BPNode.leafKeysL cs := by
  simp [BPNode.leafKeysL, BPNode.leafKeys, BPNode.leavesL]

theorem inBound_weaken_hi {lob hib : Option Int} {k x : Int}
    (hx : inBound lob (some k) x = true) (hk : inBound lob hib k = true) :
    inBound lob hib x = true := by
  cases lob <;> cases hib <;>
    simp only [inBound, Bool.and_eq_true, Bool.and_true, Bool.true_and,
      decide_eq_true_eq] at hx hk ⊢ <;>
    omega

theorem inBound_weaken_lo {lob hib : Option Int} {k x : Int}
    (hx : inBound (some k) hib x = true) (hk : inBound lob hib k = true) :
    inBound lob hib x = true := by
  cases lob <;> cases hib <;>
    simp only [inBound, Bool.and_eq_true, Bool.and_true, Bool.true_and,
      decide_eq_true_eq] at hx hk ⊢ <;>
    omega

theorem inBound_hi_lt {lob : Option Int} {k a : Int}
    (h : inBound lob (some k) a = true) : a < k := by
  cases lob <;>
    (simp only [inBound, Bool.and_eq_true, Bool.and_true, Bool.true_and,
      decide_eq_true_eq] at h; omega)

theorem inBound_lo_le {hib : Option Int} {k b : Int}
    (h : inBound (some k) hib b = true) : k ≤ b := by
  cases hib <;>
    (simp only [inBound, Bool.and_eq_true, Bool.and_true, Bool.true_and,
      decide_eq_true_eq] at h; omega)

mutual

/-- On a well-formed subtree the data keys are strictly increasing and lie
inside the window. -/
theorem wf_leafKeys :
    ∀ (t : BPNode) (lob hib : Option Int), BPNode.wf t lob hib = true →
      (BPNode.leafKeys t).Pairwise (· < ·) ∧
      ∀ k ∈ BPNode.leafKeys t, inBound lob hib k = true
  | .mk i ks cs l nx, lob, hib, h => by
    simp only [BPNode.wf, Bool.and_eq_true] at h
    obtain ⟨⟨hasc, hbound⟩, hrest⟩ := h
    cases l with
    | true =>
      rw [leafKeys_leaf]
      refine ⟨pairwise_of_strictAsc hasc, fun k hk => ?_⟩
      exact List.all_eq_true.mp hbound k hk
    | false =>
      rw [leafKeys_inner]
      simp only [Bool.false_eq_true, if_false] at hrest
      exact wfChildren_leafKeys lob ks cs hib hrest hasc hbound

/-- On a well-formed child list the concatenated data keys are strictly
increasing and lie inside the window. -/
theorem wfChildren_leafKeys :
    ∀ (lob : Option Int) (ks : List Int) (cs : List BPNode) (hib : Option Int),
      BPNode.wfChildren lob ks cs hib = true →
      strictAsc ks = true → ks.all (inBound lob hib) = true →
      (BPNode.leafKeysL cs).Pairwise (· < ·) ∧
      ∀ k ∈ BPNode.leafKeysL cs, inBound lob hib k = true
  | lob, [], [c], hib, h, _, _ => by
    rw [show BPNode.wfChildren lob [] [c] hib = BPNode.wf c lob hib from rfl] at h
    have hres := wf_leafKeys c lob hib h
    rw [leafKeysL_cons, leafKeysL_nil, List.append_nil]
    exact hres
  | lob, k :: ks, c :: cs, hib, h, hasc, hbound => by
    rw [show BPNode.wfChildren lob (k :: ks) (c :: cs) hib =
      (BPNode.wf c lob (some k) && BPNode.wfChildren (some k) ks cs hib)
      from rfl, Bool.and_eq_true] at h
    obtain ⟨hc, hcs⟩ := h
    simp only [List.all_cons, Bool.and_eq_true] at hbound
    obtain ⟨hkb, hksb⟩ := hbound
    have hksb' : ks.all (inBound (some k) hib) = true := by
      rw [List.all_eq_true] at hksb ⊢
      intro x hx
      have h1 := hksb x hx
      have h2 := strictAsc_head_lt hasc x hx
      cases lob <;> cases hib <;>
        simp only [inBound, Bool.and_eq_true, Bool.and_true, Bool.true_and,
          decide_eq_true_eq] at h1 ⊢ <;>
        omega
    obtain ⟨hpc, hbc⟩ := wf_leafKeys c lob (some k) hc
    obtain ⟨hps, hbs⟩ := wfChildren_leafKeys (some k) ks cs hib hcs
      (strictAsc_tail hasc) hksb'
    rw [leafKeysL_cons]
    constructor
    · rw [List.pairwise_append]
      refine ⟨hpc, hps, fun a ha b hb => ?_⟩
      exact lt_of_lt_of_le (inBound_hi_lt (hbc a ha)) (inBound_lo_le (hbs b hb))
    · intro x hx
      rw [List.mem_append] at hx
      cases hx with
      | inl hx' => exact inBound_weaken_hi (hbc x hx') hkb
      | inr hx' => exact inBound_weaken_lo (hbs x hx') hkb
  | _, [], [], _, h, _, _ => nomatch h
  | _, [], _ :: _ :: _, _, h, _, _ => nomatch h
  | _, _ :: _, [], _, h, _, _ => nomatch h

end

/-- C8 (counterexample): the claim prescribes the in-order successor when
the left subtree is at minimum occupancy.  In `predState` the key 100 sits
in the internal root, its left subtree is at minimum occupancy
(`1 = minKeys`), its in-order predecessor is 70 and its successor is 120;
the code still substitutes the predecessor 70, not the successor. -/
theorem c8_min_occupancy_still_uses_predecessor :
    predLeft.keys.length = predState.minKeys ∧
    predRun.1 = .ok true ∧
    listMax predLeft.allKeys = some 70 ∧
    listMin predRight.allKeys = some 120 ∧
    replacementKeys predRun.2.tracer.events = [70] ∧
    replacementKeys predRun.2.tracer.events ≠ [120] :=
  ⟨rfl, rfl, rfl, rfl, rfl, by decide⟩

/-! ## Range query characterization (C7) -/

theorem bp_leavesL_append : ∀ (a b : List BPNode),
    BPNode.leavesL (a ++ b) = BPNode.leavesL a ++ BPNode.leavesL b
  | [], _ => rfl
  | c :: a, b => by
    show BPNode.leaves c ++ BPNode.leavesL (a ++ b) =
      (BPNode.leaves c ++ BPNode.leavesL a) ++ BPNode.leavesL b
    rw [bp_leavesL_append a b, List.append_assoc]

theorem bp_leafKeysL_mem : ∀ {cs : List BPNode} {k : Int},
    k ∈ BPNode.leafKeysL cs → ∃ q ∈ cs, k ∈ BPNode.leafKeys q := by
  intro cs
  induction cs with
  | nil => intro k hk; rw [leafKeysL_nil] at hk; cases hk
  | cons c cs ih =>
    intro k hk
    rw [leafKeysL_cons, List.mem_append] at hk
    cases hk with
    | inl h => exact ⟨c, List.mem_cons_self c cs, h⟩
    | inr h =>
      obtain ⟨q, hq, hkq⟩ := ih h
      exact ⟨q, List.mem_cons_of_mem c hq, hkq⟩

/-- On a sorted key list the inner loop of `range_query` collects exactly the
keys inside the window and reports a stop exactly when some key exceeds the
upper bound. -/
theorem rangeScanKeys_spec (lo hi : Int) :
    ∀ (ks : List Int), ks.Pairwise (· < ·) →
      BPlusTree.rangeScanKeys lo hi ks =
        (ks.filter (fun k => decide (lo ≤ k) && decide (k ≤ hi)),
         ks.any (fun k => decide (hi < k)))
  | [], _ => rfl
  | k :: rest, h => by
    rcases List.pairwise_cons.mp h with ⟨hk, hrest⟩
    by_cases hin : lo ≤ k ∧ k ≤ hi
    · rw [show BPlusTree.rangeScanKeys lo hi (k :: rest) =
          (if lo ≤ k ∧ k ≤ hi then
            (k :: (BPlusTree.rangeScanKeys lo hi rest).1,
             (BPlusTree.rangeScanKeys lo hi rest).2)
           else if k > hi then ([], true)
           else BPlusTree.rangeScanKeys lo hi rest) from rfl,
        if_pos hin, rangeScanKeys_spec lo hi rest hrest]
      simp [List.filter_cons, List.any_cons, hin.1, hin.2, not_lt.mpr hin.2]
    · by_cases hgt : k > hi
      · rw [show BPlusTree.rangeScanKeys lo hi (k :: rest) =
            (if lo ≤ k ∧ k ≤ hi then
              (k :: (BPlusTree.rangeScanKeys lo hi rest).1,
               (BPlusTree.rangeScanKeys lo hi rest).2)
             else if k > hi then ([], true)
             else BPlusTree.rangeScanKeys lo hi rest) from rfl,
          if_neg hin, if_pos hgt]
        have hfilt : (k :: rest).filter
            (fun k => decide (lo ≤ k) && decide (k ≤ hi)) = [] := by
          refine List.filter_eq_nil_iff.mpr ?_
          intro a ha
          rcases List.mem_cons.mp ha with rfl | ha'
          · simp [not_le.mpr hgt]
          · have : hi < a := lt_trans hgt (hk a ha')
            simp [not_le.mpr this]
        rw [hfilt]
        simp [List.any_cons, hgt]
      · have hklo : ¬ lo ≤ k := by
          intro hc
          exact hin ⟨hc, not_lt.mp hgt⟩
        rw [show BPlusTree.rangeScanKeys lo hi (k :: rest) =
            (if lo ≤ k ∧ k ≤ hi then
              (k :: (BPlusTree.rangeScanKeys lo hi rest).1,
               (BPlusTree.rangeScanKeys lo hi rest).2)
             else if k > hi then ([], true)
             else BPlusTree.rangeScanKeys lo hi rest) from rfl,
          if_neg hin, if_neg hgt, rangeScanKeys_spec lo hi rest hrest]
        simp [List.filter_cons, List.any_cons, hklo, not_lt.mp hgt]

/-- On a well-formed child list, the child the descent picks for `lo` exists,
is well formed, and every child left of it holds only data keys below `lo`. -/
theorem wfChildren_descend :
    ∀ (lob : Option Int) (ks : List Int) (cs : List BPNode) (hib : Option Int)
      (lo : Int), BPNode.wfChildren lob ks cs hib = true →
      ∃ (c : BPNode) (preC sufC : List BPNode) (lob' hib' : Option Int),
        cs.get? (BPlusTree.findInsertPos ks lo) = some c ∧
        cs = preC ++ c :: sufC ∧
        BPNode.wf c lob' hib' = true ∧
        ∀ p ∈ preC, ∀ k ∈ BPNode.leafKeys p, k < lo
  | lob, [], [c], hib, lo, h =>
    ⟨c, [], [], lob, hib, rfl, rfl, h, by simp⟩
  | lob, k :: ks, c :: cs, hib, lo, h => by
    rw [show BPNode.wfChildren lob (k :: ks) (c :: cs) hib =
      (BPNode.wf c lob (some k) && BPNode.wfChildren (some k) ks cs hib)
      from rfl, Bool.and_eq_true] at h
    obtain ⟨hc, hcs⟩ := h
    by_cases hlt : lo < k
    · refine ⟨c, [], cs, lob, some k, ?_, rfl, hc, by simp⟩
      rw [show BPlusTree.findInsertPos (k :: ks) lo = 0 from by
        simp [BPlusTree.findInsertPos, hlt]]
      rfl
    · obtain ⟨c', preC, sufC, lob', hib', hget, hsplit, hwf', hpre⟩ :=
        wfChildren_descend (some k) ks cs hib lo hcs
      refine ⟨c', c :: preC, sufC, lob', hib', ?_, by rw [hsplit]; rfl, hwf', ?_⟩
      · rw [show BPlusTree.findInsertPos (k :: ks) lo =
          BPlusTree.findInsertPos ks lo + 1 from by
            simp [BPlusTree.findInsertPos, hlt]]
        exact hget
      · intro p hp k' hk'
        cases hp with
        | head =>
          have hb := (wf_leafKeys c lob (some k) hc).2 k' hk'
          have hk'k := inBound_hi_lt hb
          omega
        | tail _ hp' => exact hpre p hp' k' hk'
  | _, [], [], _, _, h => nomatch h
  | _, [], _ :: _ :: _, _, _, h => nomatch h
  | _, _ :: _, [], _, _, h => nomatch h

/-- The descent loop of `range_query` lands on a leaf of the tree, and every
leaf left of it holds only keys below `lo`. -/
theorem bp_rangeDescend_spec :
    ∀ (fuel : Nat) (t : BPNode) (lob hib : Option Int) (lo : Int),
      BPNode.wf t lob hib = true → BPNode.height t ≤ fuel →
      ∃ (l : BPNode) (pre suf : List BPNode),
        BPlusTree.rangeDescend lo fuel t = .ok l ∧
        BPNode.leaves t = pre ++ l :: suf ∧
        ∀ k ∈ (pre.map BPNode.keys).flatten, k < lo := by
  intro fuel
  induction fuel with
  | zero =>
    intro t lob hib lo hwf hh
    exfalso
    cases t with
    | mk i ks cs l nx => simp [BPNode.height] at hh
  | succ fuel ih =>
    intro t lob hib lo hwf hh
    cases t with
    | mk i ks cs l nx =>
      cases l with
      | true => exact ⟨.mk i ks cs true nx, [], [], rfl, rfl, by simp⟩
      | false =>
        simp only [BPNode.wf, Bool.and_eq_true] at hwf
        obtain ⟨-, hrest⟩ := hwf
        simp only [Bool.false_eq_true, if_false] at hrest
        obtain ⟨c, preC, sufC, lob', hib', hget, hsplit, hwfc, hpreC⟩ :=
          wfChildren_descend lob ks cs hib lo hrest
        have hcm : c ∈ cs := by
          rw [hsplit]
          exact List.mem_append_right _ (List.mem_cons_self _ _)
        have hhc : BPNode.height c ≤ fuel := by
          have h1 : BPNode.height (.mk i ks cs false nx) =
              1 + BPNode.heightL cs := rfl
          have h2 := bpHeightL_mem hcm
          omega
        obtain ⟨lf, pre1, suf1, hdesc, hlsplit, hpre1⟩ :=
          ih c lob' hib' lo hwfc hhc
        refine ⟨lf, BPNode.leavesL preC ++ pre1, suf1 ++ BPNode.leavesL sufC,
          ?_, ?_, ?_⟩
        · rw [show BPlusTree.rangeDescend lo (fuel + 1) (.mk i ks cs false nx) =
            (match cs.get? (BPlusTree.findInsertPos ks lo) with
             | some c => BPlusTree.rangeDescend lo fuel c
             | none => throw .indexError) from rfl, hget]
          exact hdesc
        · show BPNode.leavesL cs = _
          rw [hsplit, bp_leavesL_append, show BPNode.leavesL (c :: sufC) =
            BPNode.leaves c ++ BPNode.leavesL sufC from rfl, hlsplit]
          simp [List.append_assoc]
        · intro k hk
          rw [List.map_append, List.flatten_append, List.mem_append] at hk
          cases hk with
          | inl hk' =>
            obtain ⟨q, hq, hkq⟩ := bp_leafKeysL_mem hk'
            exact hpreC q hq k hkq
          | inr hk' => exact hpre1 k hk'

theorem chainLinked_tail {x : BPNode} {xs : List BPNode}
    (h : chainLinked (x :: xs) = true) : chainLinked xs = true := by
  cases xs with
  | nil => rfl
  | cons y ys =>
    rw [show chainLinked (x :: y :: ys) =
      (x.next == some y.id && chainLinked (y :: ys)) from rfl,
      Bool.and_eq_true] at h
    exact h.2

theorem chainLinked_append_right :
    ∀ (a : List BPNode) {b : List BPNode},
      chainLinked (a ++ b) = true → chainLinked b = true
  | [], _, h => h
  | _ :: a, b, h => chainLinked_append_right a (chainLinked_tail h)

theorem chainLinked_head_next {x y : BPNode} {ys : List BPNode}
    (h : chainLinked (x :: y :: ys) = true) : x.next = some y.id := by
  rw [show chainLinked (x :: y :: ys) =
    (x.next == some y.id && chainLinked (y :: ys)) from rfl,
    Bool.and_eq_true] at h
  exact eq_of_beq h.1

theorem chainLinked_single {x : BPNode} (h : chainLinked [x] = true) :
    x.next = none :=
  eq_of_beq h

/-- With pairwise-distinct leaf ids, a `next_leaf` reference resolves to the
listed leaf itself. -/
theorem find_id_resolve :
    ∀ (pre : List BPNode) (l : BPNode) (suf : List BPNode),
      natsNodup ((pre ++ l :: suf).map BPNode.id) = true →
      (pre ++ l :: suf).find? (fun x => x.id == l.id) = some l
  | [], l, suf, _ => by simp [List.find?]
  | p :: pre, l, suf, h => by
    rw [show ((p :: pre ++ l :: suf).map BPNode.id) =
      p.id :: ((pre ++ l :: suf).map BPNode.id) from rfl,
      show natsNodup (p.id :: ((pre ++ l :: suf).map BPNode.id)) =
      (!((pre ++ l :: suf).map BPNode.id).contains p.id &&
        natsNodup ((pre ++ l :: suf).map BPNode.id)) from rfl,
      Bool.and_eq_true] at h
    obtain ⟨hnotin, hrest⟩ := h
    have hcf : ((pre ++ l :: suf).map BPNode.id).contains p.id = false := by
      simpa using hnotin
    have hlmem : l.id ∈ (pre ++ l :: suf).map BPNode.id :=
      List.mem_map_of_mem _
        (List.mem_append_right _ (List.mem_cons_self _ _))
    have hne : (p.id == l.id) = false := by
      cases hbe : (p.id == l.id) with
      | false => rfl
      | true =>
        exfalso
        have hpl : p.id = l.id := eq_of_beq hbe
        rw [hpl] at hcf
        have := List.elem_eq_true_of_mem hlmem
        rw [show ((pre ++ l :: suf).map BPNode.id).contains l.id =
          ((pre ++ l :: suf).map BPNode.id).elem l.id from rfl, this] at hcf
        exact Bool.noConfusion hcf
    rw [show ((p :: pre) ++ l :: suf).find? (fun x => x.id == l.id) =
      (match (p.id == l.id) with
       | true => some p
       | false => (pre ++ l :: suf).find? (fun x => x.id == l.id)) from rfl,
      hne]
    exact find_id_resolve pre l suf hrest

theorem findLeaf_resolve {t : BPNode} {pre suf : List BPNode} {l : BPNode}
    (hL : BPNode.leaves t = pre ++ l :: suf)
    (hnd : natsNodup ((BPNode.leaves t).map BPNode.id) = true) :
    BPNode.findLeaf t l.id = some l := by
  rw [hL] at hnd
  rw [show BPNode.findLeaf t l.id =
    (BPNode.leaves t).find? (fun x => x.id == l.id) from rfl, hL]
  exact find_id_resolve pre l suf hnd

theorem rangeWalk_succ_stop {t : BPNode} {lo hi : Int} {f : Nat}
    {node : BPNode} {col : List Int}
    (hscan : BPlusTree.rangeScanKeys lo hi node.keys = (col, true)) :
    BPlusTree.rangeWalk t lo hi (f + 1) node = .ok col := by
  rw [show BPlusTree.rangeWalk t lo hi (f + 1) node =
    (match BPlusTree.rangeScanKeys lo hi node.keys with
     | (collected, stop) =>
       if stop then pure collected
       else
         match node.next with
         | none => pure collected
         | some nid =>
           match t.findLeaf nid with
           | some nxt =>
             BPlusTree.rangeWalk t lo hi f nxt >>= fun r => pure (collected ++ r)
           | none => throw .indexError) from rfl, hscan]
  rfl

theorem rangeWalk_succ_nolink {t : BPNode} {lo hi : Int} {f : Nat}
    {node : BPNode} {col : List Int} {stop : Bool}
    (hscan : BPlusTree.rangeScanKeys lo hi node.keys = (col, stop))
    (hnext : node.next = none) :
    BPlusTree.rangeWalk t lo hi (f + 1) node = .ok col := by
  rw [show BPlusTree.rangeWalk t lo hi (f + 1) node =
    (match BPlusTree.rangeScanKeys lo hi node.keys with
     | (collected, stop) =>
       if stop then pure collected
       else
         match node.next with
         | none => pure collected
         | some nid =>
           match t.findLeaf nid with
           | some nxt =>
             BPlusTree.rangeWalk t lo hi f nxt >>= fun r => pure (collected ++ r)
           | none => throw .indexError) from rfl, hscan, hnext]
  cases stop <;> rfl

theorem rangeWalk_succ_link {t : BPNode} {lo hi : Int} {f : Nat}
    {node : BPNode} {col : List Int} {nid : Nat} {nxt : BPNode}
    (hscan : BPlusTree.rangeScanKeys lo hi node.keys = (col, false))
    (hnext : node.next = some nid)
    (hfind : t.findLeaf nid = some nxt) :
    BPlusTree.rangeWalk t lo hi (f + 1) node =
      BPlusTree.rangeWalk t lo hi f nxt >>= fun r => pure (col ++ r) := by
  rw [show BPlusTree.rangeWalk t lo hi (f + 1) node =
    (match BPlusTree.rangeScanKeys lo hi node.keys with
     | (collected, stop) =>
       if stop then pure collected
       else
         match node.next with
         | none => pure collected
         | some nid =>
           match t.findLeaf nid with
           | some nxt =>
             BPlusTree.rangeWalk t lo hi f nxt >>= fun r => pure (collected ++ r)
           | none => throw .indexError) from rfl, hscan, hnext]
  show ((match t.findLeaf nid with
        | some nxt =>
          BPlusTree.rangeWalk t lo hi f nxt >>= fun r => pure (col ++ r)
        | none => throw PyErr.indexError) : Except PyErr (List Int)) = _
  rw [hfind]

/-- Chain walk of `range_query` from a leaf of the tree: on a consistent
chain with sorted data keys it collects exactly the suffix keys inside
`[lo, hi]`. -/
theorem bp_rangeWalk_spec (t : BPNode) (lo hi : Int) :
    ∀ (suf : List BPNode) (fuel : Nat) (l : BPNode) (pre : List BPNode),
      BPNode.leaves t = pre ++ l :: suf →
      natsNodup ((BPNode.leaves t).map BPNode.id) = true →
      chainLinked (BPNode.leaves t) = true →
      (((l :: suf).map BPNode.keys).flatten).Pairwise (· < ·) →
      (l :: suf).length ≤ fuel →
      BPlusTree.rangeWalk t lo hi fuel l =
        .ok ((((l :: suf).map BPNode.keys).flatten).filter
          (fun k => decide (lo ≤ k) && decide (k ≤ hi))) := by
  intro suf
  induction suf with
  | nil =>
    intro fuel l pre hL hnd hcl hpair hfuel
    cases fuel with
    | zero => simp at hfuel
    | succ f =>
      have hpl : l.keys.Pairwise (· < ·) := by
        simpa using hpair
      have hnext : l.next = none := by
        rw [hL] at hcl
        exact chainLinked_single (chainLinked_append_right pre hcl)
      have := @rangeWalk_succ_nolink t lo hi f l _ _
        (rangeScanKeys_spec lo hi l.keys hpl) hnext
      rw [this]
      simp
  | cons l₂ rest ih =>
    intro fuel l pre hL hnd hcl hpair hfuel
    cases fuel with
    | zero => simp at hfuel
    | succ f =>
      have hflat : ((l :: l₂ :: rest).map BPNode.keys).flatten =
          l.keys ++ ((l₂ :: rest).map BPNode.keys).flatten := by
        simp
      rw [hflat] at hpair
      rcases List.pairwise_append.mp hpair with ⟨hpl, hprest, hcross⟩
      have hscan := rangeScanKeys_spec lo hi l.keys hpl
      cases hstop : l.keys.any (fun k => decide (hi < k)) with
      | true =>
        rw [hstop] at hscan
        rw [@rangeWalk_succ_stop t lo hi f l _ hscan, hflat,
          List.filter_append]
        have hrest0 : (((l₂ :: rest).map BPNode.keys).flatten).filter
            (fun k => decide (lo ≤ k) && decide (k ≤ hi)) = [] := by
          obtain ⟨k₀, hk₀, hk₀hi⟩ := List.any_eq_true.mp hstop
          rw [decide_eq_true_eq] at hk₀hi
          refine List.filter_eq_nil_iff.mpr ?_
          intro a ha
          have : hi < a := lt_trans hk₀hi (hcross k₀ hk₀ a ha)
          simp [not_le.mpr this]
        rw [hrest0, List.append_nil]
      | false =>
        rw [hstop] at hscan
        have hcl2 : chainLinked (l :: l₂ :: rest) = true := by
          rw [hL] at hcl
          exact chainLinked_append_right pre hcl
        have hnext : l.next = some l₂.id := chainLinked_head_next hcl2
        have hL2 : BPNode.leaves t = (pre ++ [l]) ++ l₂ :: rest := by
          rw [hL]; simp
        have hfind : BPNode.findLeaf t l₂.id = some l₂ :=
          findLeaf_resolve hL2 hnd
        rw [@rangeWalk_succ_link t lo hi f l _ _ _ hscan hnext hfind,
          ih f l₂ (pre ++ [l]) hL2 hnd hcl (by simpa using hprest)
            (by simpa using hfuel)]
        show Except.ok _ = _
        rw [hflat, List.filter_append]

theorem chainConsistent_parts {s : BPState} (hcc : chainConsistent s = true) :
    natsNodup ((BPNode.leaves s.root).map BPNode.id) = true ∧
    chainLinked (BPNode.leaves s.root) = true := by
  rw [show chainConsistent s = (match BPNode.leaves s.root with
    | [] => false
    | l0 :: _ =>
      (s.firstLeaf == l0.id) &&
      natsNodup ((BPNode.leaves s.root).map BPNode.id) &&
      chainLinked (BPNode.leaves s.root)) from rfl] at hcc
  cases hLv : BPNode.leaves s.root with
  | nil =>
    rw [show BPNode.leaves s.root = s.root.leaves from rfl, hLv] at hcc
    exact Bool.noConfusion hcc
  | cons l0 ls =>
    rw [show BPNode.leaves s.root = s.root.leaves from rfl, hLv] at hcc
    have hcc2 : ((s.firstLeaf == l0.id) &&
        natsNodup ((l0 :: ls).map BPNode.id) &&
        chainLinked (l0 :: ls)) = true := hcc
    simp only [Bool.and_eq_true] at hcc2
    exact ⟨hcc2.1.2, hcc2.2⟩

/-- C7: on a well-formed B+-Tree with a consistent leaf chain (and fuel at
least the height and the leaf count), `range_query(lo, hi)` with `lo ≤ hi`
returns exactly the tree's data keys `k` with `lo ≤ k ≤ hi`, in strictly
ascending order: it descends once to the first leaf that could hold `lo`
and walks `next_leaf`, stopping at the first key above `hi`. -/
theorem c7_range_query_correct (fuel : Nat) (s : BPState) (lo hi : Int)
    (hlohi : lo ≤ hi)
    (hwf : BPNode.wf s.root none none = true)
    (hcc : chainConsistent s = true)
    (hh : BPNode.height s.root ≤ fuel)
    (hl : (BPNode.leaves s.root).length ≤ fuel) :
    BPlusTree.rangeQuery fuel s lo hi =
      .ok ((BPNode.leafKeys s.root).filter
        (fun k => decide (lo ≤ k) && decide (k ≤ hi))) ∧
    strictAsc (exceptGet (BPlusTree.rangeQuery fuel s lo hi)) = true := by
  obtain ⟨hnd, hclk⟩ := chainConsistent_parts hcc
  obtain ⟨l, pre, suf, hdesc, hsplit, hpre⟩ :=
    bp_rangeDescend_spec fuel s.root none none lo hwf hh
  have hq : BPlusTree.rangeQuery fuel s lo hi =
      BPlusTree.rangeWalk s.root lo hi fuel l := by
    rw [show BPlusTree.rangeQuery fuel s lo hi =
      (BPlusTree.rangeDescend lo fuel s.root >>= fun node =>
        BPlusTree.rangeWalk s.root lo hi fuel node) from rfl, hdesc]
    rfl
  have hPairAll : (BPNode.leafKeys s.root).Pairwise (· < ·) :=
    (wf_leafKeys s.root none none hwf).1
  have hLK : BPNode.leafKeys s.root =
      (pre.map BPNode.keys).flatten ++
        ((l :: suf).map BPNode.keys).flatten := by
    rw [show BPNode.leafKeys s.root =
      ((BPNode.leaves s.root).map BPNode.keys).flatten from rfl, hsplit]
    simp
  have hpairSuf : (((l :: suf).map BPNode.keys).flatten).Pairwise (· < ·) := by
    rw [hLK] at hPairAll
    exact (List.pairwise_append.mp hPairAll).2.1
  have hlen : (l :: suf).length ≤ fuel := by
    have hlen2 : (BPNode.leaves s.root).length =
        pre.length + (l :: suf).length := by
      rw [hsplit]; simp
    omega
  have hwalk := bp_rangeWalk_spec s.root lo hi suf fuel l pre hsplit hnd hclk
    hpairSuf hlen
  constructor
  · rw [hq, hwalk, hLK, List.filter_append]
    have hpre0 : ((pre.map BPNode.keys).flatten).filter
        (fun k => decide (lo ≤ k) && decide (k ≤ hi)) = [] := by
      refine List.filter_eq_nil_iff.mpr ?_
      intro a ha
      have := hpre a ha
      simp [not_le.mpr this]
    rw [hpre0, List.nil_append]
  · rw [hq, hwalk]
    exact strictAsc_of_pairwise
      (List.Pairwise.sublist (List.filter_sublist _) hpairSuf)

/-- C7 witness: the spec's own scenario.  Over the fanout-4 tree holding
10,20,…,100 (reached by the verified insert chain ending at `qD10`),
`range_query(20, 50)` returns exactly `[20, 30, 40, 50]`. -/
theorem c7_range_query_witness :
    (20 : Int) ≤ 50 ∧
    BPNode.wf qD10.root none none = true ∧
    chainConsistent qD10 = true ∧
    BPNode.height qD10.root ≤ 20 ∧
    (BPNode.leaves qD10.root).length ≤ 20 ∧
    BPlusTree.rangeQuery 20 qD10 20 50 = .ok [20, 30, 40, 50] :=
  ⟨by decide, by decide, by decide, by decide, by decide,
    ((c7_range_query_correct 20 qD10 20 50 (by decide) (by decide) (by decide)
      (by decide) (by decide)).1).trans (by rfl)⟩

/-! ## B-Tree sortedness and the predecessor computation (C8) -/

/-- Strict bound check `lo < k < hi` with optional (absent = unbounded)
ends: a B-Tree key lies strictly between the adjacent separators. -/
def inBoundS (lob hib : Option Int) (k : Int) : Bool :=
  (match lob with
   | none => true
   | some lo => lo < k) &&
  (match hib with
   | none => true
   | some hi => k < hi)

mutual

/-- Sortedness of a B-Tree subtree within the open key window `(lob, hib)`:
keys strictly increasing, inside the window and nonempty; an internal node
has `|keys| + 1` children with `children[i]` strictly between the adjacent
separators. -/
def BNode.wfB : BNode → Option Int → Option Int → Bool
  | .mk _ ks cs, lob, hib =>
    strictAsc ks && ks.all (inBoundS lob hib) && !ks.isEmpty &&
    (if cs.isEmpty then true else BNode.wfChildrenB lob ks cs hib)

def BNode.wfChildrenB :
    Option Int → List Int → List BNode → Option Int → Bool
  | lob, [], [c], hib => BNode.wfB c lob hib
  | lob, k :: ks, c :: cs, hib =>
    BNode.wfB c lob (some k) && BNode.wfChildrenB (some k) ks cs hib
  | _, _, _, _ => false

end

theorem inBoundS_weaken_hi {lob hib : Option Int} {k x : Int}
    (hx : inBoundS lob (some k) x = true) (hk : inBoundS lob hib k = true) :
    inBoundS lob hib x = true := by
  cases lob <;> cases hib <;>
    simp only [inBoundS, Bool.and_eq_true, Bool.and_true, Bool.true_and,
      decide_eq_true_eq] at hx hk ⊢ <;>
    omega

theorem inBoundS_weaken_lo {lob hib : Option Int} {k x : Int}
    (hx : inBoundS (some k) hib x = true) (hk : inBoundS lob hib k = true) :
    inBoundS lob hib x = true := by
  cases lob <;> cases hib <;>
    simp only [inBoundS, Bool.and_eq_true, Bool.and_true, Bool.true_and,
      decide_eq_true_eq] at hx hk ⊢ <;>
    omega

theorem inBoundS_hi_lt {lob : Option Int} {k a : Int}
    (h : inBoundS lob (some k) a = true) : a < k := by
  cases lob <;>
    (simp only [inBoundS, Bool.and_eq_true, Bool.and_true, Bool.true_and,
      decide_eq_true_eq] at h; omega)

theorem inBoundS_lo_lt {hib : Option Int} {k b : Int}
    (h : inBoundS (some k) hib b = true) : k < b := by
  cases hib <;>
    (simp only [inBoundS, Bool.and_eq_true, Bool.and_true, Bool.true_and,
      decide_eq_true_eq] at h; omega)

mutual

/-- Every key of a sorted B-Tree subtree lies inside its window. -/
theorem wfB_allKeys :
    ∀ (t : BNode) (lob hib : Option Int), BNode.wfB t lob hib = true →
      ∀ k ∈ BNode.allKeys t, inBoundS lob hib k = true
  | .mk i ks cs, lob, hib, h => by
    simp only [BNode.wfB, Bool.and_eq_true] at h
    obtain ⟨⟨⟨hasc, hbound⟩, -⟩, hrest⟩ := h
    intro k hk
    rw [show BNode.allKeys (.mk i ks cs) = ks ++ BNode.allKeysL cs from rfl,
      List.mem_append] at hk
    cases hk with
    | inl hk₂ => exact List.all_eq_true.mp hbound k hk₂
    | inr hk₂ =>
      cases cs with
      | nil =>
        rw [show BNode.allKeysL [] = ([] : List Int) from rfl] at hk₂
        cases hk₂
      | cons c₂ cs₂ =>
        simp only [List.isEmpty_cons, Bool.false_eq_true, if_false] at hrest
        exact wfChildrenB_allKeys lob ks (c₂ :: cs₂) hib hrest hasc hbound
          k hk₂

/-- Every key below a sorted B-Tree child list lies inside the window. -/
theorem wfChildrenB_allKeys :
    ∀ (lob : Option Int) (ks : List Int) (cs : List BNode) (hib : Option Int),
      BNode.wfChildrenB lob ks cs hib = true →
      strictAsc ks = true → ks.all (inBoundS lob hib) = true →
      ∀ k ∈ BNode.allKeysL cs, inBoundS lob hib k = true
  | lob, [], [c], hib, h, _, _ => by
    intro k hk
    rw [show BNode.allKeysL [c] = BNode.allKeys c ++ BNode.allKeysL [] from
      rfl, show BNode.allKeysL [] = ([] : List Int) from rfl,
      List.append_nil] at hk
    exact wfB_allKeys c lob hib h k hk
  | lob, k₀ :: ks, c :: cs, hib, h, hasc, hbound => by
    rw [show BNode.wfChildrenB lob (k₀ :: ks) (c :: cs) hib =
      (BNode.wfB c lob (some k₀) && BNode.wfChildrenB (some k₀) ks cs hib)
      from rfl, Bool.and_eq_true] at h
    obtain ⟨hc, hcs⟩ := h
    simp only [List.all_cons, Bool.and_eq_true] at hbound
    obtain ⟨hk₀b, hksb⟩ := hbound
    have hksb2 : ks.all (inBoundS (some k₀) hib) = true := by
      rw [List.all_eq_true] at hksb ⊢
      intro x hx
      have h1 := hksb x hx
      have h2 := strictAsc_head_lt hasc x hx
      cases lob <;> cases hib <;>
        simp only [inBoundS, Bool.and_eq_true, Bool.and_true, Bool.true_and,
          decide_eq_true_eq] at h1 ⊢ <;>
        omega
    intro k hk
    rw [show BNode.allKeysL (c :: cs) =
      BNode.allKeys c ++ BNode.allKeysL cs from rfl, List.mem_append] at hk
    cases hk with
    | inl hk₂ =>
      exact inBoundS_weaken_hi (wfB_allKeys c lob (some k₀) hc k hk₂) hk₀b
    | inr hk₂ =>
      exact inBoundS_weaken_lo
        (wfChildrenB_allKeys (some k₀) ks cs hib hcs (strictAsc_tail hasc)
          hksb2 k hk₂) hk₀b
  | _, [], [], _, h, _, _ => fun k hk => nomatch h
  | _, [], _ :: _ :: _, _, h, _, _ => fun k hk => nomatch h
  | _, _ :: _, [], _, h, _, _ => fun k hk => nomatch h

end

/-- The last key of a sorted nonempty list is its maximum. -/
theorem strictAsc_getLast :
    ∀ (ks : List Int), strictAsc ks = true → ks ≠ [] →
      ∃ m, ks.getLast? = some m ∧ m ∈ ks ∧ ∀ k ∈ ks, k ≤ m
  | [], _, hne => absurd rfl hne
  | [k], _, _ => by
    refine ⟨k, List.getLast?_singleton k, List.mem_cons_self k [], ?_⟩
    intro x hx
    rcases List.mem_cons.mp hx with rfl | hx₂
    · exact le_refl x
    · cases hx₂
  | k :: k₂ :: rest, h, _ => by
    obtain ⟨m, hlast, hmem, hmax⟩ :=
      strictAsc_getLast (k₂ :: rest) (strictAsc_tail h) (by simp)
    refine ⟨m, ?_, List.mem_cons_of_mem k hmem, ?_⟩
    · rw [List.getLast?_cons_cons]
      exact hlast
    · intro x hx
      rcases List.mem_cons.mp hx with rfl | hx₂
      · exact le_of_lt (strictAsc_head_lt h m hmem)
      · exact hmax x hx₂

/-- `listMax` of a nonempty list: it exists, belongs to the list and bounds
it. -/
theorem listMax_spec :
    ∀ (l : List Int), l ≠ [] →
      ∃ m, listMax l = some m ∧ m ∈ l ∧ ∀ k ∈ l, k ≤ m
  | [], h => absurd rfl h
  | k :: rest, _ => by
    cases rest with
    | nil =>
      refine ⟨k, rfl, List.mem_cons_self k [], ?_⟩
      intro x hx
      rcases List.mem_cons.mp hx with rfl | hx₂
      · exact le_refl x
      · cases hx₂
    | cons r rs =>
      obtain ⟨m, hml, hmem, hmax⟩ := listMax_spec (r :: rs) (by simp)
      refine ⟨max k m, ?_, ?_, ?_⟩
      · rw [show listMax (k :: r :: rs) =
          (match listMax (r :: rs) with
           | none => some k
           | some m₂ => some (max k m₂)) from rfl, hml]
      · rcases le_total k m with hle | hle
        · rw [max_eq_right hle]
          exact List.mem_cons_of_mem k hmem
        · rw [max_eq_left hle]
          exact List.mem_cons_self _ _
      · intro x hx
        rcases List.mem_cons.mp hx with rfl | hx₂
        · exact le_max_left _ _
        · exact le_trans (hmax x hx₂) (le_max_right _ _)

theorem listMax_eq_some {l : List Int} {m : Int} (hm : m ∈ l)
    (hmax : ∀ k ∈ l, k ≤ m) : listMax l = some m := by
  obtain ⟨m₂, hml, hmem₂, hmax₂⟩ := listMax_spec l (by rintro rfl; cases hm)
  rw [hml, le_antisymm (hmax m₂ hmem₂) (hmax₂ m hm)]

/-- The right-most child of a sorted child list carries the maximum: any
bound on its keys bounds the separators and every key below the list. -/
theorem wfChildrenB_last :
    ∀ (lob : Option Int) (ks : List Int) (cs : List BNode) (hib : Option Int),
      BNode.wfChildrenB lob ks cs hib = true →
      strictAsc ks = true → ks.all (inBoundS lob hib) = true →
      ∃ (cl : BNode) (lob' : Option Int), cs.getLast? = some cl ∧
        BNode.wfB cl lob' hib = true ∧
        ∀ m : Int, m ∈ BNode.allKeys cl →
          (∀ x ∈ BNode.allKeys cl, x ≤ m) →
          (∀ k ∈ ks, k ≤ m) ∧ ∀ x ∈ BNode.allKeysL cs, x ≤ m
  | lob, [], [c], hib, h, _, _ => by
    refine ⟨c, lob, List.getLast?_singleton c, h, ?_⟩
    intro m _ hmax
    constructor
    · intro k hk
      cases hk
    · intro x hx
      rw [show BNode.allKeysL [c] = BNode.allKeys c ++ BNode.allKeysL [] from
        rfl, show BNode.allKeysL [] = ([] : List Int) from rfl,
        List.append_nil] at hx
      exact hmax x hx
  | lob, k₀ :: ks, c :: cs, hib, h, hasc, hbound => by
    rw [show BNode.wfChildrenB lob (k₀ :: ks) (c :: cs) hib =
      (BNode.wfB c lob (some k₀) && BNode.wfChildrenB (some k₀) ks cs hib)
      from rfl, Bool.and_eq_true] at h
    obtain ⟨hc, hcs⟩ := h
    simp only [List.all_cons, Bool.and_eq_true] at hbound
    obtain ⟨hk₀b, hksb⟩ := hbound
    have hksb2 : ks.all (inBoundS (some k₀) hib) = true := by
      rw [List.all_eq_true] at hksb ⊢
      intro x hx
      have h1 := hksb x hx
      have h2 := strictAsc_head_lt hasc x hx
      cases lob <;> cases hib <;>
        simp only [inBoundS, Bool.and_eq_true, Bool.and_true, Bool.true_and,
          decide_eq_true_eq] at h1 ⊢ <;>
        omega
    obtain ⟨cl, lob', hlast, hwfcl, hparts⟩ :=
      wfChildrenB_last (some k₀) ks cs hib hcs (strictAsc_tail hasc) hksb2
    have hclmem : cl ∈ cs := List.mem_of_mem_getLast? hlast
    refine ⟨cl, lob', ?_, hwfcl, ?_⟩
    · cases cs with
      | nil => cases hclmem
      | cons c₂ cs₂ =>
        rw [List.getLast?_cons_cons]
        exact hlast
    · intro m hm hmax
      have hmembL : m ∈ BNode.allKeysL cs := btAllKeysL_mem hclmem hm
      have hk₀m : k₀ < m :=
        inBoundS_lo_lt (wfChildrenB_allKeys (some k₀) ks cs hib hcs
          (strictAsc_tail hasc) hksb2 m hmembL)
      obtain ⟨hp1, hp2⟩ := hparts m hm hmax
      refine ⟨?_, ?_⟩
      · intro k hk
        rcases List.mem_cons.mp hk with rfl | hk₂
        · omega
        · exact hp1 k hk₂
      · intro x hx
        rw [show BNode.allKeysL (c :: cs) =
          BNode.allKeys c ++ BNode.allKeysL cs from rfl,
          List.mem_append] at hx
        cases hx with
        | inl hx₂ =>
          have := inBoundS_hi_lt (wfB_allKeys c lob (some k₀) hc x hx₂)
          omega
        | inr hx₂ => exact hp2 x hx₂
  | _, [], [], _, h, _, _ => nomatch h
  | _, [], _ :: _ :: _, _, h, _, _ => nomatch h
  | _, _ :: _, [], _, h, _, _ => nomatch h

/-- `_get_predecessor`'s descent returns the maximum key of the subtree on
sorted trees, leaving the state untouched. -/
theorem getPredecessorGo_max :
    ∀ (fuel : Nat) (c : BNode) (lob hib : Option Int),
      BNode.wfB c lob hib = true → BNode.height c ≤ fuel →
      ∃ m : Int,
        (∀ s : BTState,
          (BTree.getPredecessorGo fuel c).run.run s = (.ok m, s)) ∧
        m ∈ BNode.allKeys c ∧ ∀ k ∈ BNode.allKeys c, k ≤ m := by
  intro fuel
  induction fuel with
  | zero =>
    intro c lob hib hwf hh
    exfalso
    cases c with
    | mk i ks cs => simp [BNode.height] at hh
  | succ fuel ih =>
    intro c lob hib hwf hh
    cases c with
    | mk i ks cs =>
      simp only [BNode.wfB, Bool.and_eq_true] at hwf
      obtain ⟨⟨⟨hasc, hbound⟩, hne⟩, hrest⟩ := hwf
      cases cs with
      | nil =>
        have hne2 : ks ≠ [] := by
          intro hc
          subst hc
          simp at hne
        obtain ⟨m, hlast, hmem, hmax⟩ := strictAsc_getLast ks hasc hne2
        refine ⟨m, ?_, List.mem_append_left _ hmem, ?_⟩
        · intro s
          rw [show BTree.getPredecessorGo (fuel + 1) (.mk i ks []) =
            (match ks.getLast? with
             | some k => (pure k : BM Int)
             | none => throw .indexError) from rfl, hlast]
          rfl
        · intro k hk
          rw [show BNode.allKeys (.mk i ks []) =
            ks ++ BNode.allKeysL [] from rfl,
            show BNode.allKeysL [] = ([] : List Int) from rfl,
            List.append_nil] at hk
          exact hmax k hk
      | cons c₂ cs₂ =>
        simp only [List.isEmpty_cons, Bool.false_eq_true, if_false] at hrest
        obtain ⟨cl, lob', hlast, hwfcl, hparts⟩ :=
          wfChildrenB_last lob ks (c₂ :: cs₂) hib hrest hasc hbound
        have hclmem : cl ∈ c₂ :: cs₂ := List.mem_of_mem_getLast? hlast
        have hhcl : BNode.height cl ≤ fuel := by
          have h1 : BNode.height (.mk i ks (c₂ :: cs₂)) =
              1 + BNode.heightL (c₂ :: cs₂) := rfl
          have h2 := btHeightL_mem hclmem
          omega
        obtain ⟨m, hrun, hmem, hmax⟩ := ih cl lob' hib hwfcl hhcl
        refine ⟨m, ?_, List.mem_append_right _ (btAllKeysL_mem hclmem hmem),
          ?_⟩
        · intro s
          rw [show BTree.getPredecessorGo (fuel + 1) (.mk i ks (c₂ :: cs₂)) =
            (match (c₂ :: cs₂).getLast? with
             | some c => BTree.getPredecessorGo fuel c
             | none => throw .indexError) from rfl, hlast]
          exact hrun s
        · intro k hk
          rw [show BNode.allKeys (.mk i ks (c₂ :: cs₂)) =
            ks ++ BNode.allKeysL (c₂ :: cs₂) from rfl,
            List.mem_append] at hk
          obtain ⟨hp1, hp2⟩ := hparts m hmem hmax
          cases hk with
          | inl hk₂ => exact hp1 k hk₂
          | inr hk₂ => exact hp2 k hk₂

/-! ## Event-append monotonicity of the B-Tree mutators (C8) -/

/-- The computation only appends trace events, whatever else it does to the
state (every primitive of the engine either appends to the log or leaves it
alone; nothing on the operation paths removes events). -/
def EvMono {α : Type} (m : BM α) : Prop :=
  ∀ s : BTState, ∃ es : List Event,
    ((m.run.run s).2).tracer.events = s.tracer.events ++ es

theorem evMono_of_bmSafe {α : Type} {m : BM α} (h : BMSafe m) : EvMono m :=
  fun s => (h s).2.2.2.2.2.2.2

theorem evMono_bind {α β : Type} {m : BM α} {f : α → BM β}
    (hm : EvMono m) (hf : ∀ a, EvMono (f a)) : EvMono (m >>= f) := by
  intro s
  rcases hrun : m.run.run s with ⟨r, s₁⟩
  obtain ⟨es₁, h₁⟩ :
      ∃ es, s₁.tracer.events = s.tracer.events ++ es := by
    have h := hm s
    rw [hrun] at h
    exact h
  cases r with
  | ok a =>
    rw [bm_bind_ok hrun]
    obtain ⟨es₂, h₂⟩ := hf a s₁
    exact ⟨es₁ ++ es₂, by rw [h₂, h₁, List.append_assoc]⟩
  | error e =>
    rw [bm_bind_error hrun]
    exact ⟨es₁, h₁⟩

theorem evMono_pure {α : Type} (a : α) : EvMono (pure a : BM α) :=
  fun s => ⟨[], (List.append_nil _).symm⟩

theorem evMono_throw {α : Type} (e : PyErr) : EvMono (throw e : BM α) :=
  fun s => ⟨[], (List.append_nil _).symm⟩

theorem evMono_emitEv (ty : EvType) (nid : Option Nat)
    (info : List (String × PVal)) : EvMono (BTree.emitEv ty nid info) := by
  intro s
  show ∃ es, ({ s with tracer := s.tracer.emit ty nid info }).tracer.events =
    s.tracer.events ++ es
  unfold Tracer.emit
  split
  · exact ⟨[⟨ty, nid, info, s.tracer.currentOpId⟩], rfl⟩
  · exact ⟨[], (List.append_nil _).symm⟩

theorem evMono_tick : EvMono BTree.tick :=
  fun s => ⟨[], (List.append_nil _).symm⟩

theorem evMono_getMinKeys : EvMono BTree.getMinKeys :=
  fun s => ⟨[], (List.append_nil _).symm⟩

theorem getPredecessorGo_state :
    ∀ (fuel : Nat) (c : BNode) (s : BTState),
      ((BTree.getPredecessorGo fuel c).run.run s).2 = s
  | 0, _, _ => rfl
  | fuel + 1, c, s => by
    rw [show BTree.getPredecessorGo (fuel + 1) c =
      (if c.isLeaf then
        (match c.keys.getLast? with
         | some k => (pure k : BM Int)
         | none => throw .indexError)
       else
        (match c.children.getLast? with
         | some c₂ => BTree.getPredecessorGo fuel c₂
         | none => throw .indexError)) from rfl]
    split
    · split <;> rfl
    · split
      · exact getPredecessorGo_state fuel _ s
      · rfl

theorem evMono_getPredecessorGo (fuel : Nat) (c : BNode) :
    EvMono (BTree.getPredecessorGo fuel c) :=
  fun s => ⟨[], by rw [getPredecessorGo_state fuel c s, List.append_nil]⟩

theorem evMono_getPredecessor (fuel : Nat) (node : BNode) (keyIdx : Nat) :
    EvMono (BTree.getPredecessor fuel node keyIdx) := by
  unfold BTree.getPredecessor
  split
  · exact evMono_getPredecessorGo _ _
  · exact evMono_throw _

theorem evMono_redistributeFromLeft (parent : BNode) (childIdx : Nat) :
    EvMono (BTree.redistributeFromLeft parent childIdx) := by
  unfold BTree.redistributeFromLeft
  split
  · split
    · exact evMono_throw _
    · simp only []
      split
      · exact evMono_bind (evMono_pure _) fun y =>
          evMono_bind (evMono_emitEv _ _ _) fun _ => evMono_pure _
      · split
        · exact evMono_bind (evMono_pure _) fun y =>
            evMono_bind (evMono_emitEv _ _ _) fun _ => evMono_pure _
        · exact evMono_throw _
  · exact evMono_throw _

theorem evMono_redistributeFromRight (parent : BNode) (childIdx : Nat) :
    EvMono (BTree.redistributeFromRight parent childIdx) := by
  unfold BTree.redistributeFromRight
  split
  · split
    · exact evMono_throw _
    · simp only []
      split
      · exact evMono_bind (evMono_pure _) fun y =>
          evMono_bind (evMono_emitEv _ _ _) fun _ => evMono_pure _
      · split
        · exact evMono_bind (evMono_pure _) fun y =>
            evMono_bind (evMono_emitEv _ _ _) fun _ => evMono_pure _
        · exact evMono_throw _
  · exact evMono_throw _

theorem evMono_mergeWithLeft (parent : BNode) (childIdx : Nat) :
    EvMono (BTree.mergeWithLeft parent childIdx) := by
  unfold BTree.mergeWithLeft
  split
  · exact evMono_bind (evMono_emitEv _ _ _) fun _ => evMono_pure _
  · exact evMono_throw _

theorem evMono_mergeWithRight (parent : BNode) (childIdx : Nat) :
    EvMono (BTree.mergeWithRight parent childIdx) := by
  unfold BTree.mergeWithRight
  split
  · exact evMono_bind (evMono_emitEv _ _ _) fun _ => evMono_pure _
  · exact evMono_throw _

theorem evMono_handleUnderflow (parent : BNode) (childIdx : Nat) :
    EvMono (BTree.handleUnderflow parent childIdx) := by
  unfold BTree.handleUnderflow
  split
  · exact evMono_throw _
  · refine evMono_bind evMono_getMinKeys fun minK => ?_
    refine evMono_bind (evMono_emitEv _ _ _) fun _ => ?_
    simp only []
    split
    · exact evMono_redistributeFromLeft _ _
    · split
      · exact evMono_redistributeFromRight _ _
      · split
        · exact evMono_mergeWithLeft _ _
        · exact evMono_mergeWithRight _ _

theorem evMono_deleteRec :
    ∀ (fuel : Nat) (node : BNode) (key : Int),
      EvMono (BTree.deleteRec fuel node key)
  | 0, _, _ => evMono_throw _
  | fuel + 1, node, key => by
    simp only [BTree.deleteRec]
    refine evMono_bind (evMono_emitEv _ _ _) fun _ => ?_
    refine evMono_bind evMono_tick fun _ => ?_
    refine evMono_bind (evMono_of_bmSafe (bmSafe_searchScan _ _ _ _))
      fun kIdx => ?_
    cases kIdx with
    | some idx =>
      refine evMono_bind (evMono_emitEv _ _ _) fun _ => ?_
      by_cases hL : node.isLeaf = true
      · rw [if_pos hL]
        exact evMono_bind (evMono_emitEv _ _ _) fun _ => evMono_pure _
      · rw [if_neg hL]
        refine evMono_bind (evMono_getPredecessor _ _ _) fun p => ?_
        refine evMono_bind (evMono_emitEv _ _ _) fun _ => ?_
        split
        · exact evMono_throw _
        · refine evMono_bind (evMono_deleteRec fuel _ _) fun c₂ => ?_
          refine evMono_bind evMono_getMinKeys fun minK => ?_
          split
          · exact evMono_handleUnderflow _ _
          · exact evMono_pure _
    | none =>
      by_cases hL : node.isLeaf = true
      · rw [if_pos hL]
        exact evMono_pure _
      · rw [if_neg hL]
        refine evMono_bind (evMono_emitEv _ _ _) fun _ => ?_
        split
        · exact evMono_throw _
        · refine evMono_bind (evMono_deleteRec fuel _ _) fun c₂ => ?_
          refine evMono_bind evMono_getMinKeys fun minK => ?_
          split
          · exact evMono_handleUnderflow _ _
          · exact evMono_pure _

theorem tracer_emit_append {t : Tracer} (hen : t.enabled = true)
    (ty : EvType) (nid : Option Nat) (info : List (String × PVal)) :
    (t.emit ty nid info).events =
      t.events ++ [⟨ty, nid, info, t.currentOpId⟩] := by
  unfold Tracer.emit
  rw [if_pos hen]

theorem replacementKeys_append (a b : List Event) :
    replacementKeys (a ++ b) = replacementKeys a ++ replacementKeys b := by
  unfold replacementKeys
  rw [List.filter_append, List.filterMap_append]

theorem replacementKeys_mem {e : Event} {events : List Event} {p : Int}
    (hmem : e ∈ events) (hty : e.type = EvType.replaceWithPredecessor)
    (hpl : predPayload e = some p) : p ∈ replacementKeys events := by
  unfold replacementKeys
  refine List.mem_filterMap.mpr ⟨e, ?_, hpl⟩
  refine List.mem_filter.mpr ⟨hmem, ?_⟩
  simp [hty]

/-- `searchScan` finds the key at its position when every key left of it is
smaller (the state change is a trace/metrics effect only). -/
theorem searchScan_found (nid : Nat) (key : Int) :
    ∀ (ks₁ : List Int) (i : Nat) (ks₂ : List Int),
      (∀ a ∈ ks₁, a < key) →
      ∀ s : BTState, ∃ s₂,
        (BTree.searchScan nid key i (ks₁ ++ key :: ks₂)).run.run s =
          (.ok (some (ks₁.length + i)), s₂) ∧
        s₂.tracer.enabled = s.tracer.enabled ∧
        ∃ es, s₂.tracer.events = s.tracer.events ++ es
  | [], i, ks₂, _, s => by
    refine ⟨{ s with tracer := (s.tracer.emit .compareKey (some nid)
        [("key_index", .pInt i), ("node_key", .pInt key),
         ("target_key", .pInt key)]) }, ?_, ?_, ?_⟩
    · rw [show BTree.searchScan nid key i ([] ++ key :: ks₂) =
        (BTree.emitEv .compareKey (some nid)
          [("key_index", .pInt i), ("node_key", .pInt key),
           ("target_key", .pInt key)] >>= fun _ =>
         if key == key then pure (some i)
         else if key < key then pure none
         else BTree.searchScan nid key (i + 1) ks₂) from rfl,
        run_bm_emit_bind, beq_self_eq_true key, if_pos rfl, run_bm_pure]
      simp
    · exact tracer_emit_enabled _ _ _ _
    · cases hen : s.tracer.enabled with
      | true =>
        exact ⟨_, tracer_emit_append hen _ _ _⟩
      | false =>
        refine ⟨[], ?_⟩
        show (s.tracer.emit _ _ _).events = _
        unfold Tracer.emit
        rw [if_neg (by rw [hen]; exact Bool.false_ne_true), List.append_nil]
  | k :: ks₁, i, ks₂, hlt, s => by
    have hklt : k < key := hlt k (List.mem_cons_self _ _)
    have hne : (key == k) = false := by
      rw [beq_eq_false_iff_ne]
      omega
    have hnlt : ¬ key < k := by omega
    obtain ⟨s₂, hrec, hen₂, hev₂⟩ := searchScan_found nid key ks₁ (i + 1) ks₂
      (fun a ha => hlt a (List.mem_cons_of_mem _ ha))
      { s with tracer := (s.tracer.emit .compareKey (some nid)
        [("key_index", .pInt i), ("node_key", .pInt k),
         ("target_key", .pInt key)]) }
    have hidx : ks₁.length + (i + 1) = (k :: ks₁).length + i := by
      simp
      omega
    rw [hidx] at hrec
    refine ⟨s₂, ?_, ?_, ?_⟩
    · rw [show BTree.searchScan nid key i ((k :: ks₁) ++ key :: ks₂) =
        (BTree.emitEv .compareKey (some nid)
          [("key_index", .pInt i), ("node_key", .pInt k),
           ("target_key", .pInt key)] >>= fun _ =>
         if key == k then pure (some i)
         else if key < k then pure none
         else BTree.searchScan nid key (i + 1) (ks₁ ++ key :: ks₂))
        from rfl, run_bm_emit_bind, hne]
      simp only [Bool.false_eq_true, if_false]
      rw [if_neg hnlt]
      exact hrec
    · rw [hen₂]
      exact tracer_emit_enabled _ _ _ _
    · obtain ⟨es, hes⟩ := hev₂
      cases hen : s.tracer.enabled with
      | true =>
        refine ⟨⟨.compareKey, some nid,
          [("key_index", .pInt i), ("node_key", .pInt k),
           ("target_key", .pInt key)], s.tracer.currentOpId⟩ :: es, ?_⟩
        rw [hes]
        show (s.tracer.emit _ _ _).events ++ es = _
        rw [tracer_emit_append hen]
        simp
      | false =>
        refine ⟨es, ?_⟩
        rw [hes]
        show (s.tracer.emit _ _ _).events ++ es = _
        unfold Tracer.emit
        rw [if_neg (by rw [hen]; exact Bool.false_ne_true)]

/-- The child sitting left of a located separator in a sorted child list. -/
theorem wfChildrenB_get_left :
    ∀ (lob : Option Int) (ks₁ : List Int) (key : Int) (ks₂ : List Int)
      (cs : List BNode) (hib : Option Int),
      BNode.wfChildrenB lob (ks₁ ++ key :: ks₂) cs hib = true →
      ∃ (left : BNode) (lob' : Option Int),
        cs.get? ks₁.length = some left ∧
        BNode.wfB left lob' (some key) = true
  | lob, [], key, ks₂, cs, hib, h => by
    cases cs with
    | nil => exact nomatch h
    | cons c cs₂ =>
      rw [show BNode.wfChildrenB lob ([] ++ key :: ks₂) (c :: cs₂) hib =
        (BNode.wfB c lob (some key) &&
          BNode.wfChildrenB (some key) ks₂ cs₂ hib) from rfl,
        Bool.and_eq_true] at h
      exact ⟨c, lob, rfl, h.1⟩
  | lob, k :: ks₁, key, ks₂, cs, hib, h => by
    cases cs with
    | nil => exact nomatch h
    | cons c cs₂ =>
      rw [show BNode.wfChildrenB lob ((k :: ks₁) ++ key :: ks₂) (c :: cs₂) hib
        = (BNode.wfB c lob (some k) &&
          BNode.wfChildrenB (some k) (ks₁ ++ key :: ks₂) cs₂ hib) from rfl,
        Bool.and_eq_true] at h
      obtain ⟨left, lob', hget, hwf⟩ :=
        wfChildrenB_get_left (some k) ks₁ key ks₂ cs₂ hib h.2
      exact ⟨left, lob', hget, hwf⟩

theorem emit2_props (S : BTState) (ty1 ty2 : EvType) (n1 n2 : Option Nat)
    (i1 i2 : List (String × PVal)) (hen : S.tracer.enabled = true) :
    ({ { S with tracer := (S.tracer.emit ty1 n1 i1) } with
        tracer := (({ S with tracer := (S.tracer.emit ty1 n1 i1) }).tracer.emit
          ty2 n2 i2) }).tracer.enabled = true ∧
    ∃ (es : List Event) (ev : Event),
      ({ { S with tracer := (S.tracer.emit ty1 n1 i1) } with
        tracer := (({ S with tracer := (S.tracer.emit ty1 n1 i1) }).tracer.emit
          ty2 n2 i2) }).tracer.events = es ++ [ev] ∧
      ev.type = ty2 ∧ ev.info = i2 := by
  have hen1 : (S.tracer.emit ty1 n1 i1).enabled = true := by
    rw [tracer_emit_enabled]
    exact hen
  constructor
  · show ((S.tracer.emit ty1 n1 i1).emit ty2 n2 i2).enabled = true
    rw [tracer_emit_enabled]
    exact hen1
  · refine ⟨(S.tracer.emit ty1 n1 i1).events,
      ⟨ty2, n2, i2, (S.tracer.emit ty1 n1 i1).currentOpId⟩, ?_, rfl, rfl⟩
    show ((S.tracer.emit ty1 n1 i1).emit ty2 n2 i2).events = _
    exact tracer_emit_append hen1 ty2 n2 i2

theorem evMono_deleteCont (fuel : Nat) (left : BNode) (p : Int) (nid : Nat)
    (ks : List Int) (cs : List BNode) (idx : Nat) :
    EvMono (BTree.deleteRec fuel left p >>= fun c₂ =>
      BTree.getMinKeys >>= fun minK =>
      if c₂.keys.length < minK then
        BTree.handleUnderflow (.mk nid (ks.set idx p) (cs.set idx c₂)) idx
      else
        pure (.mk nid (ks.set idx p) (cs.set idx c₂))) := by
  refine evMono_bind (evMono_deleteRec fuel left p) fun c₂ => ?_
  refine evMono_bind evMono_getMinKeys fun minK => ?_
  split
  · exact evMono_handleUnderflow _ _
  · exact evMono_pure _

/-- C8 (amended): when `_delete_recursive` of the B-Tree finds the target
key among the keys of an internal node of a sorted tree, it always replaces
the key with its in-order predecessor - the right-most key of the left
subtree, which is that subtree's maximum, computed by `_get_predecessor` -
and then recursively deletes the predecessor from the left subtree,
repairing underflow afterwards.  No occupancy condition is consulted: the
in-order successor is never used, even when the left subtree is at minimum
occupancy.  The `replace_with_predecessor` event carrying the predecessor
survives into the trace of the completed call. -/
theorem c8_amended_predecessor_replacement
    (fuel : Nat) (key : Int) (nid : Nat) (ks : List Int) (cs : List BNode)
    (lob hib : Option Int) (s : BTState)
    (hwf : BNode.wfB (.mk nid ks cs) lob hib = true)
    (hmem : key ∈ ks) (hcs : cs ≠ [])
    (hen : s.tracer.enabled = true)
    (hh : BNode.height (.mk nid ks cs) ≤ fuel + 1) :
    ∃ (ks₁ ks₂ : List Int) (left : BNode) (p : Int) (sMid : BTState),
      ks = ks₁ ++ key :: ks₂ ∧
      cs.get? ks₁.length = some left ∧
      listMax (BNode.allKeys left) = some p ∧
      (BTree.deleteRec (fuel + 1) (.mk nid ks cs) key).run.run s =
        ((BTree.deleteRec fuel left p >>= fun c₂ =>
          BTree.getMinKeys >>= fun minK =>
          if c₂.keys.length < minK then
            BTree.handleUnderflow
              (.mk nid (ks.set ks₁.length p) (cs.set ks₁.length c₂))
              ks₁.length
          else
            pure (.mk nid (ks.set ks₁.length p)
              (cs.set ks₁.length c₂))) : BM BNode).run.run sMid ∧
      p ∈ replacementKeys
        (((BTree.deleteRec (fuel + 1) (.mk nid ks cs) key).run.run
          s).2.tracer.events) := by
  obtain ⟨ks₁, ks₂, rfl⟩ := List.append_of_mem hmem
  cases cs with
  | nil => exact absurd rfl hcs
  | cons c₀ cs₀ =>
    have hwf₂ := hwf
    simp only [BNode.wfB, Bool.and_eq_true] at hwf₂
    obtain ⟨⟨⟨hasc, hbound⟩, -⟩, hrest⟩ := hwf₂
    simp only [List.isEmpty_cons, Bool.false_eq_true, if_false] at hrest
    have hpw := pairwise_of_strictAsc hasc
    rcases List.pairwise_append.mp hpw with ⟨-, -, hcross⟩
    have hlt : ∀ a ∈ ks₁, a < key := fun a ha =>
      hcross a ha key (List.mem_cons_self _ _)
    obtain ⟨left, lob', hget, hwfl⟩ :=
      wfChildrenB_get_left lob ks₁ key ks₂ (c₀ :: cs₀) hib hrest
    have hlmem : left ∈ c₀ :: cs₀ := List.get?_mem hget
    have hhl : BNode.height left ≤ fuel := by
      have h1 : BNode.height (BNode.mk nid (ks₁ ++ key :: ks₂) (c₀ :: cs₀)) =
          1 + BNode.heightL (c₀ :: cs₀) := rfl
      have h2 := btHeightL_mem hlmem
      omega
    obtain ⟨p, hgo, hpmem, hpmax⟩ :=
      getPredecessorGo_max fuel left lob' (some key) hwfl hhl
    have hmax : listMax (BNode.allKeys left) = some p :=
      listMax_eq_some hpmem hpmax
    choose sF hrunF henF hevF using searchScan_found nid key ks₁ 0 ks₂ hlt
    have hgp : ∀ s₂ : BTState,
        (BTree.getPredecessor fuel
          (.mk nid (ks₁ ++ key :: ks₂) (c₀ :: cs₀)) ks₁.length).run.run s₂ =
          (.ok p, s₂) := by
      intro s₂
      rw [show BTree.getPredecessor fuel
          (.mk nid (ks₁ ++ key :: ks₂) (c₀ :: cs₀)) ks₁.length =
        (match (c₀ :: cs₀).get? ks₁.length with
         | some c => BTree.getPredecessorGo fuel c
         | none => throw .indexError) from rfl, hget]
      exact hgo s₂
    have hSen : (sF { { s with tracer := (s.tracer.emit .visitNode (some nid)
        [("keys", .pList (ks₁ ++ key :: ks₂))]) } with
        metrics := ({ s with tracer := (s.tracer.emit .visitNode (some nid)
          [("keys", .pList (ks₁ ++ key :: ks₂))]) }).metrics.tickNodeAccess
      }).tracer.enabled = true := by
      rw [henF]
      show (s.tracer.emit .visitNode (some nid)
        [("keys", .pList (ks₁ ++ key :: ks₂))]).enabled = true
      rw [tracer_emit_enabled]
      exact hen
    have hstep : ∃ sMid : BTState,
        (BTree.deleteRec (fuel + 1)
          (.mk nid (ks₁ ++ key :: ks₂) (c₀ :: cs₀)) key).run.run s =
          ((BTree.deleteRec fuel left p >>= fun c₂ =>
            BTree.getMinKeys >>= fun minK =>
            if c₂.keys.length < minK then
              BTree.handleUnderflow
                (.mk nid ((ks₁ ++ key :: ks₂).set ks₁.length p)
                  ((c₀ :: cs₀).set ks₁.length c₂)) ks₁.length
            else
              pure (.mk nid ((ks₁ ++ key :: ks₂).set ks₁.length p)
                ((c₀ :: cs₀).set ks₁.length c₂))) : BM BNode).run.run sMid ∧
        sMid.tracer.enabled = true ∧
        ∃ (es : List Event) (ev : Event),
          sMid.tracer.events = es ++ [ev] ∧
          ev.type = EvType.replaceWithPredecessor ∧
          ev.info = [("key", PVal.pInt key), ("predecessor", PVal.pInt p),
            ("key_index", PVal.pInt ks₁.length)] := by
      simp only [BTree.deleteRec, BNode.id, BNode.keys, BNode.children,
        BNode.isLeaf, List.isEmpty_cons, Bool.false_eq_true, if_false]
      rw [run_bm_emit_bind, run_bm_tick_bind, bm_bind_ok (hrunF _)]
      simp only [Nat.add_zero]
      rw [run_bm_emit_bind, bm_bind_ok (hgp _)]
      rw [run_bm_emit_bind, hget]
      refine ⟨_, rfl, ?_, ?_⟩
      · exact (emit2_props _ _ _ _ _ _ _ hSen).1
      · exact (emit2_props _ _ _ _ _ _ _ hSen).2
    obtain ⟨sMid, heq, henM, es, ev, hevs, hty, hinfo⟩ := hstep
    refine ⟨ks₁, ks₂, left, p, sMid, rfl, hget, hmax, heq, ?_⟩
    rw [heq]
    obtain ⟨es₂, hes₂⟩ := evMono_deleteCont fuel left p nid
      (ks₁ ++ key :: ks₂) (c₀ :: cs₀) ks₁.length sMid
    rw [hes₂, hevs]
    refine replacementKeys_mem ?_ hty ?_
    · exact List.mem_append_left _
        (List.mem_append_right _ (List.mem_cons_self _ _))
    · unfold predPayload
      rw [hinfo]
      rfl

/-- C8 amended witness: in `predState` the key 100 sits in the internal
root whose left subtree `predLeft` is at minimum occupancy; one unfolding
of `_delete_recursive` still replaces 100 by the left-subtree maximum and
recurses into `predLeft`, and the replacement key appears in the trace. -/
theorem c8_amended_witness :
    BNode.wfB (.mk 0 [100] [predLeft, predRight]) none none = true ∧
    (100 : Int) ∈ ([100] : List Int) ∧
    predState.tracer.enabled = true ∧
    BNode.height (.mk 0 [100] [predLeft, predRight]) ≤ 9 + 1 ∧
    ∃ (ks₁ ks₂ : List Int) (left : BNode) (p : Int) (sMid : BTState),
      ([100] : List Int) = ks₁ ++ 100 :: ks₂ ∧
      [predLeft, predRight].get? ks₁.length = some left ∧
      listMax (BNode.allKeys left) = some p ∧
      (BTree.deleteRec (9 + 1) (.mk 0 [100] [predLeft, predRight])
        100).run.run predState =
        ((BTree.deleteRec 9 left p >>= fun c₂ =>
          BTree.getMinKeys >>= fun minK =>
          if c₂.keys.length < minK then
            BTree.handleUnderflow
              (.mk 0 (([100] : List Int).set ks₁.length p)
                ([predLeft, predRight].set ks₁.length c₂)) ks₁.length
          else
            pure (.mk 0 (([100] : List Int).set ks₁.length p)
              ([predLeft, predRight].set ks₁.length c₂))) : BM BNode).run.run
          sMid ∧
      p ∈ replacementKeys
        (((BTree.deleteRec (9 + 1) (.mk 0 [100] [predLeft, predRight])
          100).run.run predState).2.tracer.events) :=
  ⟨by decide, by decide, rfl, by decide,
    c8_amended_predecessor_replacement 9 100 0 [100] [predLeft, predRight]
      none none predState (by decide) (by decide) (List.cons_ne_nil _ _) rfl
      (by decide)⟩
